import Mathlib

/-!
# The commit engine of libmultiverse (`src/libmultiverse/mv_commit.c`)

A shallow embedding of the commit engine and proofs about it.

Modelling conventions
* Pointers are natural numbers, `0` is `NULL`.  A pointer to a variant
  `&fn->mv_functions[f]` is the index `f`; a possibly-`NULL` variant pointer
  is an `Option Nat`.  A pointer to a patch point
  `&fn->extra->patchpoints[i]` is the pair of the function pointer and `i`.
* A C array together with its element count (`n_assignments`/`assignments`,
  `n_mv_functions`/`mv_functions`, ...) is a `List`.
* The descriptor records are immutable in this file except for the two fields
  `fn->extra->active_mvfn` and `var->extra->bound`; these two fields are kept
  in the mutable `State` as maps from the descriptor pointer to the field value.
* Everything the code does to the outside world (`calloc`, `free`, `mprotect`,
  the two calls to the architecture back end) is appended to `State.log` in
  program order.  Output to `stdout`/`stderr` is not modelled.
* A function whose C body can abort the process (`assert (0 && ...)`, a store
  through a `NULL` pointer) returns an `Option`; `none` is the abort.
* `int` values are `Int`; the counters never get near the `int` range.
-/

namespace Multiverse

/-- Pointers; `0` is `NULL`. -/
abbrev Ptr := Nat

/-! ## Descriptors -/

/-- One `struct mv_info_assignment`: `var` is the member `variable`, a pointer
to a `struct mv_info_var` (the C name is a reserved word here); the bounds
are `mv_value_t` (unsigned) values. -/
structure mv_info_assignment where
  var : Ptr
  lower_bound : Nat
  upper_bound : Nat
deriving DecidableEq, Repr

/-- One `struct mv_info_mvfn`, restricted to the fields the commit engine
reads: the array `assignments` of length `n_assignments`. -/
structure mv_info_mvfn where
  assignments : List mv_info_assignment
deriving DecidableEq, Repr

/-- Modelled from the spec: the enumerator `PP_TYPE_INVALID` of the patch point
kind, declared in `multiverse.h` (not part of the sources at hand).  The spec
only says that the kind `Invalid` means "skip"; the kind is a number and
`PP_TYPE_INVALID` is the first enumerator. -/
def PP_TYPE_INVALID : Nat := 0

/-- One `struct mv_patchpoint`, restricted to the fields read here. -/
structure mv_patchpoint where
  type : Nat
  location : Ptr
deriving DecidableEq, Repr

/-- One `struct mv_info_fn` with the immutable part of its `extra` record:
`mv_functions` (length `n_mv_functions`) and `extra->patchpoints` (length
`extra->n_patchpoints`).  The mutable field `extra->active_mvfn` lives in
`State.active_mvfn`. -/
structure mv_info_fn where
  mv_functions : List mv_info_mvfn
  patchpoints : List mv_patchpoint
deriving DecidableEq, Repr

/-- One `struct mv_info_var` with the immutable part of its `extra` record:
`extra->functions` (length `extra->n_functions`) holds pointers to the
functions that refer to the variable.  The mutable field `extra->bound` lives
in `State.bound`. -/
structure mv_info_var where
  variable_width : Nat
  variable_location : Ptr
  flag_tracked : Bool
  functions : List Ptr
deriving DecidableEq, Repr

/-- One `struct mv_info` block of the global list: `functions` lists the
addresses `&info->functions[i]` for `i < info->n_functions`, in array order. -/
structure mv_info where
  functions : List Ptr
deriving DecidableEq, Repr

/-- The descriptor data and the host constants, fixed during all calls. -/
structure Descriptors where
  /-- the result of `sysconf(_SC_PAGESIZE)` -/
  pagesize : Nat
  /-- dereferencing a `struct mv_info_var *` -/
  vars : Ptr → mv_info_var
  /-- dereferencing a `struct mv_info_fn *` -/
  fns : Ptr → mv_info_fn
  /-- the global list `mv_information`, following `next` -/
  mv_information : List mv_info
  /-- the lookup `multiverse_info_fn` (defined outside `mv_commit.c`), taken
  as given: `none` is the `NULL` result -/
  multiverse_info_fn : Ptr → Option Ptr
  /-- the lookup `multiverse_info_var` (defined outside `mv_commit.c`), taken
  as given: `none` is the `NULL` result -/
  multiverse_info_var : Ptr → Option Ptr

/-! ## Mutable state and effects -/

/-- The two protections the code passes to `mprotect`. -/
inductive Prot where
  /-- The protection `PROT_READ | PROT_EXEC` -/
  | read_exec
  /-- The protection `PROT_READ | PROT_WRITE | PROT_EXEC` -/
  | read_write_exec
deriving DecidableEq, Repr

/-- The observable actions of the engine, in the order they are issued. -/
inductive Event where
  /-- The `calloc` of a selection context -/
  | calloc
  /-- The `free` of a selection context -/
  | free
  /-- The call `mprotect(page, pagesize, prot)` -/
  | mprotect (page : Ptr) (prot : Prot)
  /-- The call `multiverse_arch_patchpoint_apply(fn, mvfn, pp)`, `pp` being patch point
  number `pp` of `fn` -/
  | arch_apply (fn : Ptr) (mvfn : Nat) (pp : Nat)
  /-- The call `multiverse_arch_patchpoint_revert(pp)`, `pp` being patch point number
  `pp` of `fn` -/
  | arch_revert (fn : Ptr) (pp : Nat)
deriving DecidableEq, Repr

/-- The mutable state. -/
structure State where
  /-- whether the next `calloc` succeeds -/
  calloc_ok : Bool
  /-- byte-addressed memory holding the multiverse variables -/
  mem : Ptr → Nat
  /-- the field `var->extra->bound`, by variable pointer -/
  bound : Ptr → Int
  /-- the field `fn->extra->active_mvfn`, by function pointer -/
  active_mvfn : Ptr → Option Nat
  /-- the pages that currently have `PROT_WRITE`, by page address -/
  writable : Ptr → Bool
  /-- the variant each patch point currently transfers to (`none`: the
  generic form), by function pointer and patch point number -/
  installed : Ptr → Nat → Option Nat
  /-- the actions issued so far, oldest first -/
  log : List Event

/-! ## `multiverse_var_read` -/

/-- The byte at address `a`. -/
def load_byte (mem : Ptr → Nat) (a : Ptr) : Nat := mem a % 256

/-- An unsigned little-endian load of `w` bytes at address `a`. -/
def load_le (mem : Ptr → Nat) (a : Ptr) : Nat → Nat
  | 0 => 0
  | w + 1 => load_byte mem a + 256 * load_le mem (a + 1) w

/-- The function `multiverse_var_read`: the value of the variable, read with
its declared width (`sizeof(unsigned char) = 1`, `sizeof(unsigned short) = 2`,
`sizeof(unsigned int) = 4`); any other width runs into `assert (0 && ...)`. -/
def multiverse_var_read (var : mv_info_var) (mem : Ptr → Nat) : Option Nat :=
  if var.variable_width = 1 then some (load_le mem var.variable_location 1)
  else if var.variable_width = 2 then some (load_le mem var.variable_location 2)
  else if var.variable_width = 4 then some (load_le mem var.variable_location 4)
  else none

/-! ## The page protection cache -/

/-- The `mv_select_ctx_t` record: `cache_size` and the array `cache[10]`. -/
structure mv_select_ctx_t where
  cache_size : Nat
  cache : List Ptr
deriving DecidableEq, Repr

/-- The width of `uintptr_t` in bits. -/
def uintptr_bits : Nat := 64

/-- The expression `(uintptr_t) addr & ~(pagesize - 1)`, in `uintptr_t`
arithmetic. -/
def page_of (pagesize : Nat) (addr : Ptr) : Ptr :=
  addr &&& (2 ^ uintptr_bits - 1 - (pagesize + 2 ^ uintptr_bits - 1) % 2 ^ uintptr_bits)

/-- The system call `mprotect(page, pagesize, prot)` on a mapped page: it
succeeds, and the page is writable afterwards exactly when `prot` has
`PROT_WRITE`.  (When the call fails the code aborts the process.) -/
def mprotect (page : Ptr) (prot : Prot) (s : State) : State :=
  { s with
    writable := Function.update s.writable page (decide (prot = Prot.read_write_exec))
    log := s.log ++ [Event.mprotect page prot] }

/-- The function `multiverse_select_start`: `calloc` a zeroed context and set
`cache_size` to 10.  The result of `calloc` is not checked before the store to
`ret->cache_size`, so a failed `calloc` ends in a store through `NULL`
(`none`).  The inner `Option` is the returned pointer. -/
def multiverse_select_start (s : State) : Option (Option mv_select_ctx_t × State) :=
  if s.calloc_ok then
    some (some { cache_size := 10, cache := List.replicate 10 0 },
          { s with log := s.log ++ [Event.calloc] })
  else none

/-- The function `multiverse_select_protect`: make the page of `addr`
read+execute.  The context is not used (`(void) ctx`). -/
def multiverse_select_protect (D : Descriptors) (_ctx : mv_select_ctx_t) (addr : Ptr)
    (s : State) : State :=
  mprotect (page_of D.pagesize addr) Prot.read_exec s

/-- The loop of `multiverse_select_end` over the slots `i, i+1, ...` given as
a list of indices. -/
def select_end_loop (D : Descriptors) (ctx : mv_select_ctx_t) : List Nat → State → State
  | [], s => s
  | i :: is, s =>
    if ctx.cache.getD i 0 ≠ 0 then
      select_end_loop D ctx is (multiverse_select_protect D ctx (ctx.cache.getD i 0) s)
    else select_end_loop D ctx is s

/-- The function `multiverse_select_end`: re-protect every non-`NULL` slot
with index below `cache_size`, then `free` the context. -/
def multiverse_select_end (D : Descriptors) (ctx : mv_select_ctx_t) (s : State) : State :=
  let s1 := select_end_loop D ctx (List.range ctx.cache_size) s
  { s1 with log := s1.log ++ [Event.free] }

/-- The loop `for (j = i; j > 0; j--) cache[j] = cache[j-1];`. -/
def shift_loop (cache : List Ptr) : Nat → List Ptr
  | 0 => cache
  | j + 1 => shift_loop (cache.set (j + 1) (cache.getD j 0)) j

/-- The function `multiverse_select_unprotect`.  The search loop returns at the
first slot below `cache_size` that holds `page`, after moving the slots before
it one up and writing `page` to slot 0; otherwise the page is made writable, the
page in the last slot (if not `NULL`) is re-protected, and the slots are
shifted by the loop that starts at `cache_size - 2`. -/
def multiverse_select_unprotect (D : Descriptors) (ctx : mv_select_ctx_t) (addr : Ptr)
    (s : State) : mv_select_ctx_t × State :=
  let page := page_of D.pagesize addr
  match (List.range ctx.cache_size).find? (fun i => ctx.cache.getD i 0 == page) with
  | some i =>
    ({ ctx with cache := (shift_loop ctx.cache i).set 0 page }, s)
  | none =>
    let s1 := mprotect page Prot.read_write_exec s
    let last := ctx.cache.getD (ctx.cache_size - 1) 0
    let s2 := if last ≠ 0 then multiverse_select_protect D ctx last s1 else s1
    ({ ctx with cache := (shift_loop ctx.cache (ctx.cache_size - 2)).set 0 page }, s2)

/-! ## The architecture back end -/

/-- Modelled from the spec: `multiverse_arch_patchpoint_apply(fn, mvfn, pp)`,
declared in `arch.h` and defined in the architecture back end (not part of the
sources at hand).  The spec: "rewrite patch point `P` in the text segment so
that the call reaches variant `V`".  Here the patch point `pp` of `fn`
transfers to `mvfn` afterwards, and the call is logged. -/
def multiverse_arch_patchpoint_apply (fn : Ptr) (mvfn : Nat) (pp : Nat) (s : State) : State :=
  { s with
    installed := Function.update s.installed fn (Function.update (s.installed fn) pp (some mvfn))
    log := s.log ++ [Event.arch_apply fn mvfn pp] }

/-- Modelled from the spec: `multiverse_arch_patchpoint_revert(pp)`, declared
in `arch.h` and defined in the architecture back end (not part of the sources
at hand).  The spec: "restore the patch point to its generic form".  Here the
patch point `pp` of `fn` is generic afterwards, and the call is logged. -/
def multiverse_arch_patchpoint_revert (fn : Ptr) (pp : Nat) (s : State) : State :=
  { s with
    installed := Function.update s.installed fn (Function.update (s.installed fn) pp none)
    log := s.log ++ [Event.arch_revert fn pp] }

/-! ## `multiverse_select_mvfn` -/

/-- The loop of `multiverse_select_mvfn` over the patch points
`patchpoints[i], patchpoints[i+1], ...` of `fn`. -/
def select_mvfn_loop (D : Descriptors) (fn : Ptr) (mvfn : Option Nat) :
    List mv_patchpoint → Nat → mv_select_ctx_t → State → mv_select_ctx_t × State
  | [], _, ctx, s => (ctx, s)
  | pp :: pps, i, ctx, s =>
    if pp.type = PP_TYPE_INVALID then select_mvfn_loop D fn mvfn pps (i + 1) ctx s
    else if pp.location = 0 then select_mvfn_loop D fn mvfn pps (i + 1) ctx s
    else
      let r1 := multiverse_select_unprotect D ctx pp.location s
      let r2 := multiverse_select_unprotect D r1.1 (pp.location + 5) r1.2
      let s3 :=
        match mvfn with
        | none => multiverse_arch_patchpoint_revert fn i r2.2
        | some v => multiverse_arch_patchpoint_apply fn v i r2.2
      select_mvfn_loop D fn mvfn pps (i + 1) r2.1 s3

/-- The function `multiverse_select_mvfn`: nothing to do when `mvfn` is the
active variant; otherwise rewrite every patch point and store `mvfn` in
`fn->extra->active_mvfn`.  Returns the `int` result, the context and the
state. -/
def multiverse_select_mvfn (D : Descriptors) (ctx : mv_select_ctx_t) (fn : Ptr)
    (mvfn : Option Nat) (s : State) : Int × mv_select_ctx_t × State :=
  if mvfn = s.active_mvfn fn then (0, ctx, s)
  else
    let r := select_mvfn_loop D fn mvfn (D.fns fn).patchpoints 0 ctx s
    (1, r.1, { r.2 with active_mvfn := Function.update r.2.active_mvfn fn mvfn })

/-! ## `__multiverse_commit_fn` -/

/-- The inner loop of `__multiverse_commit_fn` over the assignments of one
variant, carrying the flag `good`.  The loop does not stop when `good` becomes
`0`: every bound variable of the variant is read. -/
def assignments_loop (D : Descriptors) (s : State) : List mv_info_assignment → Bool → Option Bool
  | [], good => some good
  | a :: as, good =>
    if s.bound a.var = 0 then assignments_loop D s as false
    else
      match multiverse_var_read (D.vars a.var) s.mem with
      | none => none
      | some cur =>
        if cur > a.upper_bound ∨ cur < a.lower_bound then assignments_loop D s as false
        else assignments_loop D s as good

/-- The outer loop of `__multiverse_commit_fn` over the variants
`mv_functions[f], mv_functions[f+1], ...`, carrying `best_mvfn`. -/
def mv_functions_loop (D : Descriptors) (s : State) :
    List mv_info_mvfn → Nat → Option Nat → Option (Option Nat)
  | [], _, best_mvfn => some best_mvfn
  | mvfn :: rest, f, best_mvfn =>
    match assignments_loop D s mvfn.assignments true with
    | none => none
    | some good =>
      if good then mv_functions_loop D s rest (f + 1) (some f)
      else mv_functions_loop D s rest (f + 1) best_mvfn

/-- The value of `best_mvfn` at the end of the selection loop of
`__multiverse_commit_fn` (`none` outside: the loop aborted). -/
def best_mvfn (D : Descriptors) (s : State) (fn : Ptr) : Option (Option Nat) :=
  mv_functions_loop D s (D.fns fn).mv_functions 0 none

/-- The function `__multiverse_commit_fn`: select, then hand the selection to
`multiverse_select_mvfn`. -/
def __multiverse_commit_fn (D : Descriptors) (ctx : mv_select_ctx_t) (fn : Ptr) (s : State) :
    Option (Int × mv_select_ctx_t × State) :=
  match best_mvfn D s fn with
  | none => none
  | some best => some (multiverse_select_mvfn D ctx fn best s)

/-! ## The drivers -/

/-- A per-function step of a batch driver: the `int` result, or the abort. -/
abbrev Step := mv_select_ctx_t → Ptr → State → Option (Int × mv_select_ctx_t × State)

/-- The per-function step of the commit drivers. -/
def commit_step (D : Descriptors) : Step := fun ctx fn s => __multiverse_commit_fn D ctx fn s

/-- The per-function step of the revert drivers:
`multiverse_select_mvfn(ctx, fn, NULL)`. -/
def revert_step (D : Descriptors) : Step := fun ctx fn s =>
  some (multiverse_select_mvfn D ctx fn none s)

/-- The loop over functions in `multiverse_commit_info_refs`,
`multiverse_revert_info_refs` and (as the inner loop) `multiverse_commit`:
a negative `r` sets `ret = -1` and leaves this loop. -/
def fn_loop (step : Step) : List Ptr → Int → mv_select_ctx_t → State →
    Option (Int × mv_select_ctx_t × State)
  | [], ret, ctx, s => some (ret, ctx, s)
  | fn :: fns, ret, ctx, s =>
    match step ctx fn s with
    | none => none
    | some (r, ctx1, s1) =>
      if r < 0 then some (-1, ctx1, s1)
      else fn_loop step fns (ret + r) ctx1 s1

/-- The inner loop of `multiverse_revert`: a negative `r` sets `r = -1` (not
`ret`) and leaves this loop. -/
def revert_fn_loop (step : Step) : List Ptr → Int → mv_select_ctx_t → State →
    Option (Int × mv_select_ctx_t × State)
  | [], ret, ctx, s => some (ret, ctx, s)
  | fn :: fns, ret, ctx, s =>
    match step ctx fn s with
    | none => none
    | some (r, ctx1, s1) =>
      if r < 0 then some (ret, ctx1, s1)
      else revert_fn_loop step fns (ret + r) ctx1 s1

/-- The outer loop of `multiverse_commit` over the blocks of
`mv_information`; `break` in the inner loop does not leave this loop. -/
def commit_info_loop (step : Step) : List mv_info → Int → mv_select_ctx_t → State →
    Option (Int × mv_select_ctx_t × State)
  | [], ret, ctx, s => some (ret, ctx, s)
  | info :: infos, ret, ctx, s =>
    match fn_loop step info.functions ret ctx s with
    | none => none
    | some (ret1, ctx1, s1) => commit_info_loop step infos ret1 ctx1 s1

/-- The outer loop of `multiverse_revert` over the blocks of
`mv_information`; `break` in the inner loop does not leave this loop. -/
def revert_info_loop (step : Step) : List mv_info → Int → mv_select_ctx_t → State →
    Option (Int × mv_select_ctx_t × State)
  | [], ret, ctx, s => some (ret, ctx, s)
  | info :: infos, ret, ctx, s =>
    match revert_fn_loop step info.functions ret ctx s with
    | none => none
    | some (ret1, ctx1, s1) => revert_info_loop step infos ret1 ctx1 s1

/-- The function `multiverse_commit_info_fn`: open a context (`-1` when it is
`NULL`), commit `fn`, close the context. -/
def multiverse_commit_info_fn (D : Descriptors) (fn : Ptr) (s : State) : Option (Int × State) :=
  match multiverse_select_start s with
  | none => none
  | some (none, s1) => some (-1, s1)
  | some (some ctx, s1) =>
    match __multiverse_commit_fn D ctx fn s1 with
    | none => none
    | some (ret, ctx1, s2) => some (ret, multiverse_select_end D ctx1 s2)

/-- The function `multiverse_commit_fn`: look the function up (`-1` on a
miss), then `multiverse_commit_info_fn`. -/
def multiverse_commit_fn (D : Descriptors) (function_body : Ptr) (s : State) :
    Option (Int × State) :=
  match D.multiverse_info_fn function_body with
  | none => some (-1, s)
  | some fn => multiverse_commit_info_fn D fn s

/-- The body shared by `multiverse_commit_info_refs` and
`multiverse_revert_info_refs`, for a per-function step `step`. -/
def info_refs_with (step : Step) (D : Descriptors) (var : Ptr) (s : State) :
    Option (Int × State) :=
  match multiverse_select_start s with
  | none => none
  | some (none, s1) => some (-1, s1)
  | some (some ctx, s1) =>
    match fn_loop step (D.vars var).functions 0 ctx s1 with
    | none => none
    | some (ret, ctx1, s2) => some (ret, multiverse_select_end D ctx1 s2)

/-- The function `multiverse_commit_info_refs`: commit every function in
`var->extra->functions` within one context. -/
def multiverse_commit_info_refs (D : Descriptors) (var : Ptr) (s : State) : Option (Int × State) :=
  info_refs_with (commit_step D) D var s

/-- The function `multiverse_commit_refs`: look the variable up (`-1` on a
miss), then `multiverse_commit_info_refs`. -/
def multiverse_commit_refs (D : Descriptors) (variable_location : Ptr) (s : State) :
    Option (Int × State) :=
  match D.multiverse_info_var variable_location with
  | none => some (-1, s)
  | some var => multiverse_commit_info_refs D var s

/-- The body of `multiverse_commit` for a per-function step `step`. -/
def multiverse_commit_with (step : Step) (D : Descriptors) (s : State) : Option (Int × State) :=
  match multiverse_select_start s with
  | none => none
  | some (none, s1) => some (-1, s1)
  | some (some ctx, s1) =>
    match commit_info_loop step D.mv_information 0 ctx s1 with
    | none => none
    | some (ret, ctx1, s2) => some (ret, multiverse_select_end D ctx1 s2)

/-- The function `multiverse_commit`: commit every function of every block of
`mv_information` within one context. -/
def multiverse_commit (D : Descriptors) (s : State) : Option (Int × State) :=
  multiverse_commit_with (commit_step D) D s

/-- The function `multiverse_revert_info_fn`: open a context (`-1` when it is
`NULL`), rewrite `fn` to `NULL`, close the context. -/
def multiverse_revert_info_fn (D : Descriptors) (fn : Ptr) (s : State) : Option (Int × State) :=
  match multiverse_select_start s with
  | none => none
  | some (none, s1) => some (-1, s1)
  | some (some ctx, s1) =>
    let r := multiverse_select_mvfn D ctx fn none s1
    some (r.1, multiverse_select_end D r.2.1 r.2.2)

/-- The function `multiverse_revert_fn`: look the function up (`-1` on a
miss), then `multiverse_revert_info_fn`. -/
def multiverse_revert_fn (D : Descriptors) (function_body : Ptr) (s : State) :
    Option (Int × State) :=
  match D.multiverse_info_fn function_body with
  | none => some (-1, s)
  | some fn => multiverse_revert_info_fn D fn s

/-- The function `multiverse_revert_info_refs`: rewrite every function in
`var->extra->functions` to `NULL` within one context. -/
def multiverse_revert_info_refs (D : Descriptors) (var : Ptr) (s : State) : Option (Int × State) :=
  info_refs_with (revert_step D) D var s

/-- The function `multiverse_revert_refs`: look the variable up (`-1` on a
miss), then `multiverse_revert_info_refs`. -/
def multiverse_revert_refs (D : Descriptors) (variable_location : Ptr) (s : State) :
    Option (Int × State) :=
  match D.multiverse_info_var variable_location with
  | none => some (-1, s)
  | some var => multiverse_revert_info_refs D var s

/-- The body of `multiverse_revert` for a per-function step `step`. -/
def multiverse_revert_with (step : Step) (D : Descriptors) (s : State) : Option (Int × State) :=
  match multiverse_select_start s with
  | none => none
  | some (none, s1) => some (-1, s1)
  | some (some ctx, s1) =>
    match revert_info_loop step D.mv_information 0 ctx s1 with
    | none => none
    | some (ret, ctx1, s2) => some (ret, multiverse_select_end D ctx1 s2)

/-- The function `multiverse_revert`: rewrite every function of every block of
`mv_information` to `NULL` within one context. -/
def multiverse_revert (D : Descriptors) (s : State) : Option (Int × State) :=
  multiverse_revert_with (revert_step D) D s

/-- The function `multiverse_is_committed`: the result of the lookup is dereferenced
without a check, so a lookup miss ends in a load through `NULL` (`none`). -/
def multiverse_is_committed (D : Descriptors) (function_body : Ptr) (s : State) : Option Int :=
  match D.multiverse_info_fn function_body with
  | none => none
  | some fn => some (if s.active_mvfn fn ≠ none then 1 else 0)

/-- The function `multiverse_bind`: returns the `int` result and the state.  The field
`extra->bound` is taken to hold the stored `int` unchanged. -/
def multiverse_bind (D : Descriptors) (var_location : Ptr) (state : Int) (s : State) :
    Int × State :=
  match D.multiverse_info_var var_location with
  | none => (-1, s)
  | some var =>
    if state ≥ 0 then
      if (D.vars var).flag_tracked = false then (-1, s)
      else
        let s1 := { s with bound := Function.update s.bound var state }
        (s1.bound var, s1)
    else (s.bound var, s)

/-! ## Notions of the specification -/

/-- The widths `multiverse_var_read` accepts. -/
def valid_width (v : mv_info_var) : Prop :=
  v.variable_width = 1 ∨ v.variable_width = 2 ∨ v.variable_width = 4

instance (v : mv_info_var) : Decidable (valid_width v) := by
  unfold valid_width; infer_instance

/-- The spec's reading of a variable: its memory as an unsigned integer of the
declared width. -/
def reading (D : Descriptors) (s : State) (var : Ptr) : Nat :=
  load_le s.mem (D.vars var).variable_location (D.vars var).variable_width

/-- The spec's "assignment holds": the variable is bound and
`lower <= reading <= upper`. -/
def assignment_holds (D : Descriptors) (s : State) (a : mv_info_assignment) : Prop :=
  s.bound a.var ≠ 0 ∧ a.lower_bound ≤ reading D s a.var ∧ reading D s a.var ≤ a.upper_bound

instance (D : Descriptors) (s : State) (a : mv_info_assignment) :
    Decidable (assignment_holds D s a) := by
  unfold assignment_holds; infer_instance

/-- The spec's "good" variant: every assignment holds. -/
def variant_good (D : Descriptors) (s : State) (mvfn : mv_info_mvfn) : Prop :=
  ∀ a ∈ mvfn.assignments, assignment_holds D s a

instance (D : Descriptors) (s : State) (mvfn : mv_info_mvfn) :
    Decidable (variant_good D s mvfn) := by
  unfold variant_good; infer_instance

/-- Every bound variable that a variant of `fn` refers to has width 1, 2 or 4. -/
def widths_valid (D : Descriptors) (s : State) (fn : Ptr) : Prop :=
  ∀ mvfn ∈ (D.fns fn).mv_functions, ∀ a ∈ mvfn.assignments,
    s.bound a.var ≠ 0 → valid_width (D.vars a.var)

instance (D : Descriptors) (s : State) (fn : Ptr) : Decidable (widths_valid D s fn) := by
  unfold widths_valid; infer_instance

/-- The functions of the whole program in the order `multiverse_commit` and
`multiverse_revert` visit them: block after block, each block in array
order. -/
def all_functions (D : Descriptors) : List Ptr :=
  (D.mv_information.map (fun info => info.functions)).flatten

/-- The state `s'` agrees with `s` on everything except the page
permissions, the patch points and the log. -/
def same_data (s s' : State) : Prop :=
  s'.calloc_ok = s.calloc_ok ∧ s'.mem = s.mem ∧ s'.bound = s.bound ∧
    s'.active_mvfn = s.active_mvfn

/-- A sequence of `multiverse_select_unprotect` calls on one context, as a
batch issues them between `multiverse_select_start` and
`multiverse_select_end`. -/
def unprotect_all (D : Descriptors) : List Ptr → mv_select_ctx_t × State → mv_select_ctx_t × State
  | [], r => r
  | addr :: addrs, r => unprotect_all D addrs (multiverse_select_unprotect D r.1 addr r.2)

/-- The number of `mprotect` calls with protection `prot` in a log. -/
def count_mprotect (prot : Prot) (log : List Event) : Nat :=
  (log.filter (fun e => match e with
    | Event.mprotect _ p => decide (p = prot)
    | _ => false)).length

/-- The number of distinct functions in `l` whose active variant differs from
their target `tgt`. -/
def changed_count (active tgt : Ptr → Option Nat) (l : List Ptr) : Nat :=
  (l.toFinset.filter (fun p => active p ≠ tgt p)).card

/-- The per-function step `step` never returns a negative value. -/
def step_nonneg (step : Step) : Prop :=
  ∀ ctx fn s r ctx1 s1, step ctx fn s = some (r, ctx1, s1) → 0 ≤ r

/-- On the functions in `l` and on every state with the variables of `s0`,
the per-function step `step` is the rewriter with target `tgt fn`. -/
def step_rewrites (D : Descriptors) (step : Step) (tgt : Ptr → Option Nat) (s0 : State)
    (l : List Ptr) : Prop :=
  ∀ fn ∈ l, ∀ ctx s, s.bound = s0.bound → s.mem = s0.mem →
    step ctx fn s = some (multiverse_select_mvfn D ctx fn (tgt fn) s)

/-- The context `multiverse_select_start` returns: `cache_size` 10, every slot
`NULL`. -/
def fresh_ctx : mv_select_ctx_t := { cache_size := 10, cache := List.replicate 10 0 }

/-- The state `s` with the events `es` added to the end of its log, and
nothing else changed. -/
def logged (s : State) (es : List Event) : State := { s with log := s.log ++ es }

/-- The selector's choice for `fn`: the value of `best_mvfn` at the end of the
selection loop (`NULL` in the case that the loop aborts). -/
def selector_choice (D : Descriptors) (s : State) (fn : Ptr) : Option Nat :=
  (best_mvfn D s fn).getD none

/-- The shape of the cache of a context: 10 slots, of which the first `k`
(at most 9) are occupied and hold pairwise different pages, and all later
slots, the last one among them, are `NULL`. -/
def cache_shape (ctx : mv_select_ctx_t) : Prop :=
  ctx.cache_size = 10 ∧ ctx.cache.length = 10 ∧
  ∃ k, k ≤ 9 ∧ (∀ j, j < k → ctx.cache.getD j 0 ≠ 0) ∧
    (∀ j, k ≤ j → ctx.cache.getD j 0 = 0) ∧
    (∀ a, a < k → ∀ b, b < k → ctx.cache.getD a 0 = ctx.cache.getD b 0 → a = b)

/-- Every page in the cache is writable. -/
def cache_writable (ctx : mv_select_ctx_t) (s : State) : Prop :=
  ∀ p, p ∈ ctx.cache → p ≠ 0 → s.writable p = true

/-- The writable pages after the `mprotect` calls of a log have been applied
to the writable pages `w`. -/
def writable_after (w : Ptr → Bool) : List Event → Ptr → Bool
  | [] => w
  | Event.mprotect page prot :: es =>
    writable_after (Function.update w page (decide (prot = Prot.read_write_exec))) es
  | _ :: es => writable_after w es

/-- Both pages of patch point number `pp` of `fn`, the page of its location
and the page of its location + 5, are writable in `w`. -/
def patchpoint_writable (D : Descriptors) (w : Ptr → Bool) (fn : Ptr) (pp : Nat) : Prop :=
  match (D.fns fn).patchpoints[pp]? with
  | some p =>
    w (page_of D.pagesize p.location) = true ∧ w (page_of D.pagesize (p.location + 5)) = true
  | none => False

instance (D : Descriptors) (w : Ptr → Bool) (fn : Ptr) (pp : Nat) :
    Decidable (patchpoint_writable D w fn pp) := by
  unfold patchpoint_writable
  cases (D.fns fn).patchpoints[pp]? <;> simp only <;> infer_instance

/-- Every call to the architecture back end in the log finds both pages of
its patch point writable, when the log is played from the writable pages `w`
on. -/
def arch_calls_writable (D : Descriptors) : (Ptr → Bool) → List Event → Prop
  | _, [] => True
  | w, Event.mprotect page prot :: es =>
    arch_calls_writable D (Function.update w page (decide (prot = Prot.read_write_exec))) es
  | w, Event.arch_apply fn _ pp :: es =>
    patchpoint_writable D w fn pp ∧ arch_calls_writable D w es
  | w, Event.arch_revert fn pp :: es =>
    patchpoint_writable D w fn pp ∧ arch_calls_writable D w es
  | w, Event.calloc :: es => arch_calls_writable D w es
  | w, Event.free :: es => arch_calls_writable D w es

/-- The active variant of every function is what its patch points transfer
to: every patch point of kind other than `Invalid` with a location has the
active variant of its function installed (the generic form when there is
none). -/
def consistent (D : Descriptors) (s : State) : Prop :=
  ∀ fn i pp, (D.fns fn).patchpoints[i]? = some pp → pp.type ≠ PP_TYPE_INVALID →
    pp.location ≠ 0 → s.installed fn i = s.active_mvfn fn

/-- A call of one of the entry points that change the state, with its
arguments. -/
inductive Call where
  | commit_fn (function_body : Ptr)
  | commit_info_fn (fn : Ptr)
  | commit_refs (variable_location : Ptr)
  | commit_info_refs (var : Ptr)
  | commit
  | revert_fn (function_body : Ptr)
  | revert_info_fn (fn : Ptr)
  | revert_refs (variable_location : Ptr)
  | revert_info_refs (var : Ptr)
  | revert
  | bind (var_location : Ptr) (state : Int)
deriving DecidableEq, Repr

/-- The state after one call (`none`: the call aborted). -/
def run_call (D : Descriptors) (c : Call) (s : State) : Option State :=
  match c with
  | Call.commit_fn function_body => (multiverse_commit_fn D function_body s).map (fun r => r.2)
  | Call.commit_info_fn fn => (multiverse_commit_info_fn D fn s).map (fun r => r.2)
  | Call.commit_refs variable_location =>
    (multiverse_commit_refs D variable_location s).map (fun r => r.2)
  | Call.commit_info_refs var => (multiverse_commit_info_refs D var s).map (fun r => r.2)
  | Call.commit => (multiverse_commit D s).map (fun r => r.2)
  | Call.revert_fn function_body => (multiverse_revert_fn D function_body s).map (fun r => r.2)
  | Call.revert_info_fn fn => (multiverse_revert_info_fn D fn s).map (fun r => r.2)
  | Call.revert_refs variable_location =>
    (multiverse_revert_refs D variable_location s).map (fun r => r.2)
  | Call.revert_info_refs var => (multiverse_revert_info_refs D var s).map (fun r => r.2)
  | Call.revert => (multiverse_revert D s).map (fun r => r.2)
  | Call.bind var_location state => some (multiverse_bind D var_location state s).2

/-- The state after a sequence of calls, one after the other. -/
def run_calls (D : Descriptors) : List Call → State → Option State
  | [], s => some s
  | c :: cs, s =>
    match run_call D c s with
    | none => none
    | some s1 => run_calls D cs s1

/-- The patch points of `fn` that the rewriter rewrites (kind other than
`Invalid`, location present) lie in mapped code: neither the location nor the
location + 5 is on page 0, the page whose address is `NULL`. -/
def real_patchpoints (D : Descriptors) (fn : Ptr) : Prop :=
  ∀ pp ∈ (D.fns fn).patchpoints, pp.type ≠ PP_TYPE_INVALID → pp.location ≠ 0 →
    page_of D.pagesize pp.location ≠ 0 ∧ page_of D.pagesize (pp.location + 5) ≠ 0

instance (D : Descriptors) (fn : Ptr) : Decidable (real_patchpoints D fn) := by
  unfold real_patchpoints; infer_instance

/-- From `s` to `s1` the log has grown by events among which every call to the
architecture back end found both pages of its patch point writable at the
time of the call, and the writable pages of `s1` are those of `s` after the
`mprotect` calls among these events. -/
def writes_guarded (D : Descriptors) (s s1 : State) : Prop :=
  ∃ es, s1.log = s.log ++ es ∧ arch_calls_writable D s.writable es ∧
    writable_after s.writable es = s1.writable

/-- The variable `x` of the example lives at descriptor address 1: width 1,
stored at address 1000, tracked, referred to by the function at 10. -/
def example_var : mv_info_var :=
  { variable_width := 1, variable_location := 1000, flag_tracked := true, functions := [10] }

/-- The function of the example: variant A needs `x` in `[0,5]`, variant B
needs `x` in `[5,10]`; one patch point at address 8192. -/
def example_fn : mv_info_fn :=
  { mv_functions := [⟨[⟨1, 0, 5⟩]⟩, ⟨[⟨1, 5, 10⟩]⟩],
    patchpoints := [⟨1, 8192⟩] }

/-- The descriptors of the example: the variable at 1, the function at 10 (its
body at 7000), one block; every other pointer leads to an empty descriptor. -/
def example_descriptors : Descriptors :=
  { pagesize := 4096
    vars := fun p => if p = 1 then example_var else ⟨0, 0, false, []⟩
    fns := fun p => if p = 10 then example_fn else ⟨[], []⟩
    mv_information := [⟨[10]⟩]
    multiverse_info_fn := fun a => if a = 7000 then some 10 else none
    multiverse_info_var := fun a => if a = 1000 then some 1 else none }

/-- A state of the example: `x` holds `value` and has bound state `bound`,
the function at 10 has active variant `active` installed at its patch points,
nothing is writable, nothing is logged. -/
def example_state (value : Nat) (bound : Int) (active : Option Nat) : State :=
  { calloc_ok := true
    mem := fun a => if a = 1000 then value else 0
    bound := fun p => if p = 1 then bound else 0
    active_mvfn := fun p => if p = 10 then active else none
    writable := fun _ => false
    installed := fun p _ => if p = 10 then active else none
    log := [] }

/-! ## A function with patch points on many pages -/

/-- The addresses `4096, 2 * 4096, ..., n * 4096`: with page size 4096 they lie
on `n` distinct pages. -/
def distinct_page_addrs (n : Nat) : List Ptr := (List.range n).map (fun i => 4096 * (i + 1))

/-- Descriptors with page size 4096 and one block with one function, at 10
(its body at 7000): it has no variant and `n` patch points, one on each of
the pages of `distinct_page_addrs n`. -/
def wide_descriptors (n : Nat) : Descriptors :=
  { pagesize := 4096
    vars := fun p => if p = 1 then example_var else ⟨0, 0, false, []⟩
    fns := fun p =>
      if p = 10 then
        { mv_functions := [], patchpoints := (distinct_page_addrs n).map (fun a => ⟨1, a⟩) }
      else ⟨[], []⟩
    mv_information := [⟨[10]⟩]
    multiverse_info_fn := fun a => if a = 7000 then some 10 else none
    multiverse_info_var := fun a => if a = 1000 then some 1 else none }

/-! ## A program with a variable that is not tracked -/

/-- Descriptors like those of the example, with a second variable at 2: width
1, stored at address 2000, not tracked. -/
def untracked_descriptors : Descriptors :=
  { pagesize := 4096
    vars := fun p =>
      if p = 1 then example_var
      else if p = 2 then
        { variable_width := 1, variable_location := 2000, flag_tracked := false,
          functions := [] }
      else ⟨0, 0, false, []⟩
    fns := fun p => if p = 10 then example_fn else ⟨[], []⟩
    mv_information := [⟨[10]⟩]
    multiverse_info_fn := fun a => if a = 7000 then some 10 else none
    multiverse_info_var := fun a =>
      if a = 1000 then some 1 else if a = 2000 then some 2 else none }

/-! ## A per-function step that fails -/

theorem var_read_of_valid (D : Descriptors) (s : State) (var : Ptr)
    (h : valid_width (D.vars var)) :
    multiverse_var_read (D.vars var) s.mem = some (reading D s var) := by
  unfold multiverse_var_read reading
  rcases h with h | h | h <;> simp [h]

theorem assignments_loop_spec (D : Descriptors) (s : State) :
    ∀ (as : List mv_info_assignment) (good : Bool),
      (∀ a ∈ as, s.bound a.var ≠ 0 → valid_width (D.vars a.var)) →
      assignments_loop D s as good
        = some (good && decide (∀ a ∈ as, assignment_holds D s a)) := by
  intro as
  induction as with
  | nil => intro good _; simp [assignments_loop]
  | cons a as ih =>
    intro good hw
    have hw' : ∀ a ∈ as, s.bound a.var ≠ 0 → valid_width (D.vars a.var) :=
      fun x hx => hw x (List.mem_cons_of_mem _ hx)
    unfold assignments_loop
    by_cases hb : s.bound a.var = 0
    · simp [hb, ih false hw', assignment_holds]
    · have hr := var_read_of_valid D s a.var (hw a (List.mem_cons_self _ _) hb)
      simp only [hb, if_false, hr]
      by_cases hc : reading D s a.var > a.upper_bound ∨ reading D s a.var < a.lower_bound
      · rw [if_pos hc, ih false hw']
        have : ¬ assignment_holds D s a := by
          unfold assignment_holds; omega
        simp [this]
      · rw [if_neg hc, ih good hw']
        have : assignment_holds D s a := by
          unfold assignment_holds
          refine ⟨hb, ?_, ?_⟩ <;> omega
        simp [this]

theorem mv_functions_loop_spec (D : Descriptors) (s : State) :
    ∀ (ms : List mv_info_mvfn) (f : Nat) (b : Option Nat),
      (∀ m ∈ ms, ∀ a ∈ m.assignments, s.bound a.var ≠ 0 → valid_width (D.vars a.var)) →
      ∃ r, mv_functions_loop D s ms f b = some r ∧
        ((r = b ∧ ∀ m ∈ ms, ¬ variant_good D s m) ∨
         (∃ k m, r = some (f + k) ∧ ms[k]? = some m ∧ variant_good D s m ∧
            ∀ j m', k < j → ms[j]? = some m' → ¬ variant_good D s m')) := by
  intro ms
  induction ms with
  | nil => intro f b _; exact ⟨b, rfl, Or.inl ⟨rfl, by simp⟩⟩
  | cons m ms ih =>
    intro f b hw
    have hw' : ∀ m ∈ ms, ∀ a ∈ m.assignments, s.bound a.var ≠ 0 → valid_width (D.vars a.var) :=
      fun x hx => hw x (List.mem_cons_of_mem _ hx)
    have hin := assignments_loop_spec D s m.assignments true (hw m (List.mem_cons_self _ _))
    unfold mv_functions_loop
    rw [hin]
    by_cases hg : variant_good D s m
    · have hd : decide (∀ a ∈ m.assignments, assignment_holds D s a) = true :=
        decide_eq_true hg
      simp only [hd, Bool.and_self, if_true]
      obtain ⟨r, hr, hcase⟩ := ih (f + 1) (some f) hw'
      refine ⟨r, hr, Or.inr ?_⟩
      rcases hcase with ⟨hrb, hnone⟩ | ⟨k, m', hrk, hk, hgood, hlast⟩
      · refine ⟨0, m, by simpa using hrb, by simp, hg, ?_⟩
        intro j m' hj hjm
        obtain ⟨j', rfl⟩ : ∃ j', j = j' + 1 := ⟨j - 1, by omega⟩
        rw [List.getElem?_cons_succ] at hjm
        exact hnone m' (List.getElem?_mem hjm)
      · refine ⟨k + 1, m', by rw [hrk]; congr 1; omega, by simpa using hk, hgood, ?_⟩
        intro j m'' hj hjm
        obtain ⟨j', rfl⟩ : ∃ j', j = j' + 1 := ⟨j - 1, by omega⟩
        rw [List.getElem?_cons_succ] at hjm
        exact hlast j' m'' (by omega) hjm
    · have hd : decide (∀ a ∈ m.assignments, assignment_holds D s a) = false :=
        decide_eq_false hg
      simp only [hd, Bool.and_false, Bool.false_eq_true, if_false]
      obtain ⟨r, hr, hcase⟩ := ih (f + 1) b hw'
      refine ⟨r, hr, ?_⟩
      rcases hcase with ⟨hrb, hnone⟩ | ⟨k, m', hrk, hk, hgood, hlast⟩
      · left
        refine ⟨hrb, ?_⟩
        intro x hx
        rcases List.mem_cons.mp hx with rfl | hx
        · exact hg
        · exact hnone x hx
      · right
        refine ⟨k + 1, m', by rw [hrk]; congr 1; omega, by simpa using hk, hgood, ?_⟩
        intro j m'' hj hjm
        obtain ⟨j', rfl⟩ : ∃ j', j = j' + 1 := ⟨j - 1, by omega⟩
        rw [List.getElem?_cons_succ] at hjm
        exact hlast j' m'' (by omega) hjm

/-- C1: variant selection is last-match-wins.  When every bound variable the
variants of `fn` refer to has width 1, 2 or 4, the selection loop of
`__multiverse_commit_fn` ends with a value `best`, this `best` is what
`__multiverse_commit_fn` hands to `multiverse_select_mvfn`, `best` is the
variant number `f` exactly when variant `f` is good (every assignment: variable
bound and `lower <= reading <= upper`) and no later variant is good, and `best`
is `NULL` exactly when no variant is good. -/
theorem commit_fn_selects_last_match (D : Descriptors) (s : State) (fn : Ptr)
    (hw : widths_valid D s fn) :
    ∃ best, best_mvfn D s fn = some best ∧
      (∀ ctx, __multiverse_commit_fn D ctx fn s
          = some (multiverse_select_mvfn D ctx fn best s)) ∧
      (∀ f, best = some f ↔
        (∃ m, (D.fns fn).mv_functions[f]? = some m ∧ variant_good D s m) ∧
        (∀ g m, f < g → (D.fns fn).mv_functions[g]? = some m → ¬ variant_good D s m)) ∧
      (best = none ↔ ∀ m ∈ (D.fns fn).mv_functions, ¬ variant_good D s m) := by
  obtain ⟨r, hr, hcase⟩ := mv_functions_loop_spec D s (D.fns fn).mv_functions 0 none hw
  have hr' : best_mvfn D s fn = some r := hr
  refine ⟨r, hr', ?_, ?_, ?_⟩
  · intro ctx
    unfold __multiverse_commit_fn
    rw [hr']
  · intro f
    rcases hcase with ⟨hrb, hnone⟩ | ⟨k, m, hrk, hk, hgood, hlast⟩
    · subst hrb
      constructor
      · intro h; cases h
      · rintro ⟨⟨m, hm, hg⟩, _⟩
        exact absurd hg (hnone m (List.getElem?_mem hm))
    · rw [Nat.zero_add] at hrk
      subst hrk
      constructor
      · intro h
        cases h
        exact ⟨⟨m, hk, hgood⟩, hlast⟩
      · rintro ⟨⟨m', hm', hg'⟩, hlast'⟩
        rcases Nat.lt_trichotomy f k with hlt | heq | hgt
        · exact absurd hgood (hlast' k m hlt hk)
        · rw [heq]
        · exact absurd hg' (hlast f m' hgt hm')
  · rcases hcase with ⟨hrb, hnone⟩ | ⟨k, m, hrk, hk, hgood, hlast⟩
    · subst hrb
      exact ⟨fun _ => hnone, fun _ => rfl⟩
    · subst hrk
      constructor
      · intro h; simp at h
      · intro h
        exact absurd hgood (h m (List.getElem?_mem hk))

/-- C1, the scenario of the spec: with `x = 7`, `A = [0,5]`, `B = [5,10]` the
loop selects B (variant 1); with `x = 3` it selects A (variant 0); with
`x = 20` it selects none. -/
theorem commit_fn_selects_last_match_witness :
    widths_valid example_descriptors (example_state 7 1 none) 10 ∧
    (∃ best, best_mvfn example_descriptors (example_state 7 1 none) 10 = some best ∧
      (∀ ctx, __multiverse_commit_fn example_descriptors ctx 10 (example_state 7 1 none)
          = some (multiverse_select_mvfn example_descriptors ctx 10 best
              (example_state 7 1 none))) ∧
      (∀ f, best = some f ↔
        (∃ m, (example_descriptors.fns 10).mv_functions[f]? = some m ∧
          variant_good example_descriptors (example_state 7 1 none) m) ∧
        (∀ g m, f < g → (example_descriptors.fns 10).mv_functions[g]? = some m →
          ¬ variant_good example_descriptors (example_state 7 1 none) m)) ∧
      (best = none ↔ ∀ m ∈ (example_descriptors.fns 10).mv_functions,
        ¬ variant_good example_descriptors (example_state 7 1 none) m)) ∧
    best_mvfn example_descriptors (example_state 7 1 none) 10 = some (some 1) ∧
    best_mvfn example_descriptors (example_state 3 1 none) 10 = some (some 0) ∧
    best_mvfn example_descriptors (example_state 20 1 none) 10 = some none :=
  ⟨by decide,
   commit_fn_selects_last_match example_descriptors (example_state 7 1 none) 10 (by decide),
   by decide, by decide, by decide⟩

/-! ## What the protection cache and the rewriter leave alone -/

theorem same_data_refl (s : State) : same_data s s := ⟨rfl, rfl, rfl, rfl⟩

theorem same_data_trans {s1 s2 s3 : State} (h12 : same_data s1 s2) (h23 : same_data s2 s3) :
    same_data s1 s3 := by
  obtain ⟨a1, a2, a3, a4⟩ := h12
  obtain ⟨b1, b2, b3, b4⟩ := h23
  exact ⟨b1.trans a1, b2.trans a2, b3.trans a3, b4.trans a4⟩

theorem mprotect_same_data (page : Ptr) (prot : Prot) (s : State) :
    same_data s (mprotect page prot s) := ⟨rfl, rfl, rfl, rfl⟩

theorem unprotect_same_data (D : Descriptors) (ctx : mv_select_ctx_t) (addr : Ptr) (s : State) :
    same_data s (multiverse_select_unprotect D ctx addr s).2 := by
  unfold multiverse_select_unprotect
  simp only
  split
  · exact same_data_refl s
  · split
    · exact ⟨rfl, rfl, rfl, rfl⟩
    · exact ⟨rfl, rfl, rfl, rfl⟩

theorem select_end_loop_same_data (D : Descriptors) (ctx : mv_select_ctx_t) :
    ∀ (is : List Nat) (s : State), same_data s (select_end_loop D ctx is s) := by
  intro is
  induction is with
  | nil => intro s; exact same_data_refl s
  | cons i is ih =>
    intro s
    unfold select_end_loop
    split
    · exact same_data_trans ⟨rfl, rfl, rfl, rfl⟩ (ih _)
    · exact ih s

theorem select_end_same_data (D : Descriptors) (ctx : mv_select_ctx_t) (s : State) :
    same_data s (multiverse_select_end D ctx s) := by
  unfold multiverse_select_end
  exact same_data_trans (select_end_loop_same_data D ctx _ s) ⟨rfl, rfl, rfl, rfl⟩

theorem select_mvfn_loop_same_data (D : Descriptors) (fn : Ptr) (mvfn : Option Nat) :
    ∀ (pps : List mv_patchpoint) (i : Nat) (ctx : mv_select_ctx_t) (s : State),
      same_data s (select_mvfn_loop D fn mvfn pps i ctx s).2 := by
  intro pps
  induction pps with
  | nil => intro i ctx s; exact same_data_refl s
  | cons pp pps ih =>
    intro i ctx s
    unfold select_mvfn_loop
    split
    · exact ih _ _ _
    · split
      · exact ih _ _ _
      · refine same_data_trans ?_ (ih _ _ _)
        refine same_data_trans (unprotect_same_data D ctx pp.location s) ?_
        refine same_data_trans (unprotect_same_data D
          (multiverse_select_unprotect D ctx pp.location s).1 (pp.location + 5) _) ?_
        cases mvfn <;> exact ⟨rfl, rfl, rfl, rfl⟩

/-- The rewriter on a target equal to the active variant: nothing happens. -/
theorem select_mvfn_eq (D : Descriptors) (ctx : mv_select_ctx_t) (fn : Ptr) (mvfn : Option Nat)
    (s : State) (h : mvfn = s.active_mvfn fn) :
    multiverse_select_mvfn D ctx fn mvfn s = (0, ctx, s) := by
  unfold multiverse_select_mvfn
  rw [if_pos h]

/-- The `int` result of the rewriter. -/
theorem select_mvfn_ret (D : Descriptors) (ctx : mv_select_ctx_t) (fn : Ptr) (mvfn : Option Nat)
    (s : State) :
    (multiverse_select_mvfn D ctx fn mvfn s).1 = if mvfn = s.active_mvfn fn then 0 else 1 := by
  unfold multiverse_select_mvfn
  split <;> rfl

/-- The active variants after the rewriter: `fn` has `mvfn`, all others are
as before. -/
theorem select_mvfn_active (D : Descriptors) (ctx : mv_select_ctx_t) (fn : Ptr)
    (mvfn : Option Nat) (s : State) :
    (multiverse_select_mvfn D ctx fn mvfn s).2.2.active_mvfn
      = Function.update s.active_mvfn fn mvfn := by
  unfold multiverse_select_mvfn
  split
  · rename_i h
    simp only
    rw [h, Function.update_eq_self]
  · simp only
    rw [(select_mvfn_loop_same_data D fn mvfn _ 0 ctx s).2.2.2]

/-- The rewriter leaves the variables, their bound states and the allocator
alone. -/
theorem select_mvfn_inputs (D : Descriptors) (ctx : mv_select_ctx_t) (fn : Ptr)
    (mvfn : Option Nat) (s : State) :
    (multiverse_select_mvfn D ctx fn mvfn s).2.2.calloc_ok = s.calloc_ok ∧
    (multiverse_select_mvfn D ctx fn mvfn s).2.2.mem = s.mem ∧
    (multiverse_select_mvfn D ctx fn mvfn s).2.2.bound = s.bound := by
  unfold multiverse_select_mvfn
  split
  · exact ⟨rfl, rfl, rfl⟩
  · have h := select_mvfn_loop_same_data D fn mvfn (D.fns fn).patchpoints 0 ctx s
    exact ⟨h.1, h.2.1, h.2.2.1⟩

/-- The selection loops read the state only through `bound` and `mem`. -/
theorem assignments_loop_congr (D : Descriptors) (s s' : State)
    (hb : s'.bound = s.bound) (hm : s'.mem = s.mem) :
    ∀ (as : List mv_info_assignment) (good : Bool),
      assignments_loop D s' as good = assignments_loop D s as good := by
  intro as
  induction as with
  | nil => intro good; rfl
  | cons a as ih =>
    intro good
    unfold assignments_loop
    rw [hb, hm, ih, ih]

theorem mv_functions_loop_congr (D : Descriptors) (s s' : State)
    (hb : s'.bound = s.bound) (hm : s'.mem = s.mem) :
    ∀ (ms : List mv_info_mvfn) (f : Nat) (b : Option Nat),
      mv_functions_loop D s' ms f b = mv_functions_loop D s ms f b := by
  intro ms
  induction ms with
  | nil => intro f b; rfl
  | cons m ms ih =>
    intro f b
    unfold mv_functions_loop
    rw [assignments_loop_congr D s s' hb hm, ih, ih]

theorem best_mvfn_congr (D : Descriptors) (s s' : State) (fn : Ptr)
    (hb : s'.bound = s.bound) (hm : s'.mem = s.mem) :
    best_mvfn D s' fn = best_mvfn D s fn :=
  mv_functions_loop_congr D s s' hb hm _ _ _

theorem best_mvfn_total (D : Descriptors) (s : State) (fn : Ptr) (hw : widths_valid D s fn) :
    ∃ best, best_mvfn D s fn = some best := by
  obtain ⟨r, hr, _⟩ := mv_functions_loop_spec D s (D.fns fn).mv_functions 0 none hw
  exact ⟨r, hr⟩

/-! ## The driver loops -/

theorem select_mvfn_nonneg (D : Descriptors) (ctx : mv_select_ctx_t) (fn : Ptr)
    (mvfn : Option Nat) (s : State) : 0 ≤ (multiverse_select_mvfn D ctx fn mvfn s).1 := by
  rw [select_mvfn_ret]
  split <;> decide

theorem revert_step_nonneg (D : Descriptors) : step_nonneg (revert_step D) := by
  intro ctx fn s r ctx1 s1 h
  unfold revert_step at h
  have h1 := congrArg (fun x => x.1) (Option.some.inj h)
  simp only at h1
  rw [← h1]
  exact select_mvfn_nonneg D ctx fn none s

theorem commit_step_nonneg (D : Descriptors) : step_nonneg (commit_step D) := by
  intro ctx fn s r ctx1 s1 h
  unfold commit_step __multiverse_commit_fn at h
  cases hb : best_mvfn D s fn with
  | none => rw [hb] at h; cases h
  | some b =>
    rw [hb] at h
    have h1 := congrArg (fun x => x.1) (Option.some.inj h)
    simp only at h1
    rw [← h1]
    exact select_mvfn_nonneg D ctx fn b s

/-- Without a negative result the inner loop of `multiverse_revert` is the
loop of the other drivers. -/
theorem revert_fn_loop_eq (step : Step) (hn : step_nonneg step) :
    ∀ (l : List Ptr) (ret : Int) (ctx : mv_select_ctx_t) (s : State),
      revert_fn_loop step l ret ctx s = fn_loop step l ret ctx s := by
  intro l
  induction l with
  | nil => intro ret ctx s; rfl
  | cons fn fns ih =>
    intro ret ctx s
    unfold revert_fn_loop fn_loop
    cases h : step ctx fn s with
    | none => rfl
    | some x =>
      obtain ⟨r, ctx1, s1⟩ := x
      have hr : ¬ r < 0 := not_lt.mpr (hn ctx fn s r ctx1 s1 h)
      simp only [hr, if_false]
      exact ih _ _ _

/-- Without a negative result the loop over a concatenation is the loop over
the first part followed by the loop over the second. -/
theorem fn_loop_append (step : Step) (hn : step_nonneg step) :
    ∀ (l1 l2 : List Ptr) (ret : Int) (ctx : mv_select_ctx_t) (s : State),
      fn_loop step (l1 ++ l2) ret ctx s =
        match fn_loop step l1 ret ctx s with
        | none => none
        | some (ret1, ctx1, s1) => fn_loop step l2 ret1 ctx1 s1 := by
  intro l1
  induction l1 with
  | nil => intro l2 ret ctx s; rfl
  | cons fn fns ih =>
    intro l2 ret ctx s
    rw [List.cons_append]
    cases h : step ctx fn s with
    | none => simp only [fn_loop, h]
    | some x =>
      obtain ⟨r, ctx1, s1⟩ := x
      have hr : ¬ r < 0 := not_lt.mpr (hn ctx fn s r ctx1 s1 h)
      simp only [fn_loop, h, hr, if_false]
      exact ih _ _ _ _

/-- Without a negative result the two nested loops of `multiverse_commit` are
one loop over all functions. -/
theorem commit_info_loop_eq (step : Step) (hn : step_nonneg step) :
    ∀ (infos : List mv_info) (ret : Int) (ctx : mv_select_ctx_t) (s : State),
      commit_info_loop step infos ret ctx s
        = fn_loop step (infos.map (fun info => info.functions)).flatten ret ctx s := by
  intro infos
  induction infos with
  | nil => intro ret ctx s; rfl
  | cons info infos ih =>
    intro ret ctx s
    rw [List.map_cons, List.flatten_cons, fn_loop_append step hn]
    unfold commit_info_loop
    cases h : fn_loop step info.functions ret ctx s with
    | none => rfl
    | some x =>
      obtain ⟨r, ctx1, s1⟩ := x
      exact ih _ _ _

/-- Without a negative result the two nested loops of `multiverse_revert` are
one loop over all functions. -/
theorem revert_info_loop_eq (step : Step) (hn : step_nonneg step) :
    ∀ (infos : List mv_info) (ret : Int) (ctx : mv_select_ctx_t) (s : State),
      revert_info_loop step infos ret ctx s
        = fn_loop step (infos.map (fun info => info.functions)).flatten ret ctx s := by
  intro infos
  induction infos with
  | nil => intro ret ctx s; rfl
  | cons info infos ih =>
    intro ret ctx s
    rw [List.map_cons, List.flatten_cons, fn_loop_append step hn]
    unfold revert_info_loop
    rw [revert_fn_loop_eq step hn]
    cases h : fn_loop step info.functions ret ctx s with
    | none => rfl
    | some x =>
      obtain ⟨r, ctx1, s1⟩ := x
      exact ih _ _ _

theorem changed_count_cons (active tgt : Ptr → Option Nat) (p : Ptr) (l : List Ptr) :
    changed_count active tgt (p :: l)
      = (if tgt p = active p then 0 else 1)
        + changed_count (Function.update active p (tgt p)) tgt l := by
  unfold changed_count
  have hfil : Finset.filter (fun q => Function.update active p (tgt p) q ≠ tgt q) l.toFinset
      = Finset.filter (fun q => active q ≠ tgt q) (l.toFinset.erase p) := by
    ext q
    simp only [Finset.mem_filter, Finset.mem_erase, List.mem_toFinset]
    by_cases hq : q = p
    · subst hq; simp
    · simp [Function.update_noteq hq, hq]
  rw [hfil, List.toFinset_cons]
  by_cases hp : tgt p = active p
  · rw [if_pos hp, Nat.zero_add]
    congr 1
    ext q
    simp only [Finset.mem_filter, Finset.mem_insert, Finset.mem_erase, List.mem_toFinset]
    constructor
    · rintro ⟨hq | hq, hne⟩
      · subst hq; exact absurd hp.symm hne
      · refine ⟨⟨?_, hq⟩, hne⟩
        rintro rfl
        exact hne hp.symm
    · rintro ⟨⟨_, hq⟩, hne⟩
      exact ⟨Or.inr hq, hne⟩
  · rw [if_neg hp]
    have hins : Finset.filter (fun q => active q ≠ tgt q) (insert p l.toFinset)
        = insert p (Finset.filter (fun q => active q ≠ tgt q) (l.toFinset.erase p)) := by
      ext q
      simp only [Finset.mem_filter, Finset.mem_insert, Finset.mem_erase, List.mem_toFinset]
      constructor
      · rintro ⟨hq | hq, hne⟩
        · exact Or.inl hq
        · by_cases hqp : q = p
          · exact Or.inl hqp
          · exact Or.inr ⟨⟨hqp, hq⟩, hne⟩
      · rintro (hq | ⟨⟨_, hq⟩, hne⟩)
        · subst hq
          exact ⟨Or.inl rfl, fun h => hp h.symm⟩
        · exact ⟨Or.inr hq, hne⟩
    rw [hins, Finset.card_insert_of_not_mem, Nat.add_comm]
    simp

theorem step_rewrites_tail {D : Descriptors} {step : Step} {tgt : Ptr → Option Nat}
    {s0 : State} {p : Ptr} {l : List Ptr} (h : step_rewrites D step tgt s0 (p :: l)) :
    step_rewrites D step tgt s0 l :=
  fun fn hfn => h fn (List.mem_cons_of_mem _ hfn)

/-- The loop over the functions `l` with a step that is the rewriter: it runs
to its end, adds to `ret` the number of distinct functions whose active variant
differed from the target, leaves each function of `l` on its target and all
other functions and the variables as they were. -/
theorem fn_loop_rewrites (D : Descriptors) (step : Step) (tgt : Ptr → Option Nat) (s0 : State) :
    ∀ (l : List Ptr) (ret : Int) (ctx : mv_select_ctx_t) (s : State),
      step_rewrites D step tgt s0 l → s.bound = s0.bound → s.mem = s0.mem →
      ∃ ctx1 s1, fn_loop step l ret ctx s
          = some (ret + (changed_count s.active_mvfn tgt l : Nat), ctx1, s1) ∧
        s1.calloc_ok = s.calloc_ok ∧ s1.mem = s.mem ∧ s1.bound = s.bound ∧
        ∀ p, s1.active_mvfn p = if p ∈ l then tgt p else s.active_mvfn p := by
  intro l
  induction l with
  | nil =>
    intro ret ctx s _ _ _
    refine ⟨ctx, s, ?_, rfl, rfl, rfl, ?_⟩
    · simp [fn_loop, changed_count]
    · intro p; simp
  | cons fn fns ih =>
    intro ret ctx s hstep hb hm
    have hfn := hstep fn (List.mem_cons_self _ _) ctx s hb hm
    have hin := select_mvfn_inputs D ctx fn (tgt fn) s
    have hact := select_mvfn_active D ctx fn (tgt fn) s
    have hret := select_mvfn_ret D ctx fn (tgt fn) s
    have hnn := select_mvfn_nonneg D ctx fn (tgt fn) s
    obtain ⟨ctx1, s1, hloop, hc1, hm1, hb1, ha1⟩ :=
      ih (ret + (multiverse_select_mvfn D ctx fn (tgt fn) s).1)
        (multiverse_select_mvfn D ctx fn (tgt fn) s).2.1
        (multiverse_select_mvfn D ctx fn (tgt fn) s).2.2
        (step_rewrites_tail hstep) (hin.2.2.trans hb) (hin.2.1.trans hm)
    refine ⟨ctx1, s1, ?_, hc1.trans hin.1, hm1.trans hin.2.1, hb1.trans hin.2.2, ?_⟩
    · unfold fn_loop
      rw [hfn]
      simp only [not_lt.mpr hnn, if_false]
      rw [hloop, hact, changed_count_cons, hret]
      congr 2
      split
      · simp
      · simp only [Nat.cast_add, Nat.cast_one]; ring
    · intro p
      rw [ha1 p, hact]
      by_cases hp : p = fn
      · subst hp
        by_cases hin' : p ∈ fns <;> simp [hin']
      · simp [hp, Function.update_noteq hp]

/-- The loop over functions that all have their target already: no function,
no page and no patch point is touched. -/
theorem fn_loop_unchanged (D : Descriptors) (step : Step) (tgt : Ptr → Option Nat) (s : State) :
    ∀ (l : List Ptr) (ret : Int) (ctx : mv_select_ctx_t),
      step_rewrites D step tgt s l → (∀ p ∈ l, s.active_mvfn p = tgt p) →
      fn_loop step l ret ctx s = some (ret, ctx, s) := by
  intro l
  induction l with
  | nil => intro ret ctx _ _; rfl
  | cons fn fns ih =>
    intro ret ctx hstep hall
    unfold fn_loop
    rw [hstep fn (List.mem_cons_self _ _) ctx s rfl rfl,
      select_mvfn_eq D ctx fn (tgt fn) s (hall fn (List.mem_cons_self _ _)).symm]
    simp only [lt_self_iff_false, if_false, add_zero]
    exact ih ret ctx (step_rewrites_tail hstep) (fun p hp => hall p (List.mem_cons_of_mem _ hp))

/-! ## The drivers as batches -/

theorem select_start_ok (s : State) (h : s.calloc_ok = true) :
    multiverse_select_start s = some (some fresh_ctx, logged s [Event.calloc]) := by
  unfold multiverse_select_start
  rw [if_pos h]
  rfl

/-- The context and the state that `multiverse_select_start` returns. -/
theorem select_start_some (s : State) (c : Option mv_select_ctx_t) (s1 : State)
    (h : multiverse_select_start s = some (c, s1)) :
    c = some fresh_ctx ∧ s1 = logged s [Event.calloc] := by
  unfold multiverse_select_start at h
  split at h
  · have h1 := Option.some.inj h
    exact ⟨(congrArg (fun x => x.1) h1).symm, (congrArg (fun x => x.2) h1).symm⟩
  · cases h

theorem select_end_fresh (D : Descriptors) (s : State) :
    multiverse_select_end D fresh_ctx s = logged s [Event.free] := rfl

theorem logged_logged (s : State) (es fs : List Event) :
    logged (logged s es) fs = logged s (es ++ fs) := by
  simp [logged, List.append_assoc]

theorem step_rewrites_logged {D : Descriptors} {step : Step} {tgt : Ptr → Option Nat}
    {s : State} {l : List Ptr} (es : List Event) (h : step_rewrites D step tgt s l) :
    step_rewrites D step tgt (logged s es) l := h

/-- A whole-program commit with a step that is the rewriter. -/
theorem commit_with_rewrites (D : Descriptors) (step : Step) (tgt : Ptr → Option Nat)
    (s : State) (hn : step_nonneg step) (halloc : s.calloc_ok = true)
    (hstep : step_rewrites D step tgt s (all_functions D)) :
    ∃ s1, multiverse_commit_with step D s
        = some (((changed_count s.active_mvfn tgt (all_functions D) : Nat) : Int), s1) ∧
      s1.calloc_ok = s.calloc_ok ∧ s1.mem = s.mem ∧ s1.bound = s.bound ∧
      ∀ p, s1.active_mvfn p = if p ∈ all_functions D then tgt p else s.active_mvfn p := by
  obtain ⟨ctx1, s1, hloop, hc, hm, hb, ha⟩ :=
    fn_loop_rewrites D step tgt s (all_functions D) 0 fresh_ctx (logged s [Event.calloc])
      hstep rfl rfl
  have he := select_end_same_data D ctx1 s1
  refine ⟨multiverse_select_end D ctx1 s1, ?_, he.1.trans hc, he.2.1.trans hm,
    he.2.2.1.trans hb, ?_⟩
  · unfold multiverse_commit_with
    rw [select_start_ok s halloc]
    simp only
    rw [commit_info_loop_eq step hn]
    unfold all_functions at hloop
    rw [hloop]
    simp [logged, all_functions]
  · intro p
    rw [he.2.2.2, ha p]
    rfl

/-- A whole-program commit on functions that all have their target already. -/
theorem commit_with_unchanged (D : Descriptors) (step : Step) (tgt : Ptr → Option Nat)
    (s : State) (hn : step_nonneg step) (halloc : s.calloc_ok = true)
    (hstep : step_rewrites D step tgt s (all_functions D))
    (hall : ∀ p ∈ all_functions D, s.active_mvfn p = tgt p) :
    multiverse_commit_with step D s = some (0, logged s [Event.calloc, Event.free]) := by
  unfold multiverse_commit_with
  rw [select_start_ok s halloc]
  simp only
  rw [commit_info_loop_eq step hn]
  have h := fn_loop_unchanged D step tgt (logged s [Event.calloc]) (all_functions D) 0 fresh_ctx
    hstep hall
  unfold all_functions at h
  rw [h]
  simp only
  rw [select_end_fresh, logged_logged]
  rfl

/-- A whole-program revert with a step that is the rewriter. -/
theorem revert_with_rewrites (D : Descriptors) (step : Step) (tgt : Ptr → Option Nat)
    (s : State) (hn : step_nonneg step) (halloc : s.calloc_ok = true)
    (hstep : step_rewrites D step tgt s (all_functions D)) :
    ∃ s1, multiverse_revert_with step D s
        = some (((changed_count s.active_mvfn tgt (all_functions D) : Nat) : Int), s1) ∧
      s1.calloc_ok = s.calloc_ok ∧ s1.mem = s.mem ∧ s1.bound = s.bound ∧
      ∀ p, s1.active_mvfn p = if p ∈ all_functions D then tgt p else s.active_mvfn p := by
  obtain ⟨ctx1, s1, hloop, hc, hm, hb, ha⟩ :=
    fn_loop_rewrites D step tgt s (all_functions D) 0 fresh_ctx (logged s [Event.calloc])
      hstep rfl rfl
  have he := select_end_same_data D ctx1 s1
  refine ⟨multiverse_select_end D ctx1 s1, ?_, he.1.trans hc, he.2.1.trans hm,
    he.2.2.1.trans hb, ?_⟩
  · unfold multiverse_revert_with
    rw [select_start_ok s halloc]
    simp only
    rw [revert_info_loop_eq step hn]
    unfold all_functions at hloop
    rw [hloop]
    simp [logged, all_functions]
  · intro p
    rw [he.2.2.2, ha p]
    rfl

/-- A whole-program revert on functions that all have their target already. -/
theorem revert_with_unchanged (D : Descriptors) (step : Step) (tgt : Ptr → Option Nat)
    (s : State) (hn : step_nonneg step) (halloc : s.calloc_ok = true)
    (hstep : step_rewrites D step tgt s (all_functions D))
    (hall : ∀ p ∈ all_functions D, s.active_mvfn p = tgt p) :
    multiverse_revert_with step D s = some (0, logged s [Event.calloc, Event.free]) := by
  unfold multiverse_revert_with
  rw [select_start_ok s halloc]
  simp only
  rw [revert_info_loop_eq step hn]
  have h := fn_loop_unchanged D step tgt (logged s [Event.calloc]) (all_functions D) 0 fresh_ctx
    hstep hall
  unfold all_functions at h
  rw [h]
  simp only
  rw [select_end_fresh, logged_logged]
  rfl

/-- A commit or revert over the functions that refer to `var`, with a step
that is the rewriter. -/
theorem info_refs_with_rewrites (D : Descriptors) (step : Step) (tgt : Ptr → Option Nat)
    (var : Ptr) (s : State) (halloc : s.calloc_ok = true)
    (hstep : step_rewrites D step tgt s (D.vars var).functions) :
    ∃ s1, info_refs_with step D var s
        = some (((changed_count s.active_mvfn tgt (D.vars var).functions : Nat) : Int), s1) ∧
      s1.calloc_ok = s.calloc_ok ∧ s1.mem = s.mem ∧ s1.bound = s.bound ∧
      ∀ p, s1.active_mvfn p = if p ∈ (D.vars var).functions then tgt p else s.active_mvfn p := by
  obtain ⟨ctx1, s1, hloop, hc, hm, hb, ha⟩ :=
    fn_loop_rewrites D step tgt s (D.vars var).functions 0 fresh_ctx (logged s [Event.calloc])
      hstep rfl rfl
  have he := select_end_same_data D ctx1 s1
  refine ⟨multiverse_select_end D ctx1 s1, ?_, he.1.trans hc, he.2.1.trans hm,
    he.2.2.1.trans hb, ?_⟩
  · unfold info_refs_with
    rw [select_start_ok s halloc]
    simp only
    rw [hloop]
    simp [logged]
  · intro p
    rw [he.2.2.2, ha p]
    rfl

/-- The commit step is the rewriter with the selector's choice, on every
function whose selection loop runs to its end. -/
theorem commit_step_rewrites (D : Descriptors) (s : State) (l : List Ptr)
    (h : ∀ fn ∈ l, ∃ best, best_mvfn D s fn = some best) :
    step_rewrites D (commit_step D) (selector_choice D s) s l := by
  intro fn hfn ctx s' hb hm
  obtain ⟨best, hbest⟩ := h fn hfn
  unfold commit_step __multiverse_commit_fn selector_choice
  rw [best_mvfn_congr D s s' fn hb hm, hbest]
  rfl

theorem revert_step_rewrites (D : Descriptors) (s : State) (l : List Ptr) :
    step_rewrites D (revert_step D) (fun _ => none) s l := by
  intro fn _ ctx s' _ _
  rfl

/-! ## The commit drivers -/

theorem assignments_loop_false (D : Descriptors) (s : State) :
    ∀ (as : List mv_info_assignment) (r : Bool),
      assignments_loop D s as false = some r → r = false := by
  intro as
  induction as with
  | nil => intro r h; simp [assignments_loop] at h; exact h
  | cons a as ih =>
    intro r h
    unfold assignments_loop at h
    split at h
    · exact ih r h
    · split at h
      · cases h
      · split at h <;> exact ih r h

/-- A variant is found good by the loop only if all its variables are bound. -/
theorem assignments_loop_true_bound (D : Descriptors) (s : State) :
    ∀ (as : List mv_info_assignment) (good : Bool),
      assignments_loop D s as good = some true → ∀ a ∈ as, s.bound a.var ≠ 0 := by
  intro as
  induction as with
  | nil => intro good _ a ha; cases ha
  | cons a as ih =>
    intro good h x hx
    unfold assignments_loop at h
    split at h
    · exact absurd (assignments_loop_false D s as true h) (by decide)
    · rename_i hb
      split at h
      · cases h
      · rcases List.mem_cons.mp hx with rfl | hx
        · exact hb
        · split at h
          · exact absurd (assignments_loop_false D s as true h) (by decide)
          · exact ih good h x hx

theorem mv_functions_loop_some (D : Descriptors) (s : State) :
    ∀ (ms : List mv_info_mvfn) (f : Nat) (b r : Option Nat),
      mv_functions_loop D s ms f b = some r →
      r = b ∨ ∃ k m, r = some (f + k) ∧ ms[k]? = some m ∧
        assignments_loop D s m.assignments true = some true := by
  intro ms
  induction ms with
  | nil =>
    intro f b r h
    simp [mv_functions_loop] at h
    exact Or.inl h.symm
  | cons m ms ih =>
    intro f b r h
    unfold mv_functions_loop at h
    cases hg : assignments_loop D s m.assignments true with
    | none => rw [hg] at h; cases h
    | some good =>
      rw [hg] at h
      simp only at h
      cases good with
      | true =>
        simp only [if_true] at h
        rcases ih (f + 1) (some f) r h with hr | ⟨k, m', hr, hk, hgood⟩
        · exact Or.inr ⟨0, m, by simpa using hr, by simp, hg⟩
        · exact Or.inr ⟨k + 1, m', by rw [hr]; congr 1; omega, by simpa using hk, hgood⟩
      | false =>
        simp only [Bool.false_eq_true, if_false] at h
        rcases ih (f + 1) b r h with hr | ⟨k, m', hr, hk, hgood⟩
        · exact Or.inl hr
        · exact Or.inr ⟨k + 1, m', by rw [hr]; congr 1; omega, by simpa using hk, hgood⟩

/-- A variant with an assignment on an unbound variable is not the selection. -/
theorem best_mvfn_ne_of_unbound (D : Descriptors) (s : State) (fn : Ptr) (f : Nat)
    (mvfn : mv_info_mvfn) (a : mv_info_assignment)
    (hv : (D.fns fn).mv_functions[f]? = some mvfn) (ha : a ∈ mvfn.assignments)
    (hu : s.bound a.var = 0) : best_mvfn D s fn ≠ some (some f) := by
  intro h
  rcases mv_functions_loop_some D s _ 0 none (some f) h with hr | ⟨k, m, hr, hk, hgood⟩
  · cases hr
  · rw [Nat.zero_add] at hr
    cases hr
    rw [hv] at hk
    cases hk
    exact assignments_loop_true_bound D s _ true hgood a ha hu

/-- What `__multiverse_commit_fn` returns when it returns. -/
theorem commit_fn_some (D : Descriptors) (ctx : mv_select_ctx_t) (fn : Ptr) (s : State)
    (x : Int × mv_select_ctx_t × State) (h : __multiverse_commit_fn D ctx fn s = some x) :
    ∃ best, best_mvfn D s fn = some best ∧ x = multiverse_select_mvfn D ctx fn best s := by
  unfold __multiverse_commit_fn at h
  cases hb : best_mvfn D s fn with
  | none => rw [hb] at h; cases h
  | some b =>
    rw [hb] at h
    exact ⟨b, rfl, (Option.some.inj h).symm⟩

/-- A commit loop that returns has run every selection loop to its end. -/
theorem fn_loop_commit_selectable (D : Descriptors) :
    ∀ (l : List Ptr) (ret : Int) (ctx : mv_select_ctx_t) (s : State)
      (x : Int × mv_select_ctx_t × State),
      fn_loop (commit_step D) l ret ctx s = some x →
      ∀ fn ∈ l, ∃ best, best_mvfn D s fn = some best := by
  intro l
  induction l with
  | nil => intro ret ctx s x _ fn hfn; cases hfn
  | cons p l ih =>
    intro ret ctx s x h fn hfn
    unfold fn_loop at h
    cases hs : commit_step D ctx p s with
    | none => rw [hs] at h; cases h
    | some y =>
      obtain ⟨r, ctx1, s1⟩ := y
      rw [hs] at h
      have hr : ¬ r < 0 := not_lt.mpr (commit_step_nonneg D ctx p s r ctx1 s1 hs)
      simp only [hr, if_false] at h
      obtain ⟨best, hbest, hy⟩ := commit_fn_some D ctx p s _ hs
      rcases List.mem_cons.mp hfn with rfl | hfn
      · exact ⟨best, hbest⟩
      · obtain ⟨b, hb⟩ := ih _ _ _ x h fn hfn
        have hin := select_mvfn_inputs D ctx p best s
        have hs1 : s1 = (multiverse_select_mvfn D ctx p best s).2.2 := by rw [← hy]
        rw [hs1, best_mvfn_congr D s _ fn hin.2.2 hin.2.1] at hb
        exact ⟨b, hb⟩

theorem selector_choice_eq {D : Descriptors} {s : State} {fn : Ptr} {best : Option Nat}
    (h : best_mvfn D s fn = some best) : selector_choice D s fn = best := by
  unfold selector_choice
  rw [h]
  rfl

theorem best_mvfn_eq_choice {D : Descriptors} {s : State} {fn : Ptr}
    (h : ∃ best, best_mvfn D s fn = some best) :
    best_mvfn D s fn = some (selector_choice D s fn) := by
  obtain ⟨b, hb⟩ := h
  rw [selector_choice_eq hb, hb]

/-- The commit of one function, when its selection loop runs to its end. -/
theorem commit_info_fn_post (D : Descriptors) (fn : Ptr) (s : State)
    (halloc : s.calloc_ok = true) (best : Option Nat) (hsel : best_mvfn D s fn = some best) :
    ∃ s1, multiverse_commit_info_fn D fn s
        = some ((if best = s.active_mvfn fn then 0 else 1), s1) ∧
      s1.calloc_ok = s.calloc_ok ∧ s1.mem = s.mem ∧ s1.bound = s.bound ∧
      s1.active_mvfn = Function.update s.active_mvfn fn best := by
  have hsel1 : best_mvfn D (logged s [Event.calloc]) fn = some best := by
    rw [best_mvfn_congr D s (logged s [Event.calloc]) fn rfl rfl, hsel]
  have hin := select_mvfn_inputs D fresh_ctx fn best (logged s [Event.calloc])
  have hact := select_mvfn_active D fresh_ctx fn best (logged s [Event.calloc])
  have hret := select_mvfn_ret D fresh_ctx fn best (logged s [Event.calloc])
  have he := select_end_same_data D
    (multiverse_select_mvfn D fresh_ctx fn best (logged s [Event.calloc])).2.1
    (multiverse_select_mvfn D fresh_ctx fn best (logged s [Event.calloc])).2.2
  refine ⟨_, ?_, he.1.trans hin.1, he.2.1.trans hin.2.1, he.2.2.1.trans hin.2.2,
    he.2.2.2.trans hact⟩
  unfold multiverse_commit_info_fn
  rw [select_start_ok s halloc]
  simp only
  unfold __multiverse_commit_fn
  rw [hsel1]
  simp only
  rw [hret]
  rfl

/-- A commit of one function that returns has run the selection loop to its
end, with a context. -/
theorem commit_info_fn_some (D : Descriptors) (fn : Ptr) (s : State) (x : Int × State)
    (h : multiverse_commit_info_fn D fn s = some x) :
    s.calloc_ok = true ∧ ∃ best, best_mvfn D s fn = some best := by
  unfold multiverse_commit_info_fn at h
  cases hc : s.calloc_ok with
  | false => simp [multiverse_select_start, hc] at h
  | true =>
    refine ⟨rfl, ?_⟩
    rw [select_start_ok s hc] at h
    simp only at h
    cases hb : __multiverse_commit_fn D fresh_ctx fn (logged s [Event.calloc]) with
    | none => rw [hb] at h; cases h
    | some y =>
      obtain ⟨best, hbest, _⟩ := commit_fn_some D _ fn _ y hb
      exact ⟨best, by rw [← best_mvfn_congr D s (logged s [Event.calloc]) fn rfl rfl]; exact hbest⟩

/-- A whole-program commit, when every selection loop runs to its end. -/
theorem commit_post (D : Descriptors) (s : State) (halloc : s.calloc_ok = true)
    (hsel : ∀ fn ∈ all_functions D, ∃ best, best_mvfn D s fn = some best) :
    ∃ s1, multiverse_commit D s
        = some (((changed_count s.active_mvfn (selector_choice D s) (all_functions D) : Nat)
            : Int), s1) ∧
      s1.calloc_ok = s.calloc_ok ∧ s1.mem = s.mem ∧ s1.bound = s.bound ∧
      ∀ p, s1.active_mvfn p
        = if p ∈ all_functions D then selector_choice D s p else s.active_mvfn p :=
  commit_with_rewrites D (commit_step D) (selector_choice D s) s (commit_step_nonneg D) halloc
    (commit_step_rewrites D s _ hsel)

/-- A whole-program commit that returns has run every selection loop to its
end, with a context. -/
theorem commit_some (D : Descriptors) (s : State) (x : Int × State)
    (h : multiverse_commit D s = some x) :
    s.calloc_ok = true ∧ ∀ fn ∈ all_functions D, ∃ best, best_mvfn D s fn = some best := by
  unfold multiverse_commit multiverse_commit_with at h
  cases hc : s.calloc_ok with
  | false => simp [multiverse_select_start, hc] at h
  | true =>
    refine ⟨rfl, ?_⟩
    rw [select_start_ok s hc] at h
    simp only at h
    rw [commit_info_loop_eq _ (commit_step_nonneg D)] at h
    cases hl : fn_loop (commit_step D) (all_functions D) 0 fresh_ctx (logged s [Event.calloc]) with
    | none =>
      unfold all_functions at hl
      rw [hl] at h
      cases h
    | some y =>
      intro fn hfn
      obtain ⟨b, hb⟩ := fn_loop_commit_selectable D _ _ _ _ y hl fn hfn
      exact ⟨b, by rw [← best_mvfn_congr D s (logged s [Event.calloc]) fn rfl rfl]; exact hb⟩

/-- A commit over the functions referring to `var`, when every selection loop
runs to its end. -/
theorem commit_info_refs_post (D : Descriptors) (var : Ptr) (s : State)
    (halloc : s.calloc_ok = true)
    (hsel : ∀ fn ∈ (D.vars var).functions, ∃ best, best_mvfn D s fn = some best) :
    ∃ s1, multiverse_commit_info_refs D var s
        = some (((changed_count s.active_mvfn (selector_choice D s) (D.vars var).functions : Nat)
            : Int), s1) ∧
      s1.calloc_ok = s.calloc_ok ∧ s1.mem = s.mem ∧ s1.bound = s.bound ∧
      ∀ p, s1.active_mvfn p
        = if p ∈ (D.vars var).functions then selector_choice D s p else s.active_mvfn p :=
  info_refs_with_rewrites D (commit_step D) (selector_choice D s) var s halloc
    (commit_step_rewrites D s _ hsel)

/-- A commit over the functions referring to `var` that returns has run every
selection loop to its end, with a context. -/
theorem commit_info_refs_some (D : Descriptors) (var : Ptr) (s : State) (x : Int × State)
    (h : multiverse_commit_info_refs D var s = some x) :
    s.calloc_ok = true ∧
      ∀ fn ∈ (D.vars var).functions, ∃ best, best_mvfn D s fn = some best := by
  unfold multiverse_commit_info_refs info_refs_with at h
  cases hc : s.calloc_ok with
  | false => simp [multiverse_select_start, hc] at h
  | true =>
    refine ⟨rfl, ?_⟩
    rw [select_start_ok s hc] at h
    simp only at h
    cases hl : fn_loop (commit_step D) (D.vars var).functions 0 fresh_ctx
        (logged s [Event.calloc]) with
    | none => rw [hl] at h; cases h
    | some y =>
      intro fn hfn
      obtain ⟨b, hb⟩ := fn_loop_commit_selectable D _ _ _ _ y hl fn hfn
      exact ⟨b, by rw [← best_mvfn_congr D s (logged s [Event.calloc]) fn rfl rfl]; exact hb⟩

/-! ## The revert drivers -/

/-- The revert of one function. -/
theorem revert_info_fn_post (D : Descriptors) (fn : Ptr) (s : State)
    (halloc : s.calloc_ok = true) :
    ∃ s1, multiverse_revert_info_fn D fn s
        = some ((if none = s.active_mvfn fn then 0 else 1), s1) ∧
      s1.calloc_ok = s.calloc_ok ∧ s1.mem = s.mem ∧ s1.bound = s.bound ∧
      s1.active_mvfn = Function.update s.active_mvfn fn none := by
  have hin := select_mvfn_inputs D fresh_ctx fn none (logged s [Event.calloc])
  have hact := select_mvfn_active D fresh_ctx fn none (logged s [Event.calloc])
  have hret := select_mvfn_ret D fresh_ctx fn none (logged s [Event.calloc])
  have he := select_end_same_data D
    (multiverse_select_mvfn D fresh_ctx fn none (logged s [Event.calloc])).2.1
    (multiverse_select_mvfn D fresh_ctx fn none (logged s [Event.calloc])).2.2
  refine ⟨_, ?_, he.1.trans hin.1, he.2.1.trans hin.2.1, he.2.2.1.trans hin.2.2,
    he.2.2.2.trans hact⟩
  unfold multiverse_revert_info_fn
  rw [select_start_ok s halloc]
  simp only
  rw [hret]
  rfl

/-- A whole-program revert. -/
theorem revert_post (D : Descriptors) (s : State) (halloc : s.calloc_ok = true) :
    ∃ s1, multiverse_revert D s
        = some (((changed_count s.active_mvfn (fun _ => none) (all_functions D) : Nat)
            : Int), s1) ∧
      s1.calloc_ok = s.calloc_ok ∧ s1.mem = s.mem ∧ s1.bound = s.bound ∧
      ∀ p, s1.active_mvfn p = if p ∈ all_functions D then none else s.active_mvfn p :=
  revert_with_rewrites D (revert_step D) (fun _ => none) s (revert_step_nonneg D) halloc
    (revert_step_rewrites D s _)

theorem mem_all_functions {D : Descriptors} {info : mv_info} {fn : Ptr}
    (hi : info ∈ D.mv_information) (hf : fn ∈ info.functions) : fn ∈ all_functions D := by
  unfold all_functions
  rw [List.mem_flatten]
  exact ⟨info.functions, List.mem_map.mpr ⟨info, hi, rfl⟩, hf⟩

theorem selectable_of_widths (D : Descriptors) (s : State) (l : List Ptr)
    (hw : ∀ fn ∈ l, widths_valid D s fn) :
    ∀ fn ∈ l, ∃ best, best_mvfn D s fn = some best :=
  fun fn hfn => best_mvfn_total D s fn (hw fn hfn)

theorem selector_choice_congr (D : Descriptors) (s s' : State)
    (hb : s'.bound = s.bound) (hm : s'.mem = s.mem) :
    selector_choice D s' = selector_choice D s := by
  funext fn
  unfold selector_choice
  rw [best_mvfn_congr D s s' fn hb hm]

/-! ## The claims -/

/-- C2: a variant with an assignment on an unbound variable is never selected.
If variant `f` of `fn` has an assignment `a` whose variable has bound state 0
(whatever the variable holds), then the selection loop does not end on `f`,
and after each commit operation that covers `fn` (`__multiverse_commit_fn`,
`multiverse_commit_info_fn`, `multiverse_commit_fn`,
`multiverse_commit_info_refs`, `multiverse_commit_refs`, `multiverse_commit`)
the active variant of `fn` is not `f`. -/
theorem unbound_variant_never_selected (D : Descriptors) (s : State) (fn : Ptr) (f : Nat)
    (mvfn : mv_info_mvfn) (a : mv_info_assignment)
    (hv : (D.fns fn).mv_functions[f]? = some mvfn) (ha : a ∈ mvfn.assignments)
    (hu : s.bound a.var = 0) :
    best_mvfn D s fn ≠ some (some f) ∧
    (∀ ctx r ctx1 s1, __multiverse_commit_fn D ctx fn s = some (r, ctx1, s1) →
      s1.active_mvfn fn ≠ some f) ∧
    (∀ r s1, multiverse_commit_info_fn D fn s = some (r, s1) → s1.active_mvfn fn ≠ some f) ∧
    (∀ body r s1, D.multiverse_info_fn body = some fn →
      multiverse_commit_fn D body s = some (r, s1) → s1.active_mvfn fn ≠ some f) ∧
    (∀ var r s1, fn ∈ (D.vars var).functions →
      multiverse_commit_info_refs D var s = some (r, s1) → s1.active_mvfn fn ≠ some f) ∧
    (∀ loc var r s1, D.multiverse_info_var loc = some var → fn ∈ (D.vars var).functions →
      multiverse_commit_refs D loc s = some (r, s1) → s1.active_mvfn fn ≠ some f) ∧
    (∀ r s1, fn ∈ all_functions D →
      multiverse_commit D s = some (r, s1) → s1.active_mvfn fn ≠ some f) := by
  have hne := best_mvfn_ne_of_unbound D s fn f mvfn a hv ha hu
  have hchoice : ∀ best, best_mvfn D s fn = some best → best ≠ some f := by
    intro best hb heq
    rw [heq] at hb
    exact hne hb
  have hinfo : ∀ r s1, multiverse_commit_info_fn D fn s = some (r, s1) →
      s1.active_mvfn fn ≠ some f := by
    intro r s1 h
    obtain ⟨halloc, best, hbest⟩ := commit_info_fn_some D fn s _ h
    obtain ⟨s2, h2, _, _, _, hact⟩ := commit_info_fn_post D fn s halloc best hbest
    rw [h2] at h
    have hs : s2 = s1 := congrArg (fun x => x.2) (Option.some.inj h)
    rw [← hs, hact, Function.update_same]
    exact hchoice best hbest
  have hrefs : ∀ var r s1, fn ∈ (D.vars var).functions →
      multiverse_commit_info_refs D var s = some (r, s1) → s1.active_mvfn fn ≠ some f := by
    intro var r s1 hfn h
    obtain ⟨halloc, hsel⟩ := commit_info_refs_some D var s _ h
    obtain ⟨s2, h2, _, _, _, hact⟩ := commit_info_refs_post D var s halloc hsel
    rw [h2] at h
    have hs : s2 = s1 := congrArg (fun x => x.2) (Option.some.inj h)
    rw [← hs, hact fn, if_pos hfn]
    obtain ⟨best, hbest⟩ := hsel fn hfn
    rw [selector_choice_eq hbest]
    exact hchoice best hbest
  refine ⟨hne, ?_, hinfo, ?_, hrefs, ?_, ?_⟩
  · intro ctx r ctx1 s1 h
    obtain ⟨best, hbest, hx⟩ := commit_fn_some D ctx fn s _ h
    have hs : s1 = (multiverse_select_mvfn D ctx fn best s).2.2 := by rw [← hx]
    rw [hs, select_mvfn_active, Function.update_same]
    exact hchoice best hbest
  · intro body r s1 hlook h
    unfold multiverse_commit_fn at h
    rw [hlook] at h
    exact hinfo r s1 h
  · intro loc var r s1 hlook hfn h
    unfold multiverse_commit_refs at h
    rw [hlook] at h
    exact hrefs var r s1 hfn h
  · intro r s1 hfn h
    obtain ⟨halloc, hsel⟩ := commit_some D s _ h
    obtain ⟨s2, h2, _, _, _, hact⟩ := commit_post D s halloc hsel
    rw [h2] at h
    have hs : s2 = s1 := congrArg (fun x => x.2) (Option.some.inj h)
    rw [← hs, hact fn, if_pos hfn]
    obtain ⟨best, hbest⟩ := hsel fn hfn
    rw [selector_choice_eq hbest]
    exact hchoice best hbest

/-- C2 on the example: `x = 7` lies inside the range `[5,10]` of variant B
(number 1) and B is active, but `x` is unbound; the loop does not select B,
and `multiverse_commit` returns 1 and leaves the function without an active
variant. -/
theorem unbound_variant_never_selected_witness :
    ((example_descriptors.fns 10).mv_functions[1]? = some ⟨[⟨1, 5, 10⟩]⟩ ∧
      (⟨1, 5, 10⟩ : mv_info_assignment) ∈ (⟨[⟨1, 5, 10⟩]⟩ : mv_info_mvfn).assignments ∧
      (example_state 7 0 (some 1)).bound (⟨1, 5, 10⟩ : mv_info_assignment).var = 0) ∧
    best_mvfn example_descriptors (example_state 7 0 (some 1)) 10 ≠ some (some 1) ∧
    (∀ r s1, multiverse_commit example_descriptors (example_state 7 0 (some 1)) = some (r, s1) →
      s1.active_mvfn 10 ≠ some 1) ∧
    (multiverse_commit example_descriptors (example_state 7 0 (some 1))).map
      (fun x => (x.1, x.2.active_mvfn 10)) = some (1, none) :=
  ⟨⟨by decide, by decide, by decide⟩,
   (unbound_variant_never_selected example_descriptors (example_state 7 0 (some 1)) 10 1
      ⟨[⟨1, 5, 10⟩]⟩ ⟨1, 5, 10⟩ (by decide) (by decide) (by decide)).1,
   fun r s1 h =>
     (unbound_variant_never_selected example_descriptors (example_state 7 0 (some 1)) 10 1
        ⟨[⟨1, 5, 10⟩]⟩ ⟨1, 5, 10⟩ (by decide) (by decide) (by decide)).2.2.2.2.2.2 r s1
       (by decide) h,
   by decide⟩

/-! ## The protection cache on ten and more pages -/

/-- C3 at a failing input, page size 4096, no page writable at the start.
(1) A batch that unprotects the ten pages `4096, ..., 40960` through a fresh
context: page 4096 is made writable during the batch, and it is still writable
after `multiverse_select_end`.  (2) The same through a driver:
`multiverse_revert_info_fn` on a function with an active variant and ten patch
points on these ten pages returns 1 and leaves page 4096 writable. -/
theorem select_end_leaves_page_writable :
    Event.mprotect 4096 Prot.read_write_exec ∈
      (unprotect_all example_descriptors (distinct_page_addrs 10)
        (fresh_ctx, example_state 0 1 none)).2.log ∧
    (multiverse_select_end example_descriptors
      (unprotect_all example_descriptors (distinct_page_addrs 10)
        (fresh_ctx, example_state 0 1 none)).1
      (unprotect_all example_descriptors (distinct_page_addrs 10)
        (fresh_ctx, example_state 0 1 none)).2).writable 4096 = true ∧
    (multiverse_revert_info_fn (wide_descriptors 10) 10 (example_state 0 1 (some 0))).map
      (fun x => (x.1, x.2.writable 4096)) = some (1, true) := by
  refine ⟨?_, ?_, ?_⟩ <;> decide

/-- C4 at the input of the spec, page size 4096: a batch that unprotects the
15 pages `4096, ..., 61440`, each once, through a fresh context issues 15
`mprotect` calls that make a page writable, no re-protecting `mprotect` call
during the `multiverse_select_unprotect` calls, and 9 re-protecting calls in
`multiverse_select_end`. -/
theorem lru_fifteen_pages :
    count_mprotect Prot.read_write_exec
      (unprotect_all example_descriptors (distinct_page_addrs 15)
        (fresh_ctx, example_state 0 1 none)).2.log = 15 ∧
    count_mprotect Prot.read_exec
      (unprotect_all example_descriptors (distinct_page_addrs 15)
        (fresh_ctx, example_state 0 1 none)).2.log = 0 ∧
    count_mprotect Prot.read_exec
      (multiverse_select_end example_descriptors
        (unprotect_all example_descriptors (distinct_page_addrs 15)
          (fresh_ctx, example_state 0 1 none)).1
        (unprotect_all example_descriptors (distinct_page_addrs 15)
          (fresh_ctx, example_state 0 1 none)).2).log = 9 := by
  refine ⟨?_, ?_, ?_⟩ <;> decide

/-! ## The whole-program drivers -/

/-- C5: the postcondition of `multiverse_commit`.  When the context allocation
succeeds and every bound variable referred to by a function of the program has
width 1, 2 or 4, the call returns; its result is the number of distinct
functions of the program whose active variant before the call was not the
selector's choice; afterwards every function in every block has the selector's
choice as its active variant; and the call itself leaves the variables and
their bound states alone. -/
theorem multiverse_commit_postcondition (D : Descriptors) (s : State)
    (halloc : s.calloc_ok = true) (hw : ∀ fn ∈ all_functions D, widths_valid D s fn) :
    ∃ s1, multiverse_commit D s
        = some ((((all_functions D).toFinset.filter
            (fun fn => best_mvfn D s fn ≠ some (s.active_mvfn fn))).card : Int), s1) ∧
      (∀ info ∈ D.mv_information, ∀ fn ∈ info.functions,
        best_mvfn D s fn = some (s1.active_mvfn fn)) ∧
      s1.mem = s.mem ∧ s1.bound = s.bound := by
  have hsel := selectable_of_widths D s _ hw
  obtain ⟨s1, hrun, _, hm, hb, hact⟩ := commit_post D s halloc hsel
  refine ⟨s1, ?_, ?_, hm, hb⟩
  · rw [hrun]
    congr 3
    unfold changed_count
    congr 1
    apply Finset.filter_congr
    intro fn hfn
    rw [List.mem_toFinset] at hfn
    rw [best_mvfn_eq_choice (hsel fn hfn)]
    constructor
    · intro h heq
      exact h (Option.some.inj heq).symm
    · intro h heq
      exact h (by rw [heq])
  · intro info hi fn hf
    have hfn := mem_all_functions hi hf
    rw [hact fn, if_pos hfn]
    exact best_mvfn_eq_choice (hsel fn hfn)

/-- C5 on the example: with `x = 7` bound and no active variant,
`multiverse_commit` returns 1 and the function has variant B (number 1). -/
theorem multiverse_commit_postcondition_witness :
    ((example_state 7 1 none).calloc_ok = true ∧
      ∀ fn ∈ all_functions example_descriptors,
        widths_valid example_descriptors (example_state 7 1 none) fn) ∧
    (∃ s1, multiverse_commit example_descriptors (example_state 7 1 none)
        = some ((((all_functions example_descriptors).toFinset.filter
            (fun fn => best_mvfn example_descriptors (example_state 7 1 none) fn
              ≠ some ((example_state 7 1 none).active_mvfn fn))).card : Int), s1) ∧
      (∀ info ∈ example_descriptors.mv_information, ∀ fn ∈ info.functions,
        best_mvfn example_descriptors (example_state 7 1 none) fn
          = some (s1.active_mvfn fn)) ∧
      s1.mem = (example_state 7 1 none).mem ∧ s1.bound = (example_state 7 1 none).bound) ∧
    (multiverse_commit example_descriptors (example_state 7 1 none)).map
      (fun x => (x.1, x.2.active_mvfn 10)) = some (1, some 1) :=
  ⟨⟨rfl, by decide⟩,
   multiverse_commit_postcondition example_descriptors (example_state 7 1 none) rfl (by decide),
   by decide⟩

/-- A second whole-program commit, when every selection loop runs to its
end. -/
theorem commit_twice (D : Descriptors) (s : State) (halloc : s.calloc_ok = true)
    (hsel : ∀ fn ∈ all_functions D, ∃ best, best_mvfn D s fn = some best) :
    ∃ r s1, multiverse_commit D s = some (r, s1) ∧
      multiverse_commit D s1 = some (0, logged s1 [Event.calloc, Event.free]) := by
  obtain ⟨s1, hrun, hc, hm, hb, hact⟩ := commit_post D s halloc hsel
  refine ⟨_, s1, hrun, ?_⟩
  have hsel1 : ∀ fn ∈ all_functions D, ∃ best, best_mvfn D s1 fn = some best := by
    intro fn hfn
    rw [best_mvfn_congr D s s1 fn hb hm]
    exact hsel fn hfn
  refine commit_with_unchanged D (commit_step D) (selector_choice D s1) s1
    (commit_step_nonneg D) (hc.trans halloc) (commit_step_rewrites D s1 _ hsel1) ?_
  intro p hp
  rw [hact p, if_pos hp, selector_choice_congr D s s1 hb hm]

/-- C6: `multiverse_commit` is idempotent.  For every program and state:
whenever a call returns some `r` and a state `s1`, a second call from `s1`
returns 0 and a state that differs from `s1` only by the two log entries
`calloc` and `free`, so no active variant changes and no `mprotect` and no
call to the architecture back end is issued.  And the first call does return
when the context allocation succeeds and the widths are valid. -/
theorem multiverse_commit_idempotent (D : Descriptors) (s : State) :
    (∀ r s1, multiverse_commit D s = some (r, s1) →
      multiverse_commit D s1 = some (0, logged s1 [Event.calloc, Event.free])) ∧
    (s.calloc_ok = true → (∀ fn ∈ all_functions D, widths_valid D s fn) →
      ∃ r s1, multiverse_commit D s = some (r, s1)) := by
  constructor
  · intro r s1 h
    obtain ⟨halloc, hsel⟩ := commit_some D s _ h
    obtain ⟨r2, s2, hrun, h2⟩ := commit_twice D s halloc hsel
    rw [hrun] at h
    have hs : s2 = s1 := congrArg (fun x => x.2) (Option.some.inj h)
    rw [← hs]
    exact h2
  · intro halloc hw
    obtain ⟨r, s1, hrun, _⟩ := commit_twice D s halloc (selectable_of_widths D s _ hw)
    exact ⟨r, s1, hrun⟩

/-- C6 on the example: with `x = 7` bound, the first `multiverse_commit`
returns 1, the second returns 0 and adds only `calloc` and `free` to the
log. -/
theorem multiverse_commit_idempotent_witness :
    ((example_state 7 1 none).calloc_ok = true ∧
      ∀ fn ∈ all_functions example_descriptors,
        widths_valid example_descriptors (example_state 7 1 none) fn) ∧
    (∃ r s1, multiverse_commit example_descriptors (example_state 7 1 none) = some (r, s1) ∧
      multiverse_commit example_descriptors s1
        = some (0, logged s1 [Event.calloc, Event.free])) ∧
    (multiverse_commit example_descriptors (example_state 7 1 none)).map (fun x => x.1)
      = some 1 :=
  ⟨⟨rfl, by decide⟩,
   (((multiverse_commit_idempotent example_descriptors (example_state 7 1 none)).2 rfl
      (by decide)).elim fun r h => h.elim fun s1 h1 =>
        ⟨r, s1, h1,
          (multiverse_commit_idempotent example_descriptors (example_state 7 1 none)).1
            r s1 h1⟩),
   by decide⟩

/-- Revert then commit against commit, when every selection loop runs to its
end. -/
theorem revert_commit_commit (D : Descriptors) (s : State) (halloc : s.calloc_ok = true)
    (hsel : ∀ fn ∈ all_functions D, ∃ best, best_mvfn D s fn = some best) :
    ∃ r1 s1 r2 s2 r3 s3, multiverse_revert D s = some (r1, s1) ∧
      multiverse_commit D s1 = some (r2, s2) ∧
      multiverse_commit D s = some (r3, s3) ∧
      ∀ fn, s2.active_mvfn fn = s3.active_mvfn fn := by
  obtain ⟨s1, hrev, hc1, hm1, hb1, hact1⟩ := revert_post D s halloc
  have hsel1 : ∀ fn ∈ all_functions D, ∃ best, best_mvfn D s1 fn = some best := by
    intro fn hfn
    rw [best_mvfn_congr D s s1 fn hb1 hm1]
    exact hsel fn hfn
  obtain ⟨s2, hcom2, _, _, _, hact2⟩ := commit_post D s1 (hc1.trans halloc) hsel1
  obtain ⟨s3, hcom3, _, _, _, hact3⟩ := commit_post D s halloc hsel
  refine ⟨_, s1, _, s2, _, s3, hrev, hcom2, hcom3, ?_⟩
  intro fn
  rw [hact2 fn, hact3 fn, selector_choice_congr D s s1 hb1 hm1, hact1 fn]
  by_cases hfn : fn ∈ all_functions D <;> simp [hfn]

/-- C7: `multiverse_revert` followed by `multiverse_commit` leaves every
function with the same active variant as `multiverse_commit` alone.  For every
program and state: whenever the revert returns `s1`, the commit from `s1`
returns `s2` and the commit from the initial state returns `s3`, the active
variants in `s2` and `s3` are the same for every function pointer.  And all
three calls do return when the context allocation succeeds and the widths are
valid. -/
theorem revert_then_commit_eq_commit (D : Descriptors) (s : State) :
    (∀ r1 s1 r2 s2 r3 s3, multiverse_revert D s = some (r1, s1) →
      multiverse_commit D s1 = some (r2, s2) → multiverse_commit D s = some (r3, s3) →
      ∀ fn, s2.active_mvfn fn = s3.active_mvfn fn) ∧
    (s.calloc_ok = true → (∀ fn ∈ all_functions D, widths_valid D s fn) →
      ∃ r1 s1 r2 s2 r3 s3, multiverse_revert D s = some (r1, s1) ∧
        multiverse_commit D s1 = some (r2, s2) ∧ multiverse_commit D s = some (r3, s3)) := by
  constructor
  · intro r1 s1 r2 s2 r3 s3 h1 h2 h3
    obtain ⟨halloc, hsel⟩ := commit_some D s _ h3
    obtain ⟨q1, t1, q2, t2, q3, t3, g1, g2, g3, heq⟩ := revert_commit_commit D s halloc hsel
    rw [g1] at h1
    have e1 : t1 = s1 := congrArg (fun x => x.2) (Option.some.inj h1)
    rw [e1, h2] at g2
    have e2 : s2 = t2 := congrArg (fun x => x.2) (Option.some.inj g2)
    rw [g3] at h3
    have e3 : t3 = s3 := congrArg (fun x => x.2) (Option.some.inj h3)
    rw [e2, ← e3]
    exact heq
  · intro halloc hw
    obtain ⟨q1, t1, q2, t2, q3, t3, g1, g2, g3, _⟩ :=
      revert_commit_commit D s halloc (selectable_of_widths D s _ hw)
    exact ⟨q1, t1, q2, t2, q3, t3, g1, g2, g3⟩

/-- C7 on the example: with `x = 3` bound and variant B active, revert then
commit and commit alone both return and end with variant A (number 0). -/
theorem revert_then_commit_eq_commit_witness :
    ((example_state 3 1 (some 1)).calloc_ok = true ∧
      ∀ fn ∈ all_functions example_descriptors,
        widths_valid example_descriptors (example_state 3 1 (some 1)) fn) ∧
    (∃ r1 s1 r2 s2 r3 s3,
      multiverse_revert example_descriptors (example_state 3 1 (some 1)) = some (r1, s1) ∧
      multiverse_commit example_descriptors s1 = some (r2, s2) ∧
      multiverse_commit example_descriptors (example_state 3 1 (some 1)) = some (r3, s3) ∧
      ∀ fn, s2.active_mvfn fn = s3.active_mvfn fn) ∧
    (multiverse_commit example_descriptors (example_state 3 1 (some 1))).map
      (fun x => (x.1, x.2.active_mvfn 10)) = some (1, some 0) :=
  ⟨⟨rfl, by decide⟩,
   (by
     obtain ⟨r1, s1, r2, s2, r3, s3, h1, h2, h3⟩ :=
       (revert_then_commit_eq_commit example_descriptors (example_state 3 1 (some 1))).2 rfl
         (by decide)
     exact ⟨r1, s1, r2, s2, r3, s3, h1, h2, h3,
       (revert_then_commit_eq_commit example_descriptors (example_state 3 1 (some 1))).1
         r1 s1 r2 s2 r3 s3 h1 h2 h3⟩),
   by decide⟩

/-- C8: `multiverse_revert` is idempotent.  When the context allocation
succeeds, the first call returns the number of distinct functions of the
program that had an active variant, and leaves every function in every block
without an active variant; a second call from the resulting state `s1`
returns 0 and a state that differs from `s1` only by the two log entries
`calloc` and `free`. -/
theorem multiverse_revert_idempotent (D : Descriptors) (s : State)
    (halloc : s.calloc_ok = true) :
    ∃ s1, multiverse_revert D s
        = some ((((all_functions D).toFinset.filter
            (fun fn => s.active_mvfn fn ≠ none)).card : Int), s1) ∧
      (∀ info ∈ D.mv_information, ∀ fn ∈ info.functions, s1.active_mvfn fn = none) ∧
      multiverse_revert D s1 = some (0, logged s1 [Event.calloc, Event.free]) := by
  obtain ⟨s1, hrev, hc1, _, _, hact1⟩ := revert_post D s halloc
  refine ⟨s1, hrev, ?_, ?_⟩
  · intro info hi fn hf
    rw [hact1 fn, if_pos (mem_all_functions hi hf)]
  · refine revert_with_unchanged D (revert_step D) (fun _ => none) s1
      (revert_step_nonneg D) (hc1.trans halloc) (revert_step_rewrites D s1 _) ?_
    intro p hp
    rw [hact1 p, if_pos hp]

/-- C8 on the example: with variant B active, the first `multiverse_revert`
returns 1 and leaves no active variant, the second returns 0. -/
theorem multiverse_revert_idempotent_witness :
    (example_state 7 1 (some 1)).calloc_ok = true ∧
    (∃ s1, multiverse_revert example_descriptors (example_state 7 1 (some 1))
        = some ((((all_functions example_descriptors).toFinset.filter
            (fun fn => (example_state 7 1 (some 1)).active_mvfn fn ≠ none)).card : Int), s1) ∧
      (∀ info ∈ example_descriptors.mv_information, ∀ fn ∈ info.functions,
        s1.active_mvfn fn = none) ∧
      multiverse_revert example_descriptors s1
        = some (0, logged s1 [Event.calloc, Event.free])) ∧
    (multiverse_revert example_descriptors (example_state 7 1 (some 1))).map
      (fun x => (x.1, x.2.active_mvfn 10)) = some (1, none) :=
  ⟨rfl, multiverse_revert_idempotent example_descriptors (example_state 7 1 (some 1)) rfl,
   by decide⟩

/-! ## One function, and the lookups -/

/-- C9: the result of the rewriter.  When the target equals the active variant
of `fn`, `multiverse_select_mvfn` returns 0 with the context and the whole
state (pages, patch points, log) as they were; otherwise it returns 1, `fn` has
the target as active variant and every other function keeps its own.
Consequently, for an address that the lookup maps to `fn`,
`multiverse_commit_fn` (context allocation succeeding, widths valid) and
`multiverse_revert_fn` (context allocation succeeding) return 0 when the
active variant of `fn` is afterwards what it was and 1 when it is not; the
commit leaves `fn` on the selector's choice, the revert without an active
variant, and both leave every other function alone. -/
theorem select_mvfn_result (D : Descriptors) (ctx : mv_select_ctx_t) (fn : Ptr)
    (T : Option Nat) (s : State) :
    (T = s.active_mvfn fn → multiverse_select_mvfn D ctx fn T s = (0, ctx, s)) ∧
    (T ≠ s.active_mvfn fn →
      (multiverse_select_mvfn D ctx fn T s).1 = 1 ∧
      (multiverse_select_mvfn D ctx fn T s).2.2.active_mvfn fn = T ∧
      ∀ g, g ≠ fn → (multiverse_select_mvfn D ctx fn T s).2.2.active_mvfn g = s.active_mvfn g) ∧
    (∀ body, D.multiverse_info_fn body = some fn → s.calloc_ok = true → widths_valid D s fn →
      ∃ s1, multiverse_commit_fn D body s
          = some ((if s1.active_mvfn fn = s.active_mvfn fn then 0 else 1), s1) ∧
        best_mvfn D s fn = some (s1.active_mvfn fn) ∧
        ∀ g, g ≠ fn → s1.active_mvfn g = s.active_mvfn g) ∧
    (∀ body, D.multiverse_info_fn body = some fn → s.calloc_ok = true →
      ∃ s1, multiverse_revert_fn D body s
          = some ((if s1.active_mvfn fn = s.active_mvfn fn then 0 else 1), s1) ∧
        s1.active_mvfn fn = none ∧
        ∀ g, g ≠ fn → s1.active_mvfn g = s.active_mvfn g) := by
  refine ⟨select_mvfn_eq D ctx fn T s, ?_, ?_, ?_⟩
  · intro h
    refine ⟨?_, ?_, ?_⟩
    · rw [select_mvfn_ret, if_neg h]
    · rw [select_mvfn_active, Function.update_same]
    · intro g hg
      rw [select_mvfn_active, Function.update_noteq hg]
  · intro body hlook halloc hw
    obtain ⟨best, hbest⟩ := best_mvfn_total D s fn hw
    obtain ⟨s1, hrun, _, _, _, hact⟩ := commit_info_fn_post D fn s halloc best hbest
    refine ⟨s1, ?_, ?_, ?_⟩
    · unfold multiverse_commit_fn
      rw [hlook]
      simp only
      rw [hrun, hact, Function.update_same]
    · rw [hact, Function.update_same, hbest]
    · intro g hg
      rw [hact, Function.update_noteq hg]
  · intro body hlook halloc
    obtain ⟨s1, hrun, _, _, _, hact⟩ := revert_info_fn_post D fn s halloc
    refine ⟨s1, ?_, ?_, ?_⟩
    · unfold multiverse_revert_fn
      rw [hlook]
      simp only
      rw [hrun, hact, Function.update_same]
    · rw [hact, Function.update_same]
    · intro g hg
      rw [hact, Function.update_noteq hg]

/-- C9 on the example (`x = 7` bound, no active variant, the function at 10
with its body at 7000): the rewriter with target B returns 1 and sets B, with
target none it returns 0 and changes nothing; `multiverse_commit_fn` returns 1
and `multiverse_revert_fn` returns 0. -/
theorem select_mvfn_result_witness :
    (multiverse_select_mvfn example_descriptors fresh_ctx 10 none (example_state 7 1 none)
      = (0, fresh_ctx, example_state 7 1 none)) ∧
    ((multiverse_select_mvfn example_descriptors fresh_ctx 10 (some 1)
        (example_state 7 1 none)).1 = 1 ∧
      (multiverse_select_mvfn example_descriptors fresh_ctx 10 (some 1)
        (example_state 7 1 none)).2.2.active_mvfn 10 = some 1 ∧
      ∀ g, g ≠ 10 → (multiverse_select_mvfn example_descriptors fresh_ctx 10 (some 1)
        (example_state 7 1 none)).2.2.active_mvfn g = (example_state 7 1 none).active_mvfn g) ∧
    (∃ s1, multiverse_commit_fn example_descriptors 7000 (example_state 7 1 none)
        = some ((if s1.active_mvfn 10 = (example_state 7 1 none).active_mvfn 10 then 0 else 1),
            s1) ∧
      best_mvfn example_descriptors (example_state 7 1 none) 10 = some (s1.active_mvfn 10) ∧
      ∀ g, g ≠ 10 → s1.active_mvfn g = (example_state 7 1 none).active_mvfn g) ∧
    (∃ s1, multiverse_revert_fn example_descriptors 7000 (example_state 7 1 none)
        = some ((if s1.active_mvfn 10 = (example_state 7 1 none).active_mvfn 10 then 0 else 1),
            s1) ∧
      s1.active_mvfn 10 = none ∧
      ∀ g, g ≠ 10 → s1.active_mvfn g = (example_state 7 1 none).active_mvfn g) ∧
    (multiverse_commit_fn example_descriptors 7000 (example_state 7 1 none)).map
      (fun x => (x.1, x.2.active_mvfn 10)) = some (1, some 1) ∧
    (multiverse_revert_fn example_descriptors 7000 (example_state 7 1 none)).map
      (fun x => (x.1, x.2.active_mvfn 10)) = some (0, none) :=
  ⟨(select_mvfn_result example_descriptors fresh_ctx 10 none (example_state 7 1 none)).1 rfl,
   (select_mvfn_result example_descriptors fresh_ctx 10 (some 1)
      (example_state 7 1 none)).2.1 (by decide),
   (select_mvfn_result example_descriptors fresh_ctx 10 none
      (example_state 7 1 none)).2.2.1 7000 rfl rfl (by decide),
   (select_mvfn_result example_descriptors fresh_ctx 10 none
      (example_state 7 1 none)).2.2.2 7000 rfl rfl,
   by decide, by decide⟩

/-- C10: a lookup miss.  For an address `a` that `multiverse_info_fn` does not
know, `multiverse_commit_fn` and `multiverse_revert_fn` return -1, and for an
address `b` that `multiverse_info_var` does not know, `multiverse_commit_refs`
and `multiverse_revert_refs` return -1; in each case the state afterwards is
the state before, log included: no context is allocated, no `mprotect` and no
call to the architecture back end is issued, no active variant and no bound
state changes. -/
theorem lookup_miss_returns_minus_one (D : Descriptors) (s : State) (a b : Ptr)
    (hfn : D.multiverse_info_fn a = none) (hvar : D.multiverse_info_var b = none) :
    multiverse_commit_fn D a s = some (-1, s) ∧
    multiverse_revert_fn D a s = some (-1, s) ∧
    multiverse_commit_refs D b s = some (-1, s) ∧
    multiverse_revert_refs D b s = some (-1, s) := by
  refine ⟨?_, ?_, ?_, ?_⟩
  · unfold multiverse_commit_fn; rw [hfn]
  · unfold multiverse_revert_fn; rw [hfn]
  · unfold multiverse_commit_refs; rw [hvar]
  · unfold multiverse_revert_refs; rw [hvar]

/-- C10 on the example: the address 1 is no function body and the address 2
is no variable. -/
theorem lookup_miss_returns_minus_one_witness :
    (example_descriptors.multiverse_info_fn 1 = none ∧
      example_descriptors.multiverse_info_var 2 = none) ∧
    multiverse_commit_fn example_descriptors 1 (example_state 7 1 none)
      = some (-1, example_state 7 1 none) ∧
    multiverse_revert_fn example_descriptors 1 (example_state 7 1 none)
      = some (-1, example_state 7 1 none) ∧
    multiverse_commit_refs example_descriptors 2 (example_state 7 1 none)
      = some (-1, example_state 7 1 none) ∧
    multiverse_revert_refs example_descriptors 2 (example_state 7 1 none)
      = some (-1, example_state 7 1 none) :=
  ⟨⟨rfl, rfl⟩,
   lookup_miss_returns_minus_one example_descriptors (example_state 7 1 none) 1 2 rfl rfl⟩

/-! ## The slots of the protection cache -/

theorem getD_set_zero (l : List Ptr) (i j : Nat) (a : Ptr) :
    (l.set i a).getD j 0 = if i = j ∧ i < l.length then a else l.getD j 0 := by
  simp only [List.getD_eq_getElem?_getD, List.getElem?_set]
  by_cases h : i = j
  · subst h
    by_cases hl : i < l.length
    · simp [hl]
    · simp [hl, List.getElem?_eq_none (Nat.le_of_not_lt hl)]
  · simp [h]

theorem shift_loop_length : ∀ (n : Nat) (cache : List Ptr),
    (shift_loop cache n).length = cache.length := by
  intro n
  induction n with
  | zero => intro cache; rfl
  | succ n ih =>
    intro cache
    unfold shift_loop
    rw [ih, List.length_set]

/-- The slots after the shifting loop started at `n`: the slots `1..n` hold
what their left neighbours held, all other slots are as before. -/
theorem shift_loop_getD : ∀ (n : Nat) (cache : List Ptr) (j : Nat), n < cache.length →
    (shift_loop cache n).getD j 0
      = if 0 < j ∧ j ≤ n then cache.getD (j - 1) 0 else cache.getD j 0 := by
  intro n
  induction n with
  | zero =>
    intro cache j _
    have : ¬ (0 < j ∧ j ≤ 0) := by omega
    rw [if_neg this]
    rfl
  | succ n ih =>
    intro cache j hn
    unfold shift_loop
    rw [ih _ j (by rw [List.length_set]; omega)]
    by_cases h1 : 0 < j ∧ j ≤ n
    · rw [if_pos h1, if_pos (by omega), getD_set_zero, if_neg (by omega)]
    · rw [if_neg h1, getD_set_zero]
      by_cases h2 : n + 1 = j
      · subst h2
        rw [if_pos ⟨rfl, hn⟩, if_pos (by omega)]
        rfl
      · rw [if_neg (by tauto), if_neg (by omega)]

/-- The slots after a promotion or an insertion that shifted from `n`. -/
theorem shifted_cache_getD (cache : List Ptr) (n : Nat) (page : Ptr) (hn : n < cache.length)
    (j : Nat) :
    ((shift_loop cache n).set 0 page).getD j 0
      = if j = 0 then page else if j ≤ n then cache.getD (j - 1) 0 else cache.getD j 0 := by
  rw [getD_set_zero, shift_loop_length, shift_loop_getD n cache j hn]
  by_cases h0 : j = 0
  · subst h0
    rw [if_pos ⟨rfl, by omega⟩, if_pos rfl]
  · rw [if_neg (by omega), if_neg h0]
    by_cases h1 : j ≤ n
    · rw [if_pos ⟨by omega, h1⟩, if_pos h1]
    · rw [if_neg (by omega), if_neg h1]

theorem unprotect_hit (D : Descriptors) (ctx : mv_select_ctx_t) (addr : Ptr) (s : State)
    (i : Nat)
    (h : (List.range ctx.cache_size).find?
      (fun i => ctx.cache.getD i 0 == page_of D.pagesize addr) = some i) :
    multiverse_select_unprotect D ctx addr s
      = ({ ctx with cache := (shift_loop ctx.cache i).set 0 (page_of D.pagesize addr) }, s) := by
  unfold multiverse_select_unprotect
  simp only [h]

theorem unprotect_miss (D : Descriptors) (ctx : mv_select_ctx_t) (addr : Ptr) (s : State)
    (h : (List.range ctx.cache_size).find?
      (fun i => ctx.cache.getD i 0 == page_of D.pagesize addr) = none)
    (hlast : ctx.cache.getD (ctx.cache_size - 1) 0 = 0) :
    multiverse_select_unprotect D ctx addr s
      = ({ ctx with
            cache := ((shift_loop ctx.cache (ctx.cache_size - 2)).set 0
              (page_of D.pagesize addr)) },
         mprotect (page_of D.pagesize addr) Prot.read_write_exec s) := by
  unfold multiverse_select_unprotect
  simp only [h, hlast, ne_eq, not_true_eq_false, if_false]

theorem mem_iff_getD (l : List Ptr) (p : Ptr) :
    p ∈ l ↔ ∃ j, j < l.length ∧ l.getD j 0 = p := by
  rw [List.mem_iff_getElem?]
  constructor
  · rintro ⟨j, hj⟩
    have hlt : j < l.length := by
      by_contra hc
      rw [List.getElem?_eq_none (Nat.le_of_not_lt hc)] at hj
      cases hj
    exact ⟨j, hlt, by simp [hj]⟩
  · rintro ⟨j, hlt, hj⟩
    refine ⟨j, ?_⟩
    rw [List.getD_eq_getElem?_getD, List.getElem?_eq_getElem hlt] at hj
    rw [List.getElem?_eq_getElem hlt]
    simpa using hj

theorem find_hit_of_first (ctx : mv_select_ctx_t) (page : Ptr) (i : Nat)
    (hi : i < ctx.cache_size) (hpage : ctx.cache.getD i 0 = page)
    (hfirst : ∀ j, j < i → ctx.cache.getD j 0 ≠ page) :
    (List.range ctx.cache_size).find? (fun i => ctx.cache.getD i 0 == page) = some i := by
  rw [List.find?_range_eq_some]
  refine ⟨by simpa using hpage, List.mem_range.mpr hi, ?_⟩
  intro j hj
  simpa using hfirst j hj

/-! ## Promotion on a hit -/

/-- C16: promotion on a hit.  Let the context have its `cache_size` slots in
the array, no page twice among the non-`NULL` slots, and the page of `addr`,
not `NULL`, in slot `i`.  Then `multiverse_select_unprotect` leaves the state
as it is (no `mprotect`, nothing logged), the page is in slot 0 afterwards,
the slots `1..i` hold what the slots `0..i-1` held, the slots after `i` are
unchanged, the same pages are cached as before, and for `i = 0` the context is
exactly what it was. -/
theorem unprotect_hit_promotes (D : Descriptors) (ctx : mv_select_ctx_t) (addr : Ptr)
    (s : State) (i : Nat)
    (hlen : ctx.cache.length = ctx.cache_size) (hi : i < ctx.cache_size)
    (hpage : ctx.cache.getD i 0 = page_of D.pagesize addr)
    (hnz : page_of D.pagesize addr ≠ 0)
    (hnodup : ∀ a, a < ctx.cache_size → ∀ b, b < ctx.cache_size →
      ctx.cache.getD a 0 = ctx.cache.getD b 0 → ctx.cache.getD a 0 ≠ 0 → a = b) :
    (multiverse_select_unprotect D ctx addr s).2 = s ∧
    (multiverse_select_unprotect D ctx addr s).1.cache_size = ctx.cache_size ∧
    (multiverse_select_unprotect D ctx addr s).1.cache.length = ctx.cache.length ∧
    (multiverse_select_unprotect D ctx addr s).1.cache.getD 0 0 = page_of D.pagesize addr ∧
    (∀ j, 0 < j → j ≤ i →
      (multiverse_select_unprotect D ctx addr s).1.cache.getD j 0 = ctx.cache.getD (j - 1) 0) ∧
    (∀ j, i < j →
      (multiverse_select_unprotect D ctx addr s).1.cache.getD j 0 = ctx.cache.getD j 0) ∧
    (∀ p, p ∈ (multiverse_select_unprotect D ctx addr s).1.cache ↔ p ∈ ctx.cache) ∧
    (i = 0 → (multiverse_select_unprotect D ctx addr s).1 = ctx) := by
  have hfirst : ∀ j, j < i → ctx.cache.getD j 0 ≠ page_of D.pagesize addr := by
    intro j hj heq
    have := hnodup j (by omega) i hi (heq.trans hpage.symm) (by rw [heq]; exact hnz)
    omega
  have hil : i < ctx.cache.length := by omega
  rw [unprotect_hit D ctx addr s i (find_hit_of_first ctx _ i hi hpage hfirst)]
  have hget := shifted_cache_getD ctx.cache i (page_of D.pagesize addr) hil
  refine ⟨rfl, rfl, ?_, ?_, ?_, ?_, ?_, ?_⟩
  · simp only
    rw [List.length_set, shift_loop_length]
  · simp only
    rw [hget 0, if_pos rfl]
  · intro j hj0 hji
    simp only
    rw [hget j, if_neg (by omega), if_pos hji]
  · intro j hij
    simp only
    rw [hget j, if_neg (by omega), if_neg (by omega)]
  · intro p
    simp only
    rw [mem_iff_getD, mem_iff_getD, List.length_set, shift_loop_length]
    constructor
    · rintro ⟨j, hj, hp⟩
      rw [hget j] at hp
      by_cases h0 : j = 0
      · rw [if_pos h0] at hp
        exact ⟨i, hil, hpage.trans hp⟩
      · rw [if_neg h0] at hp
        by_cases h1 : j ≤ i
        · rw [if_pos h1] at hp
          exact ⟨j - 1, by omega, hp⟩
        · rw [if_neg h1] at hp
          exact ⟨j, hj, hp⟩
    · rintro ⟨k, hk, hp⟩
      rcases Nat.lt_trichotomy k i with hlt | heq | hgt
      · refine ⟨k + 1, by omega, ?_⟩
        rw [hget (k + 1), if_neg (by omega), if_pos (by omega)]
        exact hp
      · refine ⟨0, by omega, ?_⟩
        rw [hget 0, if_pos rfl, ← hpage, ← heq]
        exact hp
      · refine ⟨k, hk, ?_⟩
        rw [hget k, if_neg (by omega), if_neg (by omega)]
        exact hp
  · intro h0
    subst h0
    have hc : (shift_loop ctx.cache 0).set 0 (page_of D.pagesize addr) = ctx.cache := by
      apply List.ext_getElem?
      intro j
      show (ctx.cache.set 0 (page_of D.pagesize addr))[j]? = ctx.cache[j]?
      rw [List.getElem?_set]
      by_cases hj : 0 = j
      · subst hj
        rw [if_pos rfl, if_pos hil]
        rw [List.getD_eq_getElem?_getD, List.getElem?_eq_getElem hil] at hpage
        rw [List.getElem?_eq_getElem hil]
        simpa using hpage.symm
      · rw [if_neg hj]
    simp only
    rw [hc]

/-- C16 on an example: the cache holds the pages 12288, 8192, 4096 in the
slots 0, 1, 2 and the address 4112 lies on page 4096 (slot 2); afterwards the
cache holds 4096, 12288, 8192 and the state is as before. -/
theorem unprotect_hit_promotes_witness :
    (multiverse_select_unprotect example_descriptors
        ⟨10, [12288, 8192, 4096, 0, 0, 0, 0, 0, 0, 0]⟩ 4112 (example_state 7 1 none)).2
      = example_state 7 1 none ∧
    (multiverse_select_unprotect example_descriptors
        ⟨10, [12288, 8192, 4096, 0, 0, 0, 0, 0, 0, 0]⟩ 4112 (example_state 7 1 none)).1
      = ⟨10, [4096, 12288, 8192, 0, 0, 0, 0, 0, 0, 0]⟩ :=
  ⟨(unprotect_hit_promotes example_descriptors
      ⟨10, [12288, 8192, 4096, 0, 0, 0, 0, 0, 0, 0]⟩ 4112 (example_state 7 1 none) 2
      (by decide) (by decide) (by decide) (by decide) (by decide)).1,
   by decide⟩

/-! ## The shape of the cache -/

theorem fresh_ctx_shape : cache_shape fresh_ctx := by
  refine ⟨rfl, rfl, 0, by omega, ?_, ?_, ?_⟩
  · intro j hj; omega
  · intro j _
    show (List.replicate 10 0).getD j 0 = 0
    by_cases h : j < 10
    · interval_cases j <;> rfl
    · rw [List.getD_eq_getElem?_getD, List.getElem?_eq_none (by simpa using h)]
      rfl
  · intro a ha; omega

/-- One `multiverse_select_unprotect` on a non-`NULL` page from a context of
the cache shape: the shape is kept; either the page was cached and the state is
unchanged, or the state is the old one after one `mprotect` that makes the page
writable; the page is cached afterwards and every other cached page was cached
before. -/
theorem unprotect_shape (D : Descriptors) (ctx : mv_select_ctx_t) (addr : Ptr) (s : State)
    (hs : cache_shape ctx) (hnz : page_of D.pagesize addr ≠ 0) :
    cache_shape (multiverse_select_unprotect D ctx addr s).1 ∧
    (((multiverse_select_unprotect D ctx addr s).2 = s ∧ page_of D.pagesize addr ∈ ctx.cache) ∨
      (multiverse_select_unprotect D ctx addr s).2
        = mprotect (page_of D.pagesize addr) Prot.read_write_exec s) ∧
    page_of D.pagesize addr ∈ (multiverse_select_unprotect D ctx addr s).1.cache ∧
    (∀ p, p ∈ (multiverse_select_unprotect D ctx addr s).1.cache →
      p ∈ ctx.cache ∨ p = page_of D.pagesize addr) := by
  obtain ⟨hsize, hlen, k, hk, hocc, hemp, hinj⟩ := hs
  cases hfind : (List.range ctx.cache_size).find?
      (fun i => ctx.cache.getD i 0 == page_of D.pagesize addr) with
  | some i =>
    rw [unprotect_hit D ctx addr s i hfind]
    rw [List.find?_range_eq_some] at hfind
    obtain ⟨hpi, hir, _⟩ := hfind
    have hpage : ctx.cache.getD i 0 = page_of D.pagesize addr := by simpa using hpi
    have hi10 : i < 10 := by rw [← hsize]; exact List.mem_range.mp hir
    have hik : i < k := by
      by_contra hc
      exact hnz (hpage.symm.trans (hemp i (by omega)))
    have hget := shifted_cache_getD ctx.cache i (page_of D.pagesize addr) (by omega)
    have hperm : ∀ j, ((shift_loop ctx.cache i).set 0 (page_of D.pagesize addr)).getD j 0
        = ctx.cache.getD (if j = 0 then i else if j ≤ i then j - 1 else j) 0 := by
      intro j
      rw [hget j]
      by_cases h0 : j = 0
      · rw [if_pos h0, if_pos h0, hpage]
      · rw [if_neg h0, if_neg h0]
        by_cases h1 : j ≤ i
        · rw [if_pos h1, if_pos h1]
        · rw [if_neg h1, if_neg h1]
    have hmem : page_of D.pagesize addr ∈ ctx.cache :=
      (mem_iff_getD _ _).mpr ⟨i, by omega, hpage⟩
    refine ⟨⟨hsize, ?_, k, hk, ?_, ?_, ?_⟩, Or.inl ⟨rfl, hmem⟩, ?_, ?_⟩
    · simp only
      rw [List.length_set, shift_loop_length, hlen]
    · intro j hj
      simp only
      rw [hperm j]
      apply hocc
      split
      · exact hik
      · split <;> omega
    · intro j hj
      simp only
      rw [hperm j]
      apply hemp
      split
      · omega
      · split <;> omega
    · intro a ha b hb hab
      simp only at hab
      rw [hperm a, hperm b] at hab
      have := hinj _ (by split; exact hik; split <;> omega) _
        (by split; exact hik; split <;> omega) hab
      split at this <;> split at this <;> (try split at this) <;> (try split at this) <;> omega
    · simp only
      rw [mem_iff_getD]
      refine ⟨0, by rw [List.length_set, shift_loop_length]; omega, ?_⟩
      rw [hget 0, if_pos rfl]
    · intro p hp
      simp only at hp
      rw [mem_iff_getD] at hp
      obtain ⟨j, hj, hpj⟩ := hp
      rw [List.length_set, shift_loop_length] at hj
      rw [hperm j] at hpj
      left
      rw [mem_iff_getD]
      refine ⟨_, ?_, hpj⟩
      split
      · omega
      · split <;> omega
  | none =>
    have hlast : ctx.cache.getD (ctx.cache_size - 1) 0 = 0 := hemp _ (by omega)
    rw [unprotect_miss D ctx addr s hfind hlast]
    rw [List.find?_range_eq_none] at hfind
    have hmiss : ∀ j, j < 10 → ctx.cache.getD j 0 ≠ page_of D.pagesize addr := by
      intro j hj
      simpa using hfind j (by omega)
    have h8 : ctx.cache_size - 2 = 8 := by omega
    rw [h8]
    have hget := shifted_cache_getD ctx.cache 8 (page_of D.pagesize addr) (by omega)
    refine ⟨⟨hsize, ?_, min (k + 1) 9, by omega, ?_, ?_, ?_⟩, Or.inr rfl, ?_, ?_⟩
    · simp only
      rw [List.length_set, shift_loop_length, hlen]
    · intro j hj
      simp only
      rw [hget j]
      by_cases h0 : j = 0
      · rw [if_pos h0]; exact hnz
      · rw [if_neg h0, if_pos (by omega)]
        exact hocc _ (by omega)
    · intro j hj
      simp only
      rw [hget j, if_neg (by omega)]
      by_cases h1 : j ≤ 8
      · rw [if_pos h1]
        exact hemp _ (by omega)
      · rw [if_neg h1]
        exact hemp _ (by omega)
    · intro a ha b hb hab
      simp only at hab
      rw [hget a, hget b] at hab
      by_cases ha0 : a = 0
      · by_cases hb0 : b = 0
        · omega
        · rw [if_pos ha0, if_neg hb0, if_pos (by omega)] at hab
          exact absurd hab.symm (hmiss _ (by omega))
      · by_cases hb0 : b = 0
        · rw [if_neg ha0, if_pos (by omega), if_pos hb0] at hab
          exact absurd hab (hmiss _ (by omega))
        · rw [if_neg ha0, if_pos (by omega), if_neg hb0, if_pos (by omega)] at hab
          have := hinj _ (by omega) _ (by omega) hab
          omega
    · simp only
      rw [mem_iff_getD]
      refine ⟨0, by rw [List.length_set, shift_loop_length]; omega, ?_⟩
      rw [hget 0, if_pos rfl]
    · intro p hp
      simp only at hp
      rw [mem_iff_getD] at hp
      obtain ⟨j, hj, hpj⟩ := hp
      rw [List.length_set, shift_loop_length] at hj
      rw [hget j] at hpj
      by_cases h0 : j = 0
      · rw [if_pos h0] at hpj
        exact Or.inr hpj.symm
      · rw [if_neg h0] at hpj
        left
        rw [mem_iff_getD]
        by_cases h1 : j ≤ 8
        · rw [if_pos h1] at hpj
          exact ⟨j - 1, by omega, hpj⟩
        · rw [if_neg h1] at hpj
          exact ⟨j, hj, hpj⟩

theorem mprotect_rwx_writable (page : Ptr) (s : State) (p : Ptr)
    (h : s.writable p = true) :
    (mprotect page Prot.read_write_exec s).writable p = true := by
  show Function.update s.writable page (decide (Prot.read_write_exec = Prot.read_write_exec)) p
    = true
  by_cases hp : p = page
  · subst hp; simp
  · rw [Function.update_noteq hp]; exact h

/-- A sequence of `multiverse_select_unprotect` calls on non-`NULL` pages from
a context of the cache shape: the shape is kept, every logged event is an
`mprotect` that makes a page writable, and no page loses `PROT_WRITE`. -/
theorem unprotect_all_shape (D : Descriptors) :
    ∀ (addrs : List Ptr) (ctx : mv_select_ctx_t) (s : State),
      cache_shape ctx → (∀ a ∈ addrs, page_of D.pagesize a ≠ 0) →
      cache_shape (unprotect_all D addrs (ctx, s)).1 ∧
      (∃ pages : List Ptr, (unprotect_all D addrs (ctx, s)).2.log
        = s.log ++ pages.map (fun p => Event.mprotect p Prot.read_write_exec)) ∧
      (∀ p, s.writable p = true → (unprotect_all D addrs (ctx, s)).2.writable p = true) := by
  intro addrs
  induction addrs with
  | nil =>
    intro ctx s hs _
    exact ⟨hs, ⟨[], by simp [unprotect_all]⟩, fun p hp => hp⟩
  | cons a as ih =>
    intro ctx s hs hnz
    obtain ⟨hs1, hstate, _, _⟩ :=
      unprotect_shape D ctx a s hs (hnz a (List.mem_cons_self _ _))
    obtain ⟨hs2, ⟨pages, hlog⟩, hmono⟩ :=
      ih (multiverse_select_unprotect D ctx a s).1 (multiverse_select_unprotect D ctx a s).2
        hs1 (fun x hx => hnz x (List.mem_cons_of_mem _ hx))
    show cache_shape (unprotect_all D as (multiverse_select_unprotect D ctx a s)).1 ∧
      (∃ pages : List Ptr, (unprotect_all D as (multiverse_select_unprotect D ctx a s)).2.log
        = s.log ++ pages.map (fun p => Event.mprotect p Prot.read_write_exec)) ∧
      (∀ p, s.writable p = true →
        (unprotect_all D as (multiverse_select_unprotect D ctx a s)).2.writable p = true)
    refine ⟨hs2, ?_, ?_⟩
    · rcases hstate with ⟨heq, _⟩ | heq
      · exact ⟨pages, by rw [hlog, heq]⟩
      · refine ⟨page_of D.pagesize a :: pages, ?_⟩
        rw [hlog, heq]
        simp [mprotect]
    · intro p hp
      apply hmono
      rcases hstate with ⟨heq, _⟩ | heq
      · rw [heq]; exact hp
      · rw [heq]; exact mprotect_rwx_writable _ s p hp

/-- C19: the shape of the cache.  Take the context that
`multiverse_select_start` returns and any sequence of
`multiverse_select_unprotect` calls on addresses whose page is not `NULL`.
Afterwards the last slot (index 9) is `NULL`, the occupied slots are the first
`k` slots for some `k` of at most 9 and hold pairwise different pages, and
every event the calls logged is an `mprotect` that makes a page writable: no
call re-protects a page. -/
theorem cache_shape_invariant (D : Descriptors) (s0 s : State) (ctx : mv_select_ctx_t)
    (addrs : List Ptr) (hstart : multiverse_select_start s0 = some (some ctx, s))
    (hnz : ∀ a ∈ addrs, page_of D.pagesize a ≠ 0) :
    (unprotect_all D addrs (ctx, s)).1.cache.getD 9 0 = 0 ∧
    (∃ k, k ≤ 9 ∧
      (∀ j, j < 10 → ((unprotect_all D addrs (ctx, s)).1.cache.getD j 0 ≠ 0 ↔ j < k)) ∧
      (∀ a, a < k → ∀ b, b < k →
        (unprotect_all D addrs (ctx, s)).1.cache.getD a 0
          = (unprotect_all D addrs (ctx, s)).1.cache.getD b 0 → a = b)) ∧
    (∃ pages : List Ptr, (unprotect_all D addrs (ctx, s)).2.log
      = s.log ++ pages.map (fun p => Event.mprotect p Prot.read_write_exec)) ∧
    count_mprotect Prot.read_exec (unprotect_all D addrs (ctx, s)).2.log
      = count_mprotect Prot.read_exec s.log := by
  have hctx : ctx = fresh_ctx := by
    unfold multiverse_select_start at hstart
    split at hstart
    · have h1 := congrArg (fun x => x.1) (Option.some.inj hstart)
      simp only at h1
      exact (Option.some.inj h1).symm
    · cases hstart
  subst hctx
  obtain ⟨⟨_, _, k, hk, hocc, hemp, hinj⟩, ⟨pages, hlog⟩, _⟩ :=
    unprotect_all_shape D addrs fresh_ctx s fresh_ctx_shape hnz
  refine ⟨hemp 9 hk, ⟨k, hk, ?_, hinj⟩, ⟨pages, hlog⟩, ?_⟩
  · intro j _
    constructor
    · intro hne
      by_contra hc
      exact hne (hemp j (by omega))
    · exact hocc j
  · rw [hlog]
    unfold count_mprotect
    rw [List.filter_append]
    have : List.filter (fun e => match e with
        | Event.mprotect _ p => decide (p = Prot.read_exec)
        | _ => false) (pages.map (fun p => Event.mprotect p Prot.read_write_exec)) = [] := by
      rw [List.filter_eq_nil_iff]
      intro e he
      obtain ⟨p, _, rfl⟩ := List.mem_map.mp he
      simp
    rw [this, List.append_nil]

/-- C19 on an example: fifteen calls on fifteen distinct pages from the
context of `multiverse_select_start`; the cache ends with the last nine pages
in the slots 0 to 8 and `NULL` in slot 9. -/
theorem cache_shape_invariant_witness :
    (multiverse_select_start (example_state 0 1 none)
        = some (some fresh_ctx, logged (example_state 0 1 none) [Event.calloc]) ∧
      ∀ a ∈ distinct_page_addrs 15, page_of example_descriptors.pagesize a ≠ 0) ∧
    (unprotect_all example_descriptors (distinct_page_addrs 15)
      (fresh_ctx, logged (example_state 0 1 none) [Event.calloc])).1.cache.getD 9 0 = 0 ∧
    (unprotect_all example_descriptors (distinct_page_addrs 15)
      (fresh_ctx, logged (example_state 0 1 none) [Event.calloc])).1.cache
      = [61440, 57344, 53248, 49152, 45056, 40960, 36864, 32768, 28672, 0] :=
  ⟨⟨rfl, by decide⟩,
   (cache_shape_invariant example_descriptors (example_state 0 1 none)
      (logged (example_state 0 1 none) [Event.calloc]) fresh_ctx (distinct_page_addrs 15)
      rfl (by decide)).1,
   by decide⟩

/-! ## The pages at the time of a rewrite -/

theorem writable_after_append : ∀ (es fs : List Event) (w : Ptr → Bool),
    writable_after w (es ++ fs) = writable_after (writable_after w es) fs := by
  intro es
  induction es with
  | nil => intro fs w; rfl
  | cons e es ih =>
    intro fs w
    cases e <;> simp only [List.cons_append, writable_after] <;> exact ih _ _

theorem arch_calls_writable_append (D : Descriptors) : ∀ (es fs : List Event) (w : Ptr → Bool),
    arch_calls_writable D w es → arch_calls_writable D (writable_after w es) fs →
    arch_calls_writable D w (es ++ fs) := by
  intro es
  induction es with
  | nil => intro fs w _ h; exact h
  | cons e es ih =>
    intro fs w h1 h2
    cases e with
    | calloc => exact ih fs w h1 h2
    | free => exact ih fs w h1 h2
    | mprotect page prot => exact ih fs _ h1 h2
    | arch_apply fn v pp => exact ⟨h1.1, ih fs w h1.2 h2⟩
    | arch_revert fn pp => exact ⟨h1.1, ih fs w h1.2 h2⟩

/-- One `multiverse_select_unprotect` on a non-`NULL` page, from a context of
the cache shape whose cached pages are writable: the shape and the
writability of the cached pages are kept, the page is writable afterwards, no
page loses `PROT_WRITE`, and the writable pages are the old ones after the
logged events. -/
theorem unprotect_trace (D : Descriptors) (ctx : mv_select_ctx_t) (addr : Ptr) (s : State)
    (hs : cache_shape ctx) (hcw : cache_writable ctx s)
    (hnz : page_of D.pagesize addr ≠ 0) :
    ∃ es, (multiverse_select_unprotect D ctx addr s).2.log = s.log ++ es ∧
      arch_calls_writable D s.writable es ∧
      writable_after s.writable es = (multiverse_select_unprotect D ctx addr s).2.writable ∧
      cache_shape (multiverse_select_unprotect D ctx addr s).1 ∧
      cache_writable (multiverse_select_unprotect D ctx addr s).1
        (multiverse_select_unprotect D ctx addr s).2 ∧
      (multiverse_select_unprotect D ctx addr s).2.writable (page_of D.pagesize addr) = true ∧
      (∀ p, s.writable p = true →
        (multiverse_select_unprotect D ctx addr s).2.writable p = true) ∧
      (multiverse_select_unprotect D ctx addr s).2.installed = s.installed ∧
      (multiverse_select_unprotect D ctx addr s).2.active_mvfn = s.active_mvfn := by
  obtain ⟨hs1, hstate, _, hsub⟩ := unprotect_shape D ctx addr s hs hnz
  rcases hstate with ⟨heq, hmem⟩ | heq
  · refine ⟨[], by rw [heq, List.append_nil], trivial, by rw [heq]; rfl, hs1, ?_, ?_, ?_,
      by rw [heq], by rw [heq]⟩
    · intro p hp hp0
      rw [heq]
      rcases hsub p hp with h | h
      · exact hcw p h hp0
      · rw [h]; exact hcw _ hmem hnz
    · rw [heq]; exact hcw _ hmem hnz
    · intro p hp; rw [heq]; exact hp
  · have hpage : (mprotect (page_of D.pagesize addr) Prot.read_write_exec s).writable
        (page_of D.pagesize addr) = true := by
      simp [mprotect]
    refine ⟨[Event.mprotect (page_of D.pagesize addr) Prot.read_write_exec],
      by rw [heq]; rfl, trivial, by rw [heq]; rfl, hs1, ?_, by rw [heq]; exact hpage, ?_,
      by rw [heq]; rfl, by rw [heq]; rfl⟩
    · intro p hp hp0
      rw [heq]
      rcases hsub p hp with h | h
      · exact mprotect_rwx_writable _ s p (hcw p h hp0)
      · rw [h]; exact hpage
    · intro p hp; rw [heq]; exact mprotect_rwx_writable _ s p hp

/-- The loop of the rewriter from a context of the cache shape whose cached
pages are writable, on patch points whose pages are not `NULL`: every call to
the architecture back end finds both pages of its patch point writable. -/
theorem select_mvfn_loop_trace (D : Descriptors) (fn : Ptr) (mvfn : Option Nat) :
    ∀ (pps : List mv_patchpoint) (i : Nat) (ctx : mv_select_ctx_t) (s : State),
      cache_shape ctx → cache_writable ctx s →
      (∀ j pp, pps[j]? = some pp → (D.fns fn).patchpoints[i + j]? = some pp) →
      (∀ pp ∈ pps, pp.type ≠ PP_TYPE_INVALID → pp.location ≠ 0 →
        page_of D.pagesize pp.location ≠ 0 ∧ page_of D.pagesize (pp.location + 5) ≠ 0) →
      ∃ es, (select_mvfn_loop D fn mvfn pps i ctx s).2.log = s.log ++ es ∧
        arch_calls_writable D s.writable es ∧
        writable_after s.writable es = (select_mvfn_loop D fn mvfn pps i ctx s).2.writable ∧
        cache_shape (select_mvfn_loop D fn mvfn pps i ctx s).1 ∧
        cache_writable (select_mvfn_loop D fn mvfn pps i ctx s).1
          (select_mvfn_loop D fn mvfn pps i ctx s).2 := by
  intro pps
  induction pps with
  | nil =>
    intro i ctx s hs hcw _ _
    exact ⟨[], by simp [select_mvfn_loop], trivial, rfl, hs, hcw⟩
  | cons pp pps ih =>
    intro i ctx s hs hcw hidx hnz
    have hidx' : ∀ j q, pps[j]? = some q → (D.fns fn).patchpoints[i + 1 + j]? = some q := by
      intro j q hj
      have := hidx (j + 1) q (by simpa using hj)
      rw [show i + 1 + j = i + (j + 1) by omega]
      exact this
    have hnz' : ∀ q ∈ pps, q.type ≠ PP_TYPE_INVALID → q.location ≠ 0 →
        page_of D.pagesize q.location ≠ 0 ∧ page_of D.pagesize (q.location + 5) ≠ 0 :=
      fun q hq => hnz q (List.mem_cons_of_mem _ hq)
    unfold select_mvfn_loop
    split
    · exact ih (i + 1) ctx s hs hcw hidx' hnz'
    · rename_i hty
      split
      · exact ih (i + 1) ctx s hs hcw hidx' hnz'
      · rename_i hloc
        obtain ⟨hnzA, hnzB⟩ := hnz pp (List.mem_cons_self _ _) hty hloc
        obtain ⟨e1, hl1, ha1, hw1, hs1, hcw1, hA1, hmono1, _, _⟩ :=
          unprotect_trace D ctx pp.location s hs hcw hnzA
        obtain ⟨e2, hl2, ha2, hw2, hs2, hcw2, hB2, hmono2, _, _⟩ :=
          unprotect_trace D (multiverse_select_unprotect D ctx pp.location s).1
            (pp.location + 5) (multiverse_select_unprotect D ctx pp.location s).2 hs1 hcw1 hnzB
        simp only
        generalize hr2 : multiverse_select_unprotect D
          (multiverse_select_unprotect D ctx pp.location s).1 (pp.location + 5)
          (multiverse_select_unprotect D ctx pp.location s).2 = r2 at *
        have hpw : patchpoint_writable D r2.2.writable fn i := by
          unfold patchpoint_writable
          have h0 := hidx 0 pp (by simp)
          rw [Nat.add_zero] at h0
          rw [h0]
          exact ⟨hmono2 _ hA1, hB2⟩
        have hw12 : writable_after s.writable (e1 ++ e2) = r2.2.writable := by
          rw [writable_after_append, hw1, hw2]
        have ha12 : arch_calls_writable D s.writable (e1 ++ e2) :=
          arch_calls_writable_append D e1 e2 _ ha1 (by rw [hw1]; exact ha2)
        cases mvfn with
        | none =>
          obtain ⟨e3, hl3, ha3, hw3, hs3, hcw3⟩ :=
            ih (i + 1) r2.1 (multiverse_arch_patchpoint_revert fn i r2.2) hs2 hcw2 hidx' hnz'
          refine ⟨e1 ++ e2 ++ Event.arch_revert fn i :: e3, ?_, ?_, ?_, hs3, hcw3⟩
          · rw [hl3]
            show (r2.2.log ++ [Event.arch_revert fn i]) ++ e3 = _
            rw [hl2, hl1]
            simp [List.append_assoc]
          · apply arch_calls_writable_append D _ _ _ ha12
            rw [hw12]
            exact ⟨hpw, ha3⟩
          · rw [writable_after_append, hw12]
            exact hw3
        | some v =>
          obtain ⟨e3, hl3, ha3, hw3, hs3, hcw3⟩ :=
            ih (i + 1) r2.1 (multiverse_arch_patchpoint_apply fn v i r2.2) hs2 hcw2 hidx' hnz'
          refine ⟨e1 ++ e2 ++ Event.arch_apply fn v i :: e3, ?_, ?_, ?_, hs3, hcw3⟩
          · rw [hl3]
            show (r2.2.log ++ [Event.arch_apply fn v i]) ++ e3 = _
            rw [hl2, hl1]
            simp [List.append_assoc]
          · apply arch_calls_writable_append D _ _ _ ha12
            rw [hw12]
            exact ⟨hpw, ha3⟩
          · rw [writable_after_append, hw12]
            exact hw3

theorem fresh_ctx_writable (s : State) : cache_writable fresh_ctx s := by
  intro p hp hp0
  exact absurd (List.eq_of_mem_replicate hp) hp0

theorem writes_guarded_refl (D : Descriptors) (s : State) : writes_guarded D s s :=
  ⟨[], by simp, trivial, rfl⟩

theorem writes_guarded_trans {D : Descriptors} {s1 s2 s3 : State}
    (h12 : writes_guarded D s1 s2) (h23 : writes_guarded D s2 s3) : writes_guarded D s1 s3 := by
  obtain ⟨e1, hl1, ha1, hw1⟩ := h12
  obtain ⟨e2, hl2, ha2, hw2⟩ := h23
  refine ⟨e1 ++ e2, by rw [hl2, hl1, List.append_assoc], ?_, ?_⟩
  · exact arch_calls_writable_append D e1 e2 _ ha1 (by rw [hw1]; exact ha2)
  · rw [writable_after_append, hw1, hw2]

theorem mprotect_guarded (D : Descriptors) (page : Ptr) (prot : Prot) (s : State) :
    writes_guarded D s (mprotect page prot s) :=
  ⟨[Event.mprotect page prot], rfl, trivial, rfl⟩

theorem calloc_guarded (D : Descriptors) (s : State) :
    writes_guarded D s (logged s [Event.calloc]) :=
  ⟨[Event.calloc], rfl, trivial, rfl⟩

theorem select_end_loop_guarded (D : Descriptors) (ctx : mv_select_ctx_t) :
    ∀ (is : List Nat) (s : State), writes_guarded D s (select_end_loop D ctx is s) := by
  intro is
  induction is with
  | nil => intro s; exact writes_guarded_refl D s
  | cons i is ih =>
    intro s
    unfold select_end_loop
    split
    · exact writes_guarded_trans (mprotect_guarded D _ Prot.read_exec s) (ih _)
    · exact ih s

theorem select_end_guarded (D : Descriptors) (ctx : mv_select_ctx_t) (s : State) :
    writes_guarded D s (multiverse_select_end D ctx s) := by
  unfold multiverse_select_end
  exact writes_guarded_trans (select_end_loop_guarded D ctx _ s)
    ⟨[Event.free], rfl, trivial, rfl⟩

/-- The rewriter from a context of the cache shape whose cached pages are
writable, on a function whose patch points lie in mapped code: every call to
the back end finds its pages writable, and the context is of that kind
again. -/
theorem select_mvfn_guarded (D : Descriptors) (ctx : mv_select_ctx_t) (fn : Ptr)
    (T : Option Nat) (s : State) (hs : cache_shape ctx) (hcw : cache_writable ctx s)
    (hreal : real_patchpoints D fn) :
    writes_guarded D s (multiverse_select_mvfn D ctx fn T s).2.2 ∧
    cache_shape (multiverse_select_mvfn D ctx fn T s).2.1 ∧
    cache_writable (multiverse_select_mvfn D ctx fn T s).2.1
      (multiverse_select_mvfn D ctx fn T s).2.2 := by
  unfold multiverse_select_mvfn
  split
  · exact ⟨writes_guarded_refl D s, hs, hcw⟩
  · obtain ⟨es, hl, ha, hw, hs1, hcw1⟩ :=
      select_mvfn_loop_trace D fn T (D.fns fn).patchpoints 0 ctx s hs hcw
        (fun j pp hj => by rw [Nat.zero_add]; exact hj) hreal
    exact ⟨⟨es, hl, ha, hw⟩, hs1, hcw1⟩

/-- A sequence of `multiverse_select_unprotect` calls on non-`NULL` pages
keeps the cache shape and the writability of the cached pages. -/
theorem unprotect_all_writable (D : Descriptors) :
    ∀ (addrs : List Ptr) (ctx : mv_select_ctx_t) (s : State),
      cache_shape ctx → cache_writable ctx s → (∀ a ∈ addrs, page_of D.pagesize a ≠ 0) →
      cache_shape (unprotect_all D addrs (ctx, s)).1 ∧
      cache_writable (unprotect_all D addrs (ctx, s)).1 (unprotect_all D addrs (ctx, s)).2 := by
  intro addrs
  induction addrs with
  | nil => intro ctx s hs hcw _; exact ⟨hs, hcw⟩
  | cons a as ih =>
    intro ctx s hs hcw hnz
    obtain ⟨_, _, _, _, hs1, hcw1, _⟩ :=
      unprotect_trace D ctx a s hs hcw (hnz a (List.mem_cons_self _ _))
    exact ih (multiverse_select_unprotect D ctx a s).1 (multiverse_select_unprotect D ctx a s).2
      hs1 hcw1 (fun x hx => hnz x (List.mem_cons_of_mem _ hx))

/-- A relation between context and state that every step keeps is kept by the
loop over functions. -/
theorem fn_loop_keeps_ctx (Q : mv_select_ctx_t → State → Prop) (step : Step)
    (hstep : ∀ ctx fn s x, Q ctx s → step ctx fn s = some x → Q x.2.1 x.2.2) :
    ∀ (l : List Ptr) (ret : Int) (ctx : mv_select_ctx_t) (s : State)
      (x : Int × mv_select_ctx_t × State),
      Q ctx s → fn_loop step l ret ctx s = some x → Q x.2.1 x.2.2 := by
  intro l
  induction l with
  | nil =>
    intro ret ctx s x hQ h
    simp only [fn_loop, Option.some.injEq] at h
    rw [← h]; exact hQ
  | cons fn fns ih =>
    intro ret ctx s x hQ h
    unfold fn_loop at h
    cases hs : step ctx fn s with
    | none => rw [hs] at h; cases h
    | some y =>
      obtain ⟨r, ctx1, s1⟩ := y
      rw [hs] at h
      have hQ1 : Q ctx1 s1 := hstep ctx fn s _ hQ hs
      simp only at h
      split at h
      · simp only [Option.some.injEq] at h
        rw [← h]; exact hQ1
      · exact ih _ _ _ x hQ1 h

/-- A relation between context and state that every step keeps is kept by the
inner loop of `multiverse_revert`. -/
theorem revert_fn_loop_keeps_ctx (Q : mv_select_ctx_t → State → Prop) (step : Step)
    (hstep : ∀ ctx fn s x, Q ctx s → step ctx fn s = some x → Q x.2.1 x.2.2) :
    ∀ (l : List Ptr) (ret : Int) (ctx : mv_select_ctx_t) (s : State)
      (x : Int × mv_select_ctx_t × State),
      Q ctx s → revert_fn_loop step l ret ctx s = some x → Q x.2.1 x.2.2 := by
  intro l
  induction l with
  | nil =>
    intro ret ctx s x hQ h
    simp only [revert_fn_loop, Option.some.injEq] at h
    rw [← h]; exact hQ
  | cons fn fns ih =>
    intro ret ctx s x hQ h
    unfold revert_fn_loop at h
    cases hs : step ctx fn s with
    | none => rw [hs] at h; cases h
    | some y =>
      obtain ⟨r, ctx1, s1⟩ := y
      rw [hs] at h
      have hQ1 : Q ctx1 s1 := hstep ctx fn s _ hQ hs
      simp only at h
      split at h
      · simp only [Option.some.injEq] at h
        rw [← h]; exact hQ1
      · exact ih _ _ _ x hQ1 h

/-- A relation between context and state that every step keeps is kept by the
loops of `multiverse_commit`. -/
theorem commit_info_loop_keeps_ctx (Q : mv_select_ctx_t → State → Prop) (step : Step)
    (hstep : ∀ ctx fn s x, Q ctx s → step ctx fn s = some x → Q x.2.1 x.2.2) :
    ∀ (infos : List mv_info) (ret : Int) (ctx : mv_select_ctx_t) (s : State)
      (x : Int × mv_select_ctx_t × State),
      Q ctx s → commit_info_loop step infos ret ctx s = some x → Q x.2.1 x.2.2 := by
  intro infos
  induction infos with
  | nil =>
    intro ret ctx s x hQ h
    simp only [commit_info_loop, Option.some.injEq] at h
    rw [← h]; exact hQ
  | cons info infos ih =>
    intro ret ctx s x hQ h
    unfold commit_info_loop at h
    cases hs : fn_loop step info.functions ret ctx s with
    | none => rw [hs] at h; cases h
    | some y =>
      obtain ⟨r, ctx1, s1⟩ := y
      rw [hs] at h
      exact ih _ _ _ x (fn_loop_keeps_ctx Q step hstep _ ret ctx s (r, ctx1, s1) hQ hs) h

/-- A relation between context and state that every step keeps is kept by the
loops of `multiverse_revert`. -/
theorem revert_info_loop_keeps_ctx (Q : mv_select_ctx_t → State → Prop) (step : Step)
    (hstep : ∀ ctx fn s x, Q ctx s → step ctx fn s = some x → Q x.2.1 x.2.2) :
    ∀ (infos : List mv_info) (ret : Int) (ctx : mv_select_ctx_t) (s : State)
      (x : Int × mv_select_ctx_t × State),
      Q ctx s → revert_info_loop step infos ret ctx s = some x → Q x.2.1 x.2.2 := by
  intro infos
  induction infos with
  | nil =>
    intro ret ctx s x hQ h
    simp only [revert_info_loop, Option.some.injEq] at h
    rw [← h]; exact hQ
  | cons info infos ih =>
    intro ret ctx s x hQ h
    unfold revert_info_loop at h
    cases hs : revert_fn_loop step info.functions ret ctx s with
    | none => rw [hs] at h; cases h
    | some y =>
      obtain ⟨r, ctx1, s1⟩ := y
      rw [hs] at h
      exact ih _ _ _ x
        (revert_fn_loop_keeps_ctx Q step hstep _ ret ctx s (r, ctx1, s1) hQ hs) h

/-! ## Binding, and the query `multiverse_is_committed` -/

/-- C11: bind without commit.  For a tracked variable `x` that the lookup
finds and a `state >= 0`, `multiverse_bind` returns `state` and the state
afterwards is the state before with the bound state of `x` set to `state`:
the bound state of every other variable, every active variant, every patch
point, every page permission, the memory and the log are as before, and
`multiverse_is_committed` answers as before for every address. -/
theorem bind_tracked (D : Descriptors) (s : State) (var_location x : Ptr) (state : Int)
    (hlook : D.multiverse_info_var var_location = some x)
    (htracked : (D.vars x).flag_tracked = true) (hstate : 0 ≤ state) :
    multiverse_bind D var_location state s
      = (state, { s with bound := Function.update s.bound x state }) ∧
    (multiverse_bind D var_location state s).2.bound x = state ∧
    (∀ y, y ≠ x → (multiverse_bind D var_location state s).2.bound y = s.bound y) ∧
    (multiverse_bind D var_location state s).2.active_mvfn = s.active_mvfn ∧
    (multiverse_bind D var_location state s).2.installed = s.installed ∧
    (multiverse_bind D var_location state s).2.writable = s.writable ∧
    (multiverse_bind D var_location state s).2.log = s.log ∧
    (∀ body, multiverse_is_committed D body (multiverse_bind D var_location state s).2
      = multiverse_is_committed D body s) := by
  have h : multiverse_bind D var_location state s
      = (state, { s with bound := Function.update s.bound x state }) := by
    unfold multiverse_bind
    rw [hlook]
    simp only [ge_iff_le, hstate, if_true, htracked, Bool.true_eq_false, if_false,
      Function.update_same]
  rw [h]
  refine ⟨rfl, ?_, ?_, rfl, rfl, rfl, rfl, fun _ => rfl⟩
  · simp only [Function.update_same]
  · intro y hy
    simp only [Function.update_noteq hy]

/-- C11 on the example: `x` is tracked and unbound; `multiverse_bind(&x, 1)`
returns 1 and `x` is bound afterwards. -/
theorem bind_tracked_witness :
    (example_descriptors.multiverse_info_var 1000 = some 1 ∧
      (example_descriptors.vars 1).flag_tracked = true ∧ (0 : Int) ≤ 1) ∧
    (multiverse_bind example_descriptors 1000 1 (example_state 7 0 none)).1 = 1 ∧
    (multiverse_bind example_descriptors 1000 1 (example_state 7 0 none)).2.bound 1 = 1 ∧
    (multiverse_bind example_descriptors 1000 1 (example_state 7 0 none)).2.active_mvfn
      = (example_state 7 0 none).active_mvfn :=
  ⟨⟨rfl, rfl, by decide⟩,
   congrArg (fun r => r.1)
     (bind_tracked example_descriptors (example_state 7 0 none) 1000 1 1 rfl rfl
       (by decide)).1,
   (bind_tracked example_descriptors (example_state 7 0 none) 1000 1 1 rfl rfl
     (by decide)).2.1,
   (bind_tracked example_descriptors (example_state 7 0 none) 1000 1 1 rfl rfl
     (by decide)).2.2.2.1⟩

/-- C12 as stated fails for a negative `state`: the variable at 2 is found by
the lookup, is not tracked and has bound state 0; `multiverse_bind` with
`state = -1` returns 0, not -1. -/
theorem bind_untracked_negative_state :
    untracked_descriptors.multiverse_info_var 2000 = some 2 ∧
    (untracked_descriptors.vars 2).flag_tracked = false ∧
    (multiverse_bind untracked_descriptors 2000 (-1) (example_state 7 1 none)).1 = 0 ∧
    (multiverse_bind untracked_descriptors 2000 (-1) (example_state 7 1 none)).1 ≠ -1 := by
  refine ⟨by decide, by decide, by decide, by decide⟩

/-- C12, as amended: bind on a variable that is not tracked.  For a variable
`x` that the lookup finds and whose tracked flag is not set, `multiverse_bind`
with `state >= 0` returns -1, and with `state < 0` it returns the bound state
of `x`; in both cases the state afterwards is the state before. -/
theorem bind_untracked (D : Descriptors) (s : State) (var_location x : Ptr) (state : Int)
    (hlook : D.multiverse_info_var var_location = some x)
    (htracked : (D.vars x).flag_tracked = false) :
    (0 ≤ state → multiverse_bind D var_location state s = (-1, s)) ∧
    (state < 0 → multiverse_bind D var_location state s = (s.bound x, s)) := by
  constructor
  · intro h
    unfold multiverse_bind
    rw [hlook]
    simp only [ge_iff_le, h, if_true, htracked]
  · intro h
    unfold multiverse_bind
    rw [hlook]
    simp only [ge_iff_le, not_le.mpr h, if_false]

/-- C12 on the example with the variable at 2 that is not tracked:
`multiverse_bind` with `state = 1` returns -1 and with `state = -1` it returns
the bound state 0; the state is unchanged. -/
theorem bind_untracked_witness :
    (untracked_descriptors.multiverse_info_var 2000 = some 2 ∧
      (untracked_descriptors.vars 2).flag_tracked = false) ∧
    multiverse_bind untracked_descriptors 2000 1 (example_state 7 1 none)
      = (-1, example_state 7 1 none) ∧
    multiverse_bind untracked_descriptors 2000 (-1) (example_state 7 1 none)
      = ((example_state 7 1 none).bound 2, example_state 7 1 none) :=
  ⟨⟨rfl, rfl⟩,
   (bind_untracked untracked_descriptors (example_state 7 1 none) 2000 2 1 rfl rfl).1
     (by decide),
   (bind_untracked untracked_descriptors (example_state 7 1 none) 2000 2 (-1) rfl rfl).2
     (by decide)⟩

/-- C14 at a failing input: the address 1 is no function body of the example,
`multiverse_info_fn` returns `NULL`, and `multiverse_is_committed` loads
`fn->extra` through that `NULL` pointer: it has no result. -/
theorem is_committed_lookup_miss :
    example_descriptors.multiverse_info_fn 1 = none ∧
    multiverse_is_committed example_descriptors 1 (example_state 7 1 none) = none ∧
    multiverse_is_committed example_descriptors 1 (example_state 7 1 none) ≠ some (-1) := by
  refine ⟨by decide, by decide, by decide⟩

/-! ## Infeasible variants -/

/-- C13: when no variant is feasible, the commit is the revert.  Let the
widths be valid and let no variant of `fn` have all its assignments
satisfied.  Then `multiverse_commit_info_fn` and `multiverse_revert_info_fn`
have the same outcome: the same result, the same state, the same log of
`mprotect` calls and calls to the back end.  When the context allocation
succeeds this outcome is a result of 0 or 1 (1 exactly when `fn` had an active
variant) with `fn` left without an active variant; and the result is never
-1. -/
theorem infeasible_commit_is_revert (D : Descriptors) (s : State) (fn : Ptr)
    (hw : widths_valid D s fn)
    (hno : ∀ m ∈ (D.fns fn).mv_functions, ¬ variant_good D s m) :
    multiverse_commit_info_fn D fn s = multiverse_revert_info_fn D fn s ∧
    (s.calloc_ok = true →
      ∃ s1, multiverse_commit_info_fn D fn s
          = some ((if none = s.active_mvfn fn then 0 else 1), s1) ∧
        s1.active_mvfn fn = none ∧ ∀ g, g ≠ fn → s1.active_mvfn g = s.active_mvfn g) ∧
    (∀ s1, multiverse_commit_info_fn D fn s ≠ some (-1, s1)) := by
  have hbest : best_mvfn D s fn = some none := by
    obtain ⟨r, hr, hcase⟩ := mv_functions_loop_spec D s (D.fns fn).mv_functions 0 none hw
    rcases hcase with ⟨hrb, _⟩ | ⟨k, m, _, hk, hgood, _⟩
    · rw [← hrb]; exact hr
    · exact absurd hgood (hno m (List.getElem?_mem hk))
  have heq : multiverse_commit_info_fn D fn s = multiverse_revert_info_fn D fn s := by
    unfold multiverse_commit_info_fn multiverse_revert_info_fn
    cases hstart : multiverse_select_start s with
    | none => rfl
    | some x =>
      obtain ⟨c, s1⟩ := x
      cases c with
      | none => rfl
      | some ctx =>
        simp only
        have hs1 : s1 = logged s [Event.calloc] := by
          unfold multiverse_select_start at hstart
          split at hstart
          · exact (congrArg (fun x => x.2) (Option.some.inj hstart)).symm
          · cases hstart
        have hb1 : best_mvfn D s1 fn = some none := by
          rw [hs1, best_mvfn_congr D s (logged s [Event.calloc]) fn rfl rfl, hbest]
        unfold __multiverse_commit_fn
        rw [hb1]
  refine ⟨heq, ?_, ?_⟩
  · intro halloc
    obtain ⟨s1, hrun, _, _, _, hact⟩ := commit_info_fn_post D fn s halloc none hbest
    refine ⟨s1, hrun, ?_, ?_⟩
    · rw [hact, Function.update_same]
    · intro g hg
      rw [hact, Function.update_noteq hg]
  · intro s1 h
    obtain ⟨halloc, _⟩ := commit_info_fn_some D fn s _ h
    obtain ⟨s2, hrun, _⟩ := commit_info_fn_post D fn s halloc none hbest
    rw [hrun] at h
    have h1 := congrArg (fun x => x.1) (Option.some.inj h)
    simp only at h1
    split at h1 <;> omega

/-- C13 on the example: `x = 20` is bound and outside both ranges, variant B
is active; commit and revert of the function both return 1, leave it without
an active variant, and log the same events. -/
theorem infeasible_commit_is_revert_witness :
    (widths_valid example_descriptors (example_state 20 1 (some 1)) 10 ∧
      ∀ m ∈ (example_descriptors.fns 10).mv_functions,
        ¬ variant_good example_descriptors (example_state 20 1 (some 1)) m) ∧
    multiverse_commit_info_fn example_descriptors 10 (example_state 20 1 (some 1))
      = multiverse_revert_info_fn example_descriptors 10 (example_state 20 1 (some 1)) ∧
    (multiverse_commit_info_fn example_descriptors 10 (example_state 20 1 (some 1))).map
      (fun x => (x.1, x.2.active_mvfn 10, x.2.log))
      = some (1, none, [Event.calloc, Event.mprotect 8192 Prot.read_write_exec,
          Event.arch_revert 10 0, Event.mprotect 8192 Prot.read_exec, Event.free]) :=
  ⟨⟨by decide, by decide⟩,
   (infeasible_commit_is_revert example_descriptors (example_state 20 1 (some 1)) 10
      (by decide) (by decide)).1,
   by decide⟩

/-! ## Negative results of the per-function step -/

theorem changed_count_le (active tgt : Ptr → Option Nat) (l : List Ptr) :
    changed_count active tgt l ≤ l.length := by
  unfold changed_count
  exact le_trans (Finset.card_filter_le _ _) (List.toFinset_card_le l)

/-- A whole-program revert that returns had a context. -/
theorem revert_some (D : Descriptors) (s : State) (x : Int × State)
    (h : multiverse_revert D s = some x) : s.calloc_ok = true := by
  unfold multiverse_revert multiverse_revert_with at h
  cases hc : s.calloc_ok with
  | false => simp [multiverse_select_start, hc] at h
  | true => rfl

/-- A commit or revert over the functions referring to a variable that
returns had a context. -/
theorem info_refs_with_some (step : Step) (D : Descriptors) (var : Ptr) (s : State)
    (x : Int × State) (h : info_refs_with step D var s = some x) : s.calloc_ok = true := by
  unfold info_refs_with at h
  cases hc : s.calloc_ok with
  | false => simp [multiverse_select_start, hc] at h
  | true => rfl

/-- C20: the per-function steps never signal an error.
`multiverse_select_mvfn` returns 0 or 1, and so does `__multiverse_commit_fn`
whenever it returns; so neither step of the drivers ever returns a negative
value and the `r < 0` branches are not taken.  Whenever `multiverse_commit`,
`multiverse_revert`, `multiverse_commit_info_refs` or
`multiverse_revert_info_refs` returns, the result lies between 0 and the
number of functions visited.  And they do return when the context allocation
succeeds (for the two commits: and the widths are valid). -/
theorem steps_never_negative (D : Descriptors) :
    (∀ ctx fn T s, (multiverse_select_mvfn D ctx fn T s).1 = 0 ∨
      (multiverse_select_mvfn D ctx fn T s).1 = 1) ∧
    (∀ ctx fn s r ctx1 s1, __multiverse_commit_fn D ctx fn s = some (r, ctx1, s1) →
      r = 0 ∨ r = 1) ∧
    (step_nonneg (commit_step D) ∧ step_nonneg (revert_step D)) ∧
    (∀ s r s1, multiverse_commit D s = some (r, s1) →
      0 ≤ r ∧ r ≤ (all_functions D).length) ∧
    (∀ s r s1, multiverse_revert D s = some (r, s1) →
      0 ≤ r ∧ r ≤ (all_functions D).length) ∧
    (∀ var s r s1, multiverse_commit_info_refs D var s = some (r, s1) →
      0 ≤ r ∧ r ≤ (D.vars var).functions.length) ∧
    (∀ var s r s1, multiverse_revert_info_refs D var s = some (r, s1) →
      0 ≤ r ∧ r ≤ (D.vars var).functions.length) ∧
    (∀ s, s.calloc_ok = true → (∀ fn ∈ all_functions D, widths_valid D s fn) →
      ∃ r s1, multiverse_commit D s = some (r, s1)) ∧
    (∀ s, s.calloc_ok = true → ∃ r s1, multiverse_revert D s = some (r, s1)) ∧
    (∀ var s, s.calloc_ok = true → (∀ fn ∈ (D.vars var).functions, widths_valid D s fn) →
      ∃ r s1, multiverse_commit_info_refs D var s = some (r, s1)) ∧
    (∀ var s, s.calloc_ok = true →
      ∃ r s1, multiverse_revert_info_refs D var s = some (r, s1)) := by
  have hsel : ∀ ctx fn T s, (multiverse_select_mvfn D ctx fn T s).1 = 0 ∨
      (multiverse_select_mvfn D ctx fn T s).1 = 1 := by
    intro ctx fn T s
    rw [select_mvfn_ret]
    split
    · exact Or.inl rfl
    · exact Or.inr rfl
  have hbound : ∀ (n : Nat) (l : List Ptr) (r : Int), n ≤ l.length → r = (n : Int) →
      0 ≤ r ∧ r ≤ (l.length : Int) := by
    intro n l r hn hr
    rw [hr]
    exact ⟨Int.natCast_nonneg n, Int.ofNat_le.mpr hn⟩
  refine ⟨hsel, ?_, ⟨commit_step_nonneg D, revert_step_nonneg D⟩, ?_, ?_, ?_, ?_, ?_, ?_,
    ?_, ?_⟩
  · intro ctx fn s r ctx1 s1 h
    obtain ⟨best, _, hx⟩ := commit_fn_some D ctx fn s _ h
    have hr : r = (multiverse_select_mvfn D ctx fn best s).1 := by rw [← hx]
    rw [hr]
    exact hsel ctx fn best s
  · intro s r s1 h
    obtain ⟨halloc, hs⟩ := commit_some D s _ h
    obtain ⟨s2, hrun, _⟩ := commit_post D s halloc hs
    rw [hrun] at h
    exact hbound _ _ r (changed_count_le _ _ _)
      (congrArg (fun x => x.1) (Option.some.inj h)).symm
  · intro s r s1 h
    obtain ⟨s2, hrun, _⟩ := revert_post D s (revert_some D s _ h)
    rw [hrun] at h
    exact hbound _ _ r (changed_count_le _ _ _)
      (congrArg (fun x => x.1) (Option.some.inj h)).symm
  · intro var s r s1 h
    obtain ⟨halloc, hs⟩ := commit_info_refs_some D var s _ h
    obtain ⟨s2, hrun, _⟩ := commit_info_refs_post D var s halloc hs
    rw [hrun] at h
    exact hbound _ _ r (changed_count_le _ _ _)
      (congrArg (fun x => x.1) (Option.some.inj h)).symm
  · intro var s r s1 h
    obtain ⟨s2, hrun, _⟩ := info_refs_with_rewrites D (revert_step D) (fun _ => none) var s
      (info_refs_with_some _ D var s _ h) (revert_step_rewrites D s _)
    have hrun' : multiverse_revert_info_refs D var s = _ := hrun
    rw [hrun'] at h
    exact hbound _ _ r (changed_count_le _ _ _)
      (congrArg (fun x => x.1) (Option.some.inj h)).symm
  · intro s halloc hw
    obtain ⟨s1, hrun, _⟩ := commit_post D s halloc (selectable_of_widths D s _ hw)
    exact ⟨_, s1, hrun⟩
  · intro s halloc
    obtain ⟨s1, hrun, _⟩ := revert_post D s halloc
    exact ⟨_, s1, hrun⟩
  · intro var s halloc hw
    obtain ⟨s1, hrun, _⟩ := commit_info_refs_post D var s halloc (selectable_of_widths D s _ hw)
    exact ⟨_, s1, hrun⟩
  · intro var s halloc
    obtain ⟨s1, hrun, _⟩ := info_refs_with_rewrites D (revert_step D) (fun _ => none) var s
      halloc (revert_step_rewrites D s _)
    exact ⟨_, s1, hrun⟩

/-- C20 on the example: `multiverse_commit` with `x = 7` bound returns 1 and
`multiverse_revert_info_refs` on `x` returns 0, both between 0 and the one
function visited. -/
theorem steps_never_negative_witness :
    (∃ r s1, multiverse_commit example_descriptors (example_state 7 1 none) = some (r, s1) ∧
      0 ≤ r ∧ r ≤ (all_functions example_descriptors).length) ∧
    (∃ r s1, multiverse_revert_info_refs example_descriptors 1 (example_state 7 1 none)
        = some (r, s1) ∧
      0 ≤ r ∧ r ≤ (example_descriptors.vars 1).functions.length) ∧
    (multiverse_commit example_descriptors (example_state 7 1 none)).map (fun x => x.1)
      = some 1 ∧
    (multiverse_revert_info_refs example_descriptors 1 (example_state 7 1 none)).map
      (fun x => x.1) = some 0 :=
  ⟨(by
     obtain ⟨r, s1, h⟩ := (steps_never_negative example_descriptors).2.2.2.2.2.2.2.1
       (example_state 7 1 none) rfl (by decide)
     exact ⟨r, s1, h, (steps_never_negative example_descriptors).2.2.2.1 _ r s1 h⟩),
   (by
     obtain ⟨r, s1, h⟩ := (steps_never_negative example_descriptors).2.2.2.2.2.2.2.2.2.2
       1 (example_state 7 1 none) rfl
     exact ⟨r, s1, h, (steps_never_negative example_descriptors).2.2.2.2.2.2.1 1 _ r s1 h⟩),
   by decide, by decide⟩

/-! ## Active variants and patch points -/

theorem unprotect_installed (D : Descriptors) (ctx : mv_select_ctx_t) (addr : Ptr) (s : State) :
    (multiverse_select_unprotect D ctx addr s).2.installed = s.installed := by
  unfold multiverse_select_unprotect
  simp only
  split
  · rfl
  · split <;> rfl

theorem select_end_loop_installed (D : Descriptors) (ctx : mv_select_ctx_t) :
    ∀ (is : List Nat) (s : State), (select_end_loop D ctx is s).installed = s.installed := by
  intro is
  induction is with
  | nil => intro s; rfl
  | cons i is ih =>
    intro s
    unfold select_end_loop
    split
    · rw [ih]; rfl
    · exact ih s

theorem select_end_consistent (D : Descriptors) (ctx : mv_select_ctx_t) (s : State)
    (h : consistent D s) : consistent D (multiverse_select_end D ctx s) := by
  intro fn i pp hpp hty hloc
  have hi : (multiverse_select_end D ctx s).installed = s.installed :=
    select_end_loop_installed D ctx _ s
  rw [hi, (select_end_same_data D ctx s).2.2.2]
  exact h fn i pp hpp hty hloc

/-- The patch points after the loop of the rewriter: the patch points of the
other functions and the patch points of `fn` before `i` are as they were, and
every patch point of the list that is rewritten has the target installed. -/
theorem select_mvfn_loop_installed (D : Descriptors) (fn : Ptr) (mvfn : Option Nat) :
    ∀ (pps : List mv_patchpoint) (i : Nat) (ctx : mv_select_ctx_t) (s : State),
      (∀ g, g ≠ fn → (select_mvfn_loop D fn mvfn pps i ctx s).2.installed g = s.installed g) ∧
      (∀ j, j < i → (select_mvfn_loop D fn mvfn pps i ctx s).2.installed fn j
        = s.installed fn j) ∧
      (∀ j pp, pps[j]? = some pp → pp.type ≠ PP_TYPE_INVALID → pp.location ≠ 0 →
        (select_mvfn_loop D fn mvfn pps i ctx s).2.installed fn (i + j) = mvfn) := by
  intro pps
  induction pps with
  | nil =>
    intro i ctx s
    refine ⟨fun _ _ => rfl, fun _ _ => rfl, ?_⟩
    intro j pp hj
    simp at hj
  | cons p pps ih =>
    intro i ctx s
    have hskip : (∀ g, g ≠ fn →
          (select_mvfn_loop D fn mvfn pps (i + 1) ctx s).2.installed g = s.installed g) ∧
        (∀ j, j < i → (select_mvfn_loop D fn mvfn pps (i + 1) ctx s).2.installed fn j
          = s.installed fn j) ∧
        (∀ j pp, pps[j]? = some pp → pp.type ≠ PP_TYPE_INVALID → pp.location ≠ 0 →
          (select_mvfn_loop D fn mvfn pps (i + 1) ctx s).2.installed fn (i + (j + 1))
            = mvfn) := by
      obtain ⟨h1, h2, h3⟩ := ih (i + 1) ctx s
      refine ⟨h1, fun j hj => h2 j (by omega), ?_⟩
      intro j pp hj hty hloc
      rw [show i + (j + 1) = i + 1 + j by omega]
      exact h3 j pp hj hty hloc
    unfold select_mvfn_loop
    split
    · rename_i hty
      obtain ⟨h1, h2, h3⟩ := hskip
      refine ⟨h1, h2, ?_⟩
      intro j pp hj hty' hloc'
      cases j with
      | zero =>
        simp only [List.getElem?_cons_zero, Option.some.injEq] at hj
        rw [hj] at hty
        exact absurd hty hty'
      | succ j => exact h3 j pp (by simpa using hj) hty' hloc'
    · split
      · rename_i hloc
        obtain ⟨h1, h2, h3⟩ := hskip
        refine ⟨h1, h2, ?_⟩
        intro j pp hj hty' hloc'
        cases j with
        | zero =>
          simp only [List.getElem?_cons_zero, Option.some.injEq] at hj
          rw [hj] at hloc
          exact absurd hloc hloc'
        | succ j => exact h3 j pp (by simpa using hj) hty' hloc'
      · cases mvfn with
        | none =>
          simp only
          generalize hr2 : multiverse_select_unprotect D
            (multiverse_select_unprotect D ctx p.location s).1 (p.location + 5)
            (multiverse_select_unprotect D ctx p.location s).2 = r2
          have hinst : r2.2.installed = s.installed := by
            rw [← hr2, unprotect_installed, unprotect_installed]
          obtain ⟨h1, h2, h3⟩ := ih (i + 1) r2.1 (multiverse_arch_patchpoint_revert fn i r2.2)
          refine ⟨?_, ?_, ?_⟩
          · intro g hg
            rw [h1 g hg]
            show Function.update r2.2.installed fn _ g = _
            rw [Function.update_noteq hg, hinst]
          · intro j hj
            rw [h2 j (by omega)]
            show Function.update r2.2.installed fn _ fn j = _
            rw [Function.update_same, Function.update_noteq (by omega), hinst]
          · intro j pp hj hty' hloc'
            cases j with
            | zero =>
              refine (h2 i (by omega)).trans ?_
              show Function.update r2.2.installed fn _ fn i = _
              rw [Function.update_same, Function.update_same]
            | succ j =>
              rw [show i + (j + 1) = i + 1 + j by omega]
              exact h3 j pp (by simpa using hj) hty' hloc'
        | some v =>
          simp only
          generalize hr2 : multiverse_select_unprotect D
            (multiverse_select_unprotect D ctx p.location s).1 (p.location + 5)
            (multiverse_select_unprotect D ctx p.location s).2 = r2
          have hinst : r2.2.installed = s.installed := by
            rw [← hr2, unprotect_installed, unprotect_installed]
          obtain ⟨h1, h2, h3⟩ := ih (i + 1) r2.1 (multiverse_arch_patchpoint_apply fn v i r2.2)
          refine ⟨?_, ?_, ?_⟩
          · intro g hg
            rw [h1 g hg]
            show Function.update r2.2.installed fn _ g = _
            rw [Function.update_noteq hg, hinst]
          · intro j hj
            rw [h2 j (by omega)]
            show Function.update r2.2.installed fn _ fn j = _
            rw [Function.update_same, Function.update_noteq (by omega), hinst]
          · intro j pp hj hty' hloc'
            cases j with
            | zero =>
              refine (h2 i (by omega)).trans ?_
              show Function.update r2.2.installed fn _ fn i = _
              rw [Function.update_same, Function.update_same]
            | succ j =>
              rw [show i + (j + 1) = i + 1 + j by omega]
              exact h3 j pp (by simpa using hj) hty' hloc'

/-- The rewriter keeps active variants and patch points consistent. -/
theorem select_mvfn_consistent (D : Descriptors) (ctx : mv_select_ctx_t) (fn : Ptr)
    (mvfn : Option Nat) (s : State) (h : consistent D s) :
    consistent D (multiverse_select_mvfn D ctx fn mvfn s).2.2 := by
  unfold multiverse_select_mvfn
  split
  · exact h
  · obtain ⟨h1, _, h3⟩ := select_mvfn_loop_installed D fn mvfn (D.fns fn).patchpoints 0 ctx s
    have hact := (select_mvfn_loop_same_data D fn mvfn (D.fns fn).patchpoints 0 ctx s).2.2.2
    intro g i pp hpp hty hloc
    simp only
    by_cases hg : g = fn
    · subst hg
      rw [Function.update_same]
      have := h3 i pp hpp hty hloc
      rw [Nat.zero_add] at this
      exact this
    · rw [Function.update_noteq hg, h1 g hg, hact]
      exact h g i pp hpp hty hloc

/-- A property that every step keeps is kept by the loop over functions. -/
theorem fn_loop_keeps (P : State → Prop) (step : Step)
    (hstep : ∀ ctx fn s x, P s → step ctx fn s = some x → P x.2.2) :
    ∀ (l : List Ptr) (ret : Int) (ctx : mv_select_ctx_t) (s : State)
      (x : Int × mv_select_ctx_t × State),
      P s → fn_loop step l ret ctx s = some x → P x.2.2 := by
  intro l
  induction l with
  | nil =>
    intro ret ctx s x hP h
    simp only [fn_loop, Option.some.injEq] at h
    rw [← h]; exact hP
  | cons fn fns ih =>
    intro ret ctx s x hP h
    unfold fn_loop at h
    cases hs : step ctx fn s with
    | none => rw [hs] at h; cases h
    | some y =>
      obtain ⟨r, ctx1, s1⟩ := y
      rw [hs] at h
      have hP1 : P s1 := hstep ctx fn s _ hP hs
      simp only at h
      split at h
      · simp only [Option.some.injEq] at h
        rw [← h]; exact hP1
      · exact ih _ _ _ x hP1 h

/-- A property that every step keeps is kept by the inner loop of
`multiverse_revert`. -/
theorem revert_fn_loop_keeps (P : State → Prop) (step : Step)
    (hstep : ∀ ctx fn s x, P s → step ctx fn s = some x → P x.2.2) :
    ∀ (l : List Ptr) (ret : Int) (ctx : mv_select_ctx_t) (s : State)
      (x : Int × mv_select_ctx_t × State),
      P s → revert_fn_loop step l ret ctx s = some x → P x.2.2 := by
  intro l
  induction l with
  | nil =>
    intro ret ctx s x hP h
    simp only [revert_fn_loop, Option.some.injEq] at h
    rw [← h]; exact hP
  | cons fn fns ih =>
    intro ret ctx s x hP h
    unfold revert_fn_loop at h
    cases hs : step ctx fn s with
    | none => rw [hs] at h; cases h
    | some y =>
      obtain ⟨r, ctx1, s1⟩ := y
      rw [hs] at h
      have hP1 : P s1 := hstep ctx fn s _ hP hs
      simp only at h
      split at h
      · simp only [Option.some.injEq] at h
        rw [← h]; exact hP1
      · exact ih _ _ _ x hP1 h

/-- A property that every step keeps is kept by the loops of
`multiverse_commit`. -/
theorem commit_info_loop_keeps (P : State → Prop) (step : Step)
    (hstep : ∀ ctx fn s x, P s → step ctx fn s = some x → P x.2.2) :
    ∀ (infos : List mv_info) (ret : Int) (ctx : mv_select_ctx_t) (s : State)
      (x : Int × mv_select_ctx_t × State),
      P s → commit_info_loop step infos ret ctx s = some x → P x.2.2 := by
  intro infos
  induction infos with
  | nil =>
    intro ret ctx s x hP h
    simp only [commit_info_loop, Option.some.injEq] at h
    rw [← h]; exact hP
  | cons info infos ih =>
    intro ret ctx s x hP h
    unfold commit_info_loop at h
    cases hs : fn_loop step info.functions ret ctx s with
    | none => rw [hs] at h; cases h
    | some y =>
      obtain ⟨r, ctx1, s1⟩ := y
      rw [hs] at h
      exact ih _ _ _ x (fn_loop_keeps P step hstep _ _ _ _ _ hP hs) h

/-- A property that every step keeps is kept by the loops of
`multiverse_revert`. -/
theorem revert_info_loop_keeps (P : State → Prop) (step : Step)
    (hstep : ∀ ctx fn s x, P s → step ctx fn s = some x → P x.2.2) :
    ∀ (infos : List mv_info) (ret : Int) (ctx : mv_select_ctx_t) (s : State)
      (x : Int × mv_select_ctx_t × State),
      P s → revert_info_loop step infos ret ctx s = some x → P x.2.2 := by
  intro infos
  induction infos with
  | nil =>
    intro ret ctx s x hP h
    simp only [revert_info_loop, Option.some.injEq] at h
    rw [← h]; exact hP
  | cons info infos ih =>
    intro ret ctx s x hP h
    unfold revert_info_loop at h
    cases hs : revert_fn_loop step info.functions ret ctx s with
    | none => rw [hs] at h; cases h
    | some y =>
      obtain ⟨r, ctx1, s1⟩ := y
      rw [hs] at h
      exact ih _ _ _ x (revert_fn_loop_keeps P step hstep _ _ _ _ _ hP hs) h

theorem commit_step_consistent (D : Descriptors) :
    ∀ ctx fn s x, consistent D s → commit_step D ctx fn s = some x → consistent D x.2.2 := by
  intro ctx fn s x hc h
  obtain ⟨best, _, hx⟩ := commit_fn_some D ctx fn s x h
  rw [hx]
  exact select_mvfn_consistent D ctx fn best s hc

theorem revert_step_consistent (D : Descriptors) :
    ∀ ctx fn s x, consistent D s → revert_step D ctx fn s = some x → consistent D x.2.2 := by
  intro ctx fn s x hc h
  have hx : x = multiverse_select_mvfn D ctx fn none s := (Option.some.inj h).symm
  rw [hx]
  exact select_mvfn_consistent D ctx fn none s hc

theorem commit_info_fn_consistent (D : Descriptors) (fn : Ptr) (s : State) (x : Int × State)
    (hc : consistent D s) (h : multiverse_commit_info_fn D fn s = some x) :
    consistent D x.2 := by
  unfold multiverse_commit_info_fn at h
  cases hstart : multiverse_select_start s with
  | none => rw [hstart] at h; cases h
  | some y =>
    obtain ⟨c, s1⟩ := y
    obtain ⟨hc1, hs1⟩ := select_start_some s c s1 hstart
    subst hc1 hs1
    rw [hstart] at h
    simp only at h
    cases hstep : __multiverse_commit_fn D fresh_ctx fn (logged s [Event.calloc]) with
    | none => rw [hstep] at h; cases h
    | some z =>
      obtain ⟨r, ctx1, s2⟩ := z
      rw [hstep] at h
      simp only [Option.some.injEq] at h
      rw [← h]
      exact select_end_consistent D ctx1 s2
        (commit_step_consistent D fresh_ctx fn (logged s [Event.calloc]) _ hc hstep)

theorem revert_info_fn_consistent (D : Descriptors) (fn : Ptr) (s : State) (x : Int × State)
    (hc : consistent D s) (h : multiverse_revert_info_fn D fn s = some x) :
    consistent D x.2 := by
  unfold multiverse_revert_info_fn at h
  cases hstart : multiverse_select_start s with
  | none => rw [hstart] at h; cases h
  | some y =>
    obtain ⟨c, s1⟩ := y
    obtain ⟨hc1, hs1⟩ := select_start_some s c s1 hstart
    subst hc1 hs1
    rw [hstart] at h
    simp only [Option.some.injEq] at h
    rw [← h]
    exact select_end_consistent D _ _
      (select_mvfn_consistent D fresh_ctx fn none (logged s [Event.calloc]) hc)

theorem info_refs_with_consistent (step : Step) (D : Descriptors) (var : Ptr) (s : State)
    (x : Int × State)
    (hstep : ∀ ctx fn s x, consistent D s → step ctx fn s = some x → consistent D x.2.2)
    (hc : consistent D s) (h : info_refs_with step D var s = some x) :
    consistent D x.2 := by
  unfold info_refs_with at h
  cases hstart : multiverse_select_start s with
  | none => rw [hstart] at h; cases h
  | some y =>
    obtain ⟨c, s1⟩ := y
    obtain ⟨hc1, hs1⟩ := select_start_some s c s1 hstart
    subst hc1 hs1
    rw [hstart] at h
    simp only at h
    cases hl : fn_loop step (D.vars var).functions 0 fresh_ctx (logged s [Event.calloc]) with
    | none => rw [hl] at h; cases h
    | some z =>
      obtain ⟨r, ctx1, s2⟩ := z
      rw [hl] at h
      simp only [Option.some.injEq] at h
      rw [← h]
      exact select_end_consistent D ctx1 s2
        (fn_loop_keeps (consistent D) step hstep _ _ _ (logged s [Event.calloc])
          (r, ctx1, s2) hc hl)

theorem commit_with_consistent (step : Step) (D : Descriptors) (s : State) (x : Int × State)
    (hstep : ∀ ctx fn s x, consistent D s → step ctx fn s = some x → consistent D x.2.2)
    (hc : consistent D s) (h : multiverse_commit_with step D s = some x) :
    consistent D x.2 := by
  unfold multiverse_commit_with at h
  cases hstart : multiverse_select_start s with
  | none => rw [hstart] at h; cases h
  | some y =>
    obtain ⟨c, s1⟩ := y
    obtain ⟨hc1, hs1⟩ := select_start_some s c s1 hstart
    subst hc1 hs1
    rw [hstart] at h
    simp only at h
    cases hl : commit_info_loop step D.mv_information 0 fresh_ctx (logged s [Event.calloc]) with
    | none => rw [hl] at h; cases h
    | some z =>
      obtain ⟨r, ctx1, s2⟩ := z
      rw [hl] at h
      simp only [Option.some.injEq] at h
      rw [← h]
      exact select_end_consistent D ctx1 s2
        (commit_info_loop_keeps (consistent D) step hstep _ _ _ (logged s [Event.calloc])
          (r, ctx1, s2) hc hl)

theorem revert_with_consistent (step : Step) (D : Descriptors) (s : State) (x : Int × State)
    (hstep : ∀ ctx fn s x, consistent D s → step ctx fn s = some x → consistent D x.2.2)
    (hc : consistent D s) (h : multiverse_revert_with step D s = some x) :
    consistent D x.2 := by
  unfold multiverse_revert_with at h
  cases hstart : multiverse_select_start s with
  | none => rw [hstart] at h; cases h
  | some y =>
    obtain ⟨c, s1⟩ := y
    obtain ⟨hc1, hs1⟩ := select_start_some s c s1 hstart
    subst hc1 hs1
    rw [hstart] at h
    simp only at h
    cases hl : revert_info_loop step D.mv_information 0 fresh_ctx (logged s [Event.calloc]) with
    | none => rw [hl] at h; cases h
    | some z =>
      obtain ⟨r, ctx1, s2⟩ := z
      rw [hl] at h
      simp only [Option.some.injEq] at h
      rw [← h]
      exact select_end_consistent D ctx1 s2
        (revert_info_loop_keeps (consistent D) step hstep _ _ _ (logged s [Event.calloc])
          (r, ctx1, s2) hc hl)

theorem bind_consistent (D : Descriptors) (var_location : Ptr) (state : Int) (s : State)
    (hc : consistent D s) : consistent D (multiverse_bind D var_location state s).2 := by
  unfold multiverse_bind
  split
  · exact hc
  · split
    · split
      · exact hc
      · exact hc
    · exact hc

/-- Every call keeps active variants and patch points consistent. -/
theorem run_call_consistent (D : Descriptors) (c : Call) (s s1 : State)
    (hc : consistent D s) (h : run_call D c s = some s1) : consistent D s1 := by
  have hmap : ∀ (o : Option (Int × State)),
      (∀ x, o = some x → consistent D x.2) → o.map (fun r => r.2) = some s1 →
      consistent D s1 := by
    intro o ho hm
    cases o with
    | none => cases hm
    | some x =>
      simp only [Option.map_some', Option.some.injEq] at hm
      rw [← hm]
      exact ho x rfl
  cases c with
  | commit_fn function_body =>
    refine hmap _ ?_ h
    intro x hx
    unfold multiverse_commit_fn at hx
    split at hx
    · simp only [Option.some.injEq] at hx
      rw [← hx]; exact hc
    · exact commit_info_fn_consistent D _ s x hc hx
  | commit_info_fn fn =>
    exact hmap _ (fun x hx => commit_info_fn_consistent D fn s x hc hx) h
  | commit_refs variable_location =>
    refine hmap _ ?_ h
    intro x hx
    unfold multiverse_commit_refs at hx
    split at hx
    · simp only [Option.some.injEq] at hx
      rw [← hx]; exact hc
    · exact info_refs_with_consistent _ D _ s x (commit_step_consistent D) hc hx
  | commit_info_refs var =>
    exact hmap _
      (fun x hx => info_refs_with_consistent _ D var s x (commit_step_consistent D) hc hx) h
  | commit =>
    exact hmap _
      (fun x hx => commit_with_consistent _ D s x (commit_step_consistent D) hc hx) h
  | revert_fn function_body =>
    refine hmap _ ?_ h
    intro x hx
    unfold multiverse_revert_fn at hx
    split at hx
    · simp only [Option.some.injEq] at hx
      rw [← hx]; exact hc
    · exact revert_info_fn_consistent D _ s x hc hx
  | revert_info_fn fn =>
    exact hmap _ (fun x hx => revert_info_fn_consistent D fn s x hc hx) h
  | revert_refs variable_location =>
    refine hmap _ ?_ h
    intro x hx
    unfold multiverse_revert_refs at hx
    split at hx
    · simp only [Option.some.injEq] at hx
      rw [← hx]; exact hc
    · exact info_refs_with_consistent _ D _ s x (revert_step_consistent D) hc hx
  | revert_info_refs var =>
    exact hmap _
      (fun x hx => info_refs_with_consistent _ D var s x (revert_step_consistent D) hc hx) h
  | revert =>
    exact hmap _
      (fun x hx => revert_with_consistent _ D s x (revert_step_consistent D) hc hx) h
  | bind var_location state =>
    simp only [run_call, Option.some.injEq] at h
    rw [← h]
    exact bind_consistent D var_location state s hc

theorem run_calls_consistent (D : Descriptors) :
    ∀ (cs : List Call) (s s1 : State), consistent D s → run_calls D cs s = some s1 →
      consistent D s1 := by
  intro cs
  induction cs with
  | nil =>
    intro s s1 hc h
    simp only [run_calls, Option.some.injEq] at h
    rw [← h]; exact hc
  | cons c cs ih =>
    intro s s1 hc h
    unfold run_calls at h
    cases hr : run_call D c s with
    | none => rw [hr] at h; cases h
    | some s2 =>
      rw [hr] at h
      exact ih s2 s1 (run_call_consistent D c s s2 hc hr) h

theorem widths_valid_of_all (D : Descriptors) (s : State) (fn : Ptr)
    (h : ∀ v, valid_width (D.vars v)) : widths_valid D s fn :=
  fun _ _ a _ _ => h a.var

/-- Every call returns when the context allocation succeeds and every
variable has a valid width, and the allocation keeps succeeding. -/
theorem run_call_returns (D : Descriptors) (c : Call) (s : State)
    (halloc : s.calloc_ok = true) (hw : ∀ v, valid_width (D.vars v)) :
    ∃ s1, run_call D c s = some s1 ∧ s1.calloc_ok = true := by
  have hsel : ∀ (t : State) (l : List Ptr), ∀ fn ∈ l, ∃ best, best_mvfn D t fn = some best :=
    fun t l => selectable_of_widths D t l (fun fn _ => widths_valid_of_all D t fn hw)
  have hfn : ∀ fn, ∃ s1, (multiverse_commit_info_fn D fn s).map (fun r => r.2) = some s1 ∧
      s1.calloc_ok = true := by
    intro fn
    obtain ⟨best, hbest⟩ := best_mvfn_total D s fn (widths_valid_of_all D s fn hw)
    obtain ⟨s1, hrun, hc, _⟩ := commit_info_fn_post D fn s halloc best hbest
    exact ⟨s1, by rw [hrun]; rfl, hc.trans halloc⟩
  have hrefs : ∀ var, ∃ s1, (multiverse_commit_info_refs D var s).map (fun r => r.2) = some s1 ∧
      s1.calloc_ok = true := by
    intro var
    obtain ⟨s1, hrun, hc, _⟩ := commit_info_refs_post D var s halloc (hsel s _)
    exact ⟨s1, by rw [hrun]; rfl, hc.trans halloc⟩
  have hrfn : ∀ fn, ∃ s1, (multiverse_revert_info_fn D fn s).map (fun r => r.2) = some s1 ∧
      s1.calloc_ok = true := by
    intro fn
    obtain ⟨s1, hrun, hc, _⟩ := revert_info_fn_post D fn s halloc
    exact ⟨s1, by rw [hrun]; rfl, hc.trans halloc⟩
  have hrrefs : ∀ var, ∃ s1, (multiverse_revert_info_refs D var s).map (fun r => r.2) = some s1 ∧
      s1.calloc_ok = true := by
    intro var
    obtain ⟨s1, hrun, hc, _⟩ := info_refs_with_rewrites D (revert_step D) (fun _ => none) var s
      halloc (revert_step_rewrites D s _)
    have hrun' : multiverse_revert_info_refs D var s = _ := hrun
    exact ⟨s1, by rw [hrun']; rfl, hc.trans halloc⟩
  cases c with
  | commit_fn function_body =>
    show ∃ s1, (multiverse_commit_fn D function_body s).map (fun r => r.2) = some s1 ∧ _
    unfold multiverse_commit_fn
    split
    · exact ⟨s, rfl, halloc⟩
    · exact hfn _
  | commit_info_fn fn => exact hfn fn
  | commit_refs variable_location =>
    show ∃ s1, (multiverse_commit_refs D variable_location s).map (fun r => r.2) = some s1 ∧ _
    unfold multiverse_commit_refs
    split
    · exact ⟨s, rfl, halloc⟩
    · exact hrefs _
  | commit_info_refs var => exact hrefs var
  | commit =>
    obtain ⟨s1, hrun, hc, _⟩ := commit_post D s halloc (hsel s _)
    exact ⟨s1, by show (multiverse_commit D s).map (fun r => r.2) = _; rw [hrun]; rfl,
      hc.trans halloc⟩
  | revert_fn function_body =>
    show ∃ s1, (multiverse_revert_fn D function_body s).map (fun r => r.2) = some s1 ∧ _
    unfold multiverse_revert_fn
    split
    · exact ⟨s, rfl, halloc⟩
    · exact hrfn _
  | revert_info_fn fn => exact hrfn fn
  | revert_refs variable_location =>
    show ∃ s1, (multiverse_revert_refs D variable_location s).map (fun r => r.2) = some s1 ∧ _
    unfold multiverse_revert_refs
    split
    · exact ⟨s, rfl, halloc⟩
    · exact hrrefs _
  | revert_info_refs var => exact hrrefs var
  | revert =>
    obtain ⟨s1, hrun, hc, _⟩ := revert_post D s halloc
    exact ⟨s1, by show (multiverse_revert D s).map (fun r => r.2) = _; rw [hrun]; rfl,
      hc.trans halloc⟩
  | bind var_location state =>
    refine ⟨_, rfl, ?_⟩
    unfold multiverse_bind
    split
    · exact halloc
    · split
      · split
        · exact halloc
        · exact halloc
      · exact halloc

theorem run_calls_returns (D : Descriptors) (hw : ∀ v, valid_width (D.vars v)) :
    ∀ (cs : List Call) (s : State), s.calloc_ok = true → ∃ s1, run_calls D cs s = some s1 := by
  intro cs
  induction cs with
  | nil => intro s _; exact ⟨s, rfl⟩
  | cons c cs ih =>
    intro s halloc
    obtain ⟨s2, hrun, hc2⟩ := run_call_returns D c s halloc hw
    obtain ⟨s1, h1⟩ := ih s2 hc2
    refine ⟨s1, ?_⟩
    unfold run_calls
    rw [hrun]
    exact h1

/-- C15: active variants and patch points stay consistent.  Start in a state
in which no function has an active variant and every patch point is generic.
After any sequence of calls of the commit and revert entry points and of
`multiverse_bind` that returns, every patch point of every function with a
kind other than `Invalid` and with a location has the active variant of its
function installed (is generic when the function has none).  And every such
sequence does return when the context allocation succeeds and every variable
has a valid width. -/
theorem active_variant_consistent (D : Descriptors) (s : State) (calls : List Call)
    (hactive : ∀ fn, s.active_mvfn fn = none) (hgeneric : ∀ fn i, s.installed fn i = none) :
    (∀ s1, run_calls D calls s = some s1 →
      ∀ fn i pp, (D.fns fn).patchpoints[i]? = some pp → pp.type ≠ PP_TYPE_INVALID →
        pp.location ≠ 0 → s1.installed fn i = s1.active_mvfn fn) ∧
    (s.calloc_ok = true → (∀ v, valid_width (D.vars v)) →
      ∃ s1, run_calls D calls s = some s1) := by
  have h0 : consistent D s := by
    intro fn i pp _ _ _
    rw [hactive fn, hgeneric fn i]
  exact ⟨fun s1 hrun => run_calls_consistent D calls s s1 h0 hrun,
    fun halloc hw => run_calls_returns D hw calls s halloc⟩

/-- C15 on the example: from the state without active variants, with `x = 7`
unbound, the calls `bind(&x, 1)`, `commit`, `revert_fn`, `commit_refs(&x)`
return; afterwards the function at 10 has variant B (number 1) active and
installed at its patch point. -/
theorem active_variant_consistent_witness :
    ∃ s1, run_calls example_descriptors
        [Call.bind 1000 1, Call.commit, Call.revert_fn 7000, Call.commit_refs 1000]
        (example_state 7 0 none) = some s1 ∧
      (∀ fn i pp, (example_descriptors.fns fn).patchpoints[i]? = some pp →
        pp.type ≠ PP_TYPE_INVALID → pp.location ≠ 0 →
        s1.installed fn i = s1.active_mvfn fn) ∧
      s1.active_mvfn 10 = some 1 ∧ s1.installed 10 0 = some 1 := by
  have hex : ∃ s1, run_calls example_descriptors
      [Call.bind 1000 1, Call.commit, Call.revert_fn 7000, Call.commit_refs 1000]
      (example_state 7 0 none) = some s1 := Option.isSome_iff_exists.mp (by decide)
  obtain ⟨s1, h⟩ := hex
  have hmap : (run_calls example_descriptors
      [Call.bind 1000 1, Call.commit, Call.revert_fn 7000, Call.commit_refs 1000]
      (example_state 7 0 none)).map (fun t => (t.active_mvfn 10, t.installed 10 0))
      = some (some 1, some 1) := by decide
  rw [h] at hmap
  simp only [Option.map_some', Option.some.injEq, Prod.mk.injEq] at hmap
  refine ⟨s1, h, ?_, hmap.1, hmap.2⟩
  exact (active_variant_consistent example_descriptors (example_state 7 0 none) _
    (fun fn => by show (if fn = 10 then none else none) = none; split <;> rfl)
    (fun fn i => by show (if fn = 10 then none else none) = none; split <;> rfl)).1 s1 h

/-! ## The pages at the time of a rewrite, in every entry point -/

theorem commit_step_guarded (D : Descriptors) (hreal : ∀ fn, real_patchpoints D fn)
    (s0 : State) :
    ∀ ctx fn s x,
      (cache_shape ctx ∧ cache_writable ctx s ∧ writes_guarded D s0 s) →
      commit_step D ctx fn s = some x →
      (cache_shape x.2.1 ∧ cache_writable x.2.1 x.2.2 ∧ writes_guarded D s0 x.2.2) := by
  intro ctx fn s x hQ h
  obtain ⟨best, _, hx⟩ := commit_fn_some D ctx fn s x h
  obtain ⟨hg, hs1, hcw1⟩ := select_mvfn_guarded D ctx fn best s hQ.1 hQ.2.1 (hreal fn)
  rw [hx]
  exact ⟨hs1, hcw1, writes_guarded_trans hQ.2.2 hg⟩

theorem revert_step_guarded (D : Descriptors) (hreal : ∀ fn, real_patchpoints D fn)
    (s0 : State) :
    ∀ ctx fn s x,
      (cache_shape ctx ∧ cache_writable ctx s ∧ writes_guarded D s0 s) →
      revert_step D ctx fn s = some x →
      (cache_shape x.2.1 ∧ cache_writable x.2.1 x.2.2 ∧ writes_guarded D s0 x.2.2) := by
  intro ctx fn s x hQ h
  have hx : x = multiverse_select_mvfn D ctx fn none s := (Option.some.inj h).symm
  obtain ⟨hg, hs1, hcw1⟩ := select_mvfn_guarded D ctx fn none s hQ.1 hQ.2.1 (hreal fn)
  rw [hx]
  exact ⟨hs1, hcw1, writes_guarded_trans hQ.2.2 hg⟩

theorem fresh_guarded (D : Descriptors) (s : State) :
    cache_shape fresh_ctx ∧ cache_writable fresh_ctx (logged s [Event.calloc]) ∧
      writes_guarded D s (logged s [Event.calloc]) :=
  ⟨fresh_ctx_shape, fresh_ctx_writable _, calloc_guarded D s⟩

theorem commit_info_fn_guarded (D : Descriptors) (hreal : ∀ fn, real_patchpoints D fn)
    (fn : Ptr) (s : State) (x : Int × State)
    (h : multiverse_commit_info_fn D fn s = some x) : writes_guarded D s x.2 := by
  unfold multiverse_commit_info_fn at h
  cases hstart : multiverse_select_start s with
  | none => rw [hstart] at h; cases h
  | some y =>
    obtain ⟨c, s1⟩ := y
    obtain ⟨hc1, hs1⟩ := select_start_some s c s1 hstart
    subst hc1 hs1
    rw [hstart] at h
    simp only at h
    cases hstep : __multiverse_commit_fn D fresh_ctx fn (logged s [Event.calloc]) with
    | none => rw [hstep] at h; cases h
    | some z =>
      obtain ⟨r, ctx1, s2⟩ := z
      rw [hstep] at h
      simp only [Option.some.injEq] at h
      rw [← h]
      have hQ := commit_step_guarded D hreal s fresh_ctx fn (logged s [Event.calloc])
        (r, ctx1, s2) (fresh_guarded D s) hstep
      exact writes_guarded_trans hQ.2.2 (select_end_guarded D ctx1 s2)

theorem revert_info_fn_guarded (D : Descriptors) (hreal : ∀ fn, real_patchpoints D fn)
    (fn : Ptr) (s : State) (x : Int × State)
    (h : multiverse_revert_info_fn D fn s = some x) : writes_guarded D s x.2 := by
  unfold multiverse_revert_info_fn at h
  cases hstart : multiverse_select_start s with
  | none => rw [hstart] at h; cases h
  | some y =>
    obtain ⟨c, s1⟩ := y
    obtain ⟨hc1, hs1⟩ := select_start_some s c s1 hstart
    subst hc1 hs1
    rw [hstart] at h
    simp only [Option.some.injEq] at h
    rw [← h]
    obtain ⟨hg, _, _⟩ := select_mvfn_guarded D fresh_ctx fn none (logged s [Event.calloc])
      fresh_ctx_shape (fresh_ctx_writable _) (hreal fn)
    exact writes_guarded_trans (calloc_guarded D s)
      (writes_guarded_trans hg (select_end_guarded D _ _))

theorem info_refs_with_guarded (step : Step) (D : Descriptors) (var : Ptr) (s : State)
    (x : Int × State)
    (hstep : ∀ ctx fn t y,
      (cache_shape ctx ∧ cache_writable ctx t ∧ writes_guarded D s t) →
      step ctx fn t = some y →
      (cache_shape y.2.1 ∧ cache_writable y.2.1 y.2.2 ∧ writes_guarded D s y.2.2))
    (h : info_refs_with step D var s = some x) : writes_guarded D s x.2 := by
  unfold info_refs_with at h
  cases hstart : multiverse_select_start s with
  | none => rw [hstart] at h; cases h
  | some y =>
    obtain ⟨c, s1⟩ := y
    obtain ⟨hc1, hs1⟩ := select_start_some s c s1 hstart
    subst hc1 hs1
    rw [hstart] at h
    simp only at h
    cases hl : fn_loop step (D.vars var).functions 0 fresh_ctx (logged s [Event.calloc]) with
    | none => rw [hl] at h; cases h
    | some z =>
      obtain ⟨r, ctx1, s2⟩ := z
      rw [hl] at h
      simp only [Option.some.injEq] at h
      rw [← h]
      have hQ := fn_loop_keeps_ctx
        (fun ctx t => cache_shape ctx ∧ cache_writable ctx t ∧ writes_guarded D s t)
        step hstep _ 0 fresh_ctx (logged s [Event.calloc]) (r, ctx1, s2) (fresh_guarded D s) hl
      exact writes_guarded_trans hQ.2.2 (select_end_guarded D ctx1 s2)

theorem commit_with_guarded (step : Step) (D : Descriptors) (s : State) (x : Int × State)
    (hstep : ∀ ctx fn t y,
      (cache_shape ctx ∧ cache_writable ctx t ∧ writes_guarded D s t) →
      step ctx fn t = some y →
      (cache_shape y.2.1 ∧ cache_writable y.2.1 y.2.2 ∧ writes_guarded D s y.2.2))
    (h : multiverse_commit_with step D s = some x) : writes_guarded D s x.2 := by
  unfold multiverse_commit_with at h
  cases hstart : multiverse_select_start s with
  | none => rw [hstart] at h; cases h
  | some y =>
    obtain ⟨c, s1⟩ := y
    obtain ⟨hc1, hs1⟩ := select_start_some s c s1 hstart
    subst hc1 hs1
    rw [hstart] at h
    simp only at h
    cases hl : commit_info_loop step D.mv_information 0 fresh_ctx (logged s [Event.calloc]) with
    | none => rw [hl] at h; cases h
    | some z =>
      obtain ⟨r, ctx1, s2⟩ := z
      rw [hl] at h
      simp only [Option.some.injEq] at h
      rw [← h]
      have hQ := commit_info_loop_keeps_ctx
        (fun ctx t => cache_shape ctx ∧ cache_writable ctx t ∧ writes_guarded D s t)
        step hstep _ 0 fresh_ctx (logged s [Event.calloc]) (r, ctx1, s2) (fresh_guarded D s) hl
      exact writes_guarded_trans hQ.2.2 (select_end_guarded D ctx1 s2)

theorem revert_with_guarded (step : Step) (D : Descriptors) (s : State) (x : Int × State)
    (hstep : ∀ ctx fn t y,
      (cache_shape ctx ∧ cache_writable ctx t ∧ writes_guarded D s t) →
      step ctx fn t = some y →
      (cache_shape y.2.1 ∧ cache_writable y.2.1 y.2.2 ∧ writes_guarded D s y.2.2))
    (h : multiverse_revert_with step D s = some x) : writes_guarded D s x.2 := by
  unfold multiverse_revert_with at h
  cases hstart : multiverse_select_start s with
  | none => rw [hstart] at h; cases h
  | some y =>
    obtain ⟨c, s1⟩ := y
    obtain ⟨hc1, hs1⟩ := select_start_some s c s1 hstart
    subst hc1 hs1
    rw [hstart] at h
    simp only at h
    cases hl : revert_info_loop step D.mv_information 0 fresh_ctx (logged s [Event.calloc]) with
    | none => rw [hl] at h; cases h
    | some z =>
      obtain ⟨r, ctx1, s2⟩ := z
      rw [hl] at h
      simp only [Option.some.injEq] at h
      rw [← h]
      have hQ := revert_info_loop_keeps_ctx
        (fun ctx t => cache_shape ctx ∧ cache_writable ctx t ∧ writes_guarded D s t)
        step hstep _ 0 fresh_ctx (logged s [Event.calloc]) (r, ctx1, s2) (fresh_guarded D s) hl
      exact writes_guarded_trans hQ.2.2 (select_end_guarded D ctx1 s2)

theorem bind_guarded (D : Descriptors) (var_location : Ptr) (state : Int) (s : State) :
    writes_guarded D s (multiverse_bind D var_location state s).2 := by
  unfold multiverse_bind
  split
  · exact writes_guarded_refl D s
  · split
    · split
      · exact writes_guarded_refl D s
      · exact ⟨[], by simp, trivial, rfl⟩
    · exact writes_guarded_refl D s

/-- In every call of an entry point, on a program whose patch points lie in
mapped code, every call to the back end finds its pages writable. -/
theorem run_call_guarded (D : Descriptors) (hreal : ∀ fn, real_patchpoints D fn)
    (c : Call) (s s1 : State) (h : run_call D c s = some s1) : writes_guarded D s s1 := by
  have hmap : ∀ (o : Option (Int × State)),
      (∀ x, o = some x → writes_guarded D s x.2) → o.map (fun r => r.2) = some s1 →
      writes_guarded D s s1 := by
    intro o ho hm
    cases o with
    | none => cases hm
    | some x =>
      simp only [Option.map_some', Option.some.injEq] at hm
      rw [← hm]
      exact ho x rfl
  cases c with
  | commit_fn function_body =>
    refine hmap _ ?_ h
    intro x hx
    unfold multiverse_commit_fn at hx
    split at hx
    · simp only [Option.some.injEq] at hx
      rw [← hx]; exact writes_guarded_refl D s
    · exact commit_info_fn_guarded D hreal _ s x hx
  | commit_info_fn fn =>
    exact hmap _ (fun x hx => commit_info_fn_guarded D hreal fn s x hx) h
  | commit_refs variable_location =>
    refine hmap _ ?_ h
    intro x hx
    unfold multiverse_commit_refs at hx
    split at hx
    · simp only [Option.some.injEq] at hx
      rw [← hx]; exact writes_guarded_refl D s
    · exact info_refs_with_guarded _ D _ s x (commit_step_guarded D hreal s) hx
  | commit_info_refs var =>
    exact hmap _
      (fun x hx => info_refs_with_guarded _ D var s x (commit_step_guarded D hreal s) hx) h
  | commit =>
    exact hmap _
      (fun x hx => commit_with_guarded _ D s x (commit_step_guarded D hreal s) hx) h
  | revert_fn function_body =>
    refine hmap _ ?_ h
    intro x hx
    unfold multiverse_revert_fn at hx
    split at hx
    · simp only [Option.some.injEq] at hx
      rw [← hx]; exact writes_guarded_refl D s
    · exact revert_info_fn_guarded D hreal _ s x hx
  | revert_info_fn fn =>
    exact hmap _ (fun x hx => revert_info_fn_guarded D hreal fn s x hx) h
  | revert_refs variable_location =>
    refine hmap _ ?_ h
    intro x hx
    unfold multiverse_revert_refs at hx
    split at hx
    · simp only [Option.some.injEq] at hx
      rw [← hx]; exact writes_guarded_refl D s
    · exact info_refs_with_guarded _ D _ s x (revert_step_guarded D hreal s) hx
  | revert_info_refs var =>
    exact hmap _
      (fun x hx => info_refs_with_guarded _ D var s x (revert_step_guarded D hreal s) hx) h
  | revert =>
    exact hmap _
      (fun x hx => revert_with_guarded _ D s x (revert_step_guarded D hreal s) hx) h
  | bind var_location state =>
    simp only [run_call, Option.some.injEq] at h
    rw [← h]
    exact bind_guarded D var_location state s

/-- C17: the pages are writable when the rewriter runs.  Patch points are
taken to lie in mapped code (no location and no location + 5 on page 0).
(1) Whatever the cache holds: take the context of `multiverse_select_start`
after any sequence of earlier `multiverse_select_unprotect` calls on
non-`NULL` pages; every call to the architecture back end that
`multiverse_select_mvfn` then logs for a patch point finds, at the time of the
call, the page of its location and the page of its location + 5 writable.
(2) The same from every context of the cache shape whose cached pages are
writable, and the context is of that kind again afterwards.  (3) In every
returning call of an entry point, every call to the back end finds both pages
of its patch point writable.  (4) In the loop a patch point that is `Invalid`
or has no location is passed over: no `multiverse_select_unprotect` and no
call to the back end. -/
theorem rewriter_pages_writable (D : Descriptors) :
    (∀ s0 ctx0 s1 addrs fn T, multiverse_select_start s0 = some (some ctx0, s1) →
      (∀ a ∈ addrs, page_of D.pagesize a ≠ 0) → real_patchpoints D fn →
      ∃ es,
        (multiverse_select_mvfn D (unprotect_all D addrs (ctx0, s1)).1 fn T
            (unprotect_all D addrs (ctx0, s1)).2).2.2.log
          = (unprotect_all D addrs (ctx0, s1)).2.log ++ es ∧
        arch_calls_writable D (unprotect_all D addrs (ctx0, s1)).2.writable es) ∧
    (∀ ctx fn T s, cache_shape ctx → cache_writable ctx s → real_patchpoints D fn →
      ∃ es, (multiverse_select_mvfn D ctx fn T s).2.2.log = s.log ++ es ∧
        arch_calls_writable D s.writable es ∧
        cache_shape (multiverse_select_mvfn D ctx fn T s).2.1 ∧
        cache_writable (multiverse_select_mvfn D ctx fn T s).2.1
          (multiverse_select_mvfn D ctx fn T s).2.2) ∧
    ((∀ fn, real_patchpoints D fn) → ∀ c s s1, run_call D c s = some s1 →
      ∃ es, s1.log = s.log ++ es ∧ arch_calls_writable D s.writable es) ∧
    (∀ fn T pp pps i c t, pp.type = PP_TYPE_INVALID ∨ pp.location = 0 →
      select_mvfn_loop D fn T (pp :: pps) i c t = select_mvfn_loop D fn T pps (i + 1) c t) := by
  refine ⟨?_, ?_, ?_, ?_⟩
  · intro s0 ctx0 s1 addrs fn T hstart hnz hreal
    obtain ⟨hc, _⟩ := select_start_some s0 (some ctx0) s1 hstart
    have hctx : ctx0 = fresh_ctx := Option.some.inj hc
    subst hctx
    obtain ⟨hs, hcw⟩ :=
      unprotect_all_writable D addrs fresh_ctx s1 fresh_ctx_shape (fresh_ctx_writable s1) hnz
    obtain ⟨⟨es, hl, ha, _⟩, _, _⟩ := select_mvfn_guarded D _ fn T _ hs hcw hreal
    exact ⟨es, hl, ha⟩
  · intro ctx fn T s hs hcw hreal
    obtain ⟨⟨es, hl, ha, _⟩, hs1, hcw1⟩ := select_mvfn_guarded D ctx fn T s hs hcw hreal
    exact ⟨es, hl, ha, hs1, hcw1⟩
  · intro hreal c s s1 h
    obtain ⟨es, hl, ha, _⟩ := run_call_guarded D hreal c s s1 h
    exact ⟨es, hl, ha⟩
  · intro fn T pp pps i c t h
    rcases h with h | h
    · rw [select_mvfn_loop, if_pos h]
    · rw [select_mvfn_loop, if_pos h]
      split <;> rfl

/-- C17 on the example: the context of `multiverse_select_start` after
requests for the pages 4096 to 40960 holds the last nine of them; the rewriter
then sets variant B at the patch point at 8192, which is cached, and logs only
the call to the back end.  And in `multiverse_commit` the call to the back end
comes after the `mprotect` that makes page 8192 writable and before the one
that re-protects it. -/
theorem rewriter_pages_writable_witness :
    (multiverse_select_start (example_state 7 1 none)
        = some (some fresh_ctx, logged (example_state 7 1 none) [Event.calloc]) ∧
      (∀ a ∈ distinct_page_addrs 10, page_of example_descriptors.pagesize a ≠ 0) ∧
      real_patchpoints example_descriptors 10) ∧
    (∃ es,
      (multiverse_select_mvfn example_descriptors
          (unprotect_all example_descriptors (distinct_page_addrs 10)
            (fresh_ctx, logged (example_state 7 1 none) [Event.calloc])).1 10 (some 1)
          (unprotect_all example_descriptors (distinct_page_addrs 10)
            (fresh_ctx, logged (example_state 7 1 none) [Event.calloc])).2).2.2.log
        = (unprotect_all example_descriptors (distinct_page_addrs 10)
            (fresh_ctx, logged (example_state 7 1 none) [Event.calloc])).2.log ++ es ∧
      arch_calls_writable example_descriptors
        (unprotect_all example_descriptors (distinct_page_addrs 10)
          (fresh_ctx, logged (example_state 7 1 none) [Event.calloc])).2.writable es) ∧
    ((multiverse_select_mvfn example_descriptors
          (unprotect_all example_descriptors (distinct_page_addrs 10)
            (fresh_ctx, logged (example_state 7 1 none) [Event.calloc])).1 10 (some 1)
          (unprotect_all example_descriptors (distinct_page_addrs 10)
            (fresh_ctx, logged (example_state 7 1 none) [Event.calloc])).2).2.2.log.drop 11
        = [Event.arch_apply 10 1 0]) ∧
    (multiverse_commit example_descriptors (example_state 7 1 none)).map (fun x => x.2.log)
      = some [Event.calloc, Event.mprotect 8192 Prot.read_write_exec,
          Event.arch_apply 10 1 0, Event.mprotect 8192 Prot.read_exec, Event.free] :=
  ⟨⟨rfl, by decide, by decide⟩,
   (rewriter_pages_writable example_descriptors).1 (example_state 7 1 none) fresh_ctx
     (logged (example_state 7 1 none) [Event.calloc]) (distinct_page_addrs 10) 10 (some 1)
     rfl (by decide) (by decide),
   by decide, by decide⟩

end Multiverse
